import Mathlib

/-!
# matrixes.c: Gaussian elimination over exact fractions

A shallow embedding of `src/matrixes.c` (the `fraction` instantiation of the
`simplify_matrix` macro together with the rational arithmetic it calls) and
theorems about it.

Modelling conventions.

* C `int` is `Int` in the definitions of the first sections: the statements
  about them are about runs in which no `int` operation overflows, so the
  arithmetic is exact.  The section on 32-bit `int` repeats `reduction` and
  the operations with wrap-around; the statements that must hold on every
  32-bit value, `INT_MIN` included, are about those.  C `/` and `%` truncate
  towards zero: `Int.tdiv` and `Int.tmod`.
* The global `prime_numbers` (a zero-terminated array filled in by
  `initialize_prime_numbers`) is passed explicitly as a list `prime_numbers`,
  the terminating `0` included.
* `fraction *matrix[]` is a list of rows, a row being a list of `fraction`s;
  a read `matrix[y][x]` is `cell`, a write `matrix[y][x] = v` is `set_elem`,
  the exchange of two row pointers is `swap_rows`.  `rows` and `columns` are
  separate arguments, as in the C signature.
* Loops whose trip count is fixed on entry are folds over the index range or
  structural recursions on the number of remaining iterations; the two
  loops that are not (`while` in `reduction`, the cursor loop of the forward
  elimination) take a step budget that is proved sufficient
  (`reduction_while_exhausts`, `forward_loop_cursor`).
-/

namespace Matrixes

/-! ## Rational numbers -/

/-- The C struct `fraction`: `typedef struct { int numerator; int denominator; } fraction;`. -/
structure fraction where
  numerator : Int
  denominator : Int
deriving DecidableEq

/-- C library `abs` on `int`, in exact arithmetic (`c_abs_int32` is the function on 32-bit
`int`, which differs at `INT_MIN`). -/
def c_abs (x : Int) : Int := if x < 0 then -x else x

/-- The inner loop of `reduction`:
`while (x.numerator % p == 0 && x.denominator % p == 0) { x.numerator /= p; x.denominator /= p; }`.
The first argument bounds the number of iterations. -/
def reduction_while (p : Int) : Nat → fraction → fraction
  | 0, x => x
  | fuel + 1, x =>
    if x.numerator.tmod p = 0 ∧ x.denominator.tmod p = 0 then
      reduction_while p fuel ⟨x.numerator.tdiv p, x.denominator.tdiv p⟩
    else x

/-- The outer loop of `reduction`, on the part of the table from index `i` on:
`for (...; prime_numbers[i] <= abs(x.numerator) && prime_numbers[i] <= x.denominator
&& prime_numbers[i] != 0; ++i) while ...`.  The inner loop gets `|x.numerator|` steps, which is more than it
can use when the table entry is at least 2 (`reduction_while_exhausts`).  A table ends with 0, where
the loop stops, so the end of the list is only reached on a list without terminator. -/
def reduction_for : List Int → fraction → fraction
  | [], x => x
  | p :: rest, x =>
    if p ≤ c_abs x.numerator ∧ p ≤ x.denominator ∧ p ≠ 0 then
      reduction_for rest (reduction_while p x.numerator.natAbs x)
    else x

/-- The C function `reduction`, reading the table `prime_numbers`, in exact arithmetic
(`reduction_int32` is the function on 32-bit `int`; the two agree when neither member of `x` is
`INT_MIN`: `reduction_int32_eq`). -/
def reduction (prime_numbers : List Int) (x : fraction) : fraction :=
  let x : fraction :=
    if x.denominator < 0 then ⟨x.numerator * -1, x.denominator * -1⟩ else x
  if x.numerator = 0 then
    ⟨x.numerator, 1⟩
  else if c_abs x.numerator = x.denominator then
    ⟨x.numerator.tdiv x.denominator, x.denominator.tdiv x.denominator⟩
  else
    reduction_for prime_numbers x

/-- The C function `fraction_div`: `a.numerator *= b.denominator; a.denominator *= b.numerator;
return reduction(a);`. -/
def fraction_div (prime_numbers : List Int) (a b : fraction) : fraction :=
  reduction prime_numbers ⟨a.numerator * b.denominator, a.denominator * b.numerator⟩

/-- The C function `fraction_mul`. -/
def fraction_mul (prime_numbers : List Int) (a b : fraction) : fraction :=
  reduction prime_numbers ⟨a.numerator * b.numerator, a.denominator * b.denominator⟩

/-- The C function `fraction_int2type`: `{x, 1}`. -/
def fraction_int2type (x : Int) : fraction := ⟨x, 1⟩

/-- The C function `fraction_is_zero`. -/
def fraction_is_zero (x : fraction) : Bool := x.numerator == 0

/-- The C function `fraction_sub`: the numerator is assigned first, from the old denominator of `a`. -/
def fraction_sub (prime_numbers : List Int) (a b : fraction) : fraction :=
  reduction prime_numbers
    ⟨a.numerator * b.denominator - b.numerator * a.denominator, a.denominator * b.denominator⟩

/-! ## The elimination engine -/

/-- The read `matrix[y][x]` (the fallback `{0, 1}` stands for a read outside the grid, which a
call on a `rows` by `columns` grid never makes). -/
def cell (matrix : List (List fraction)) (y x : Nat) : fraction :=
  (matrix.getD y []).getD x ⟨0, 1⟩

/-- The write `matrix[y][x] = v`. -/
def set_elem (matrix : List (List fraction)) (y x : Nat) (v : fraction) : List (List fraction) :=
  matrix.set y ((matrix.getD y []).set x v)

/-- The exchange `tmp = matrix[y0]; matrix[y0] = matrix[y]; matrix[y] = tmp;` of two row pointers. -/
def swap_rows (matrix : List (List fraction)) (y0 y : Nat) : List (List fraction) :=
  let tmp := matrix.getD y0 []
  (matrix.set y0 (matrix.getD y [])).set y tmp

/-- Pivot search of the forward elimination:
`if (is_zero(matrix[y0][x0])) for (int y = y0 + 1; y < rows; ++y) if (!is_zero(matrix[y][x0])) { swap; break; }`. -/
def pivot_search (rows x0 y0 : Nat) (matrix : List (List fraction)) : List (List fraction) :=
  if fraction_is_zero (cell matrix y0 x0) then
    match (List.range' (y0 + 1) (rows - (y0 + 1))).find?
      (fun y => !fraction_is_zero (cell matrix y x0)) with
    | some y => swap_rows matrix y0 y
    | none => matrix
  else matrix

/-- Normalisation of the pivot row:
`for (int x = x0; x < columns; ++x) matrix[y0][x] = mul(matrix[y0][x], multiplier);`. -/
def scale_row (prime_numbers : List Int) (columns x0 y0 : Nat) (multiplier : fraction)
    (matrix : List (List fraction)) : List (List fraction) :=
  (List.range' x0 (columns - x0)).foldl
    (fun m x => set_elem m y0 x (fraction_mul prime_numbers (cell m y0 x) multiplier)) matrix

/-- The body both elimination loops run on a row `y`:
`if (!is_zero(matrix[y][x0])) { multiplier = matrix[y][x0]; matrix[y][x0] = int2type(0);
for (int x = x0 + 1; x < columns; ++x) matrix[y][x] = sub(matrix[y][x], mul(matrix[y0][x], multiplier)); }`. -/
def eliminate_row (prime_numbers : List Int) (columns x0 y0 y : Nat)
    (matrix : List (List fraction)) : List (List fraction) :=
  if !fraction_is_zero (cell matrix y x0) then
    let multiplier := cell matrix y x0
    let matrix := set_elem matrix y x0 (fraction_int2type 0)
    (List.range' (x0 + 1) (columns - (x0 + 1))).foldl
      (fun m x =>
        set_elem m y x
          (fraction_sub prime_numbers (cell m y x) (fraction_mul prime_numbers (cell m y0 x) multiplier)))
      matrix
  else matrix

/-- Elimination below the pivot: `for (int y = y0 + 1; y < rows; ++y) ...`. -/
def eliminate_below (prime_numbers : List Int) (rows columns x0 y0 : Nat)
    (matrix : List (List fraction)) : List (List fraction) :=
  (List.range' (y0 + 1) (rows - (y0 + 1))).foldl
    (fun m y => eliminate_row prime_numbers columns x0 y0 y m) matrix

/-- Elimination above the pivot: `for (int y = y0 - 1; y >= 0; --y) ...`; the numeric argument is
`y + 1` for the next row `y` to visit. -/
def eliminate_above (prime_numbers : List Int) (columns x0 y0 : Nat) :
    Nat → List (List fraction) → List (List fraction)
  | 0, matrix => matrix
  | y + 1, matrix => eliminate_above prime_numbers columns x0 y0 y
      (eliminate_row prime_numbers columns x0 y0 y matrix)

/-- State of the engine: the two cursor variables, the grid, and (ghost) the divisors `b` of the
calls `fraction_div(a, b)` made so far, oldest first. -/
structure engine where
  x0 : Nat
  y0 : Nat
  matrix : List (List fraction)
  divisors : List fraction
deriving DecidableEq

/-- One iteration of the forward elimination loop, the increment `++x0, ++y0` included
(`continue` jumps to it). -/
def forward_step (prime_numbers : List Int) (rows columns : Nat) (s : engine) : engine :=
  let matrix := pivot_search rows s.x0 s.y0 s.matrix
  if fraction_is_zero (cell matrix s.y0 s.x0) then
    ⟨s.x0 + 1, s.y0 + 1, matrix, s.divisors⟩
  else
    let multiplier := fraction_div prime_numbers (fraction_int2type 1) (cell matrix s.y0 s.y0)
    let scaled := scale_row prime_numbers columns s.x0 s.y0 multiplier matrix
    ⟨s.x0 + 1, s.y0 + 1, eliminate_below prime_numbers rows columns s.x0 s.y0 scaled,
      s.divisors ++ [cell matrix s.y0 s.y0]⟩

/-- The forward elimination loop `for (x0 = y0 = 0; x0 < columns && y0 < rows; ++x0, ++y0)`,
run for at most the given number of iterations. -/
def forward_loop (prime_numbers : List Int) (rows columns : Nat) : Nat → engine → engine
  | 0, s => s
  | fuel + 1, s =>
    if s.x0 < columns ∧ s.y0 < rows then
      forward_loop prime_numbers rows columns fuel (forward_step prime_numbers rows columns s)
    else s

/-- Pivot scan of the back substitution:
`for (x0 = 0; x0 < columns - 1 && is_zero(matrix[y0][x0]); ++x0);`.  The first numeric argument is
`columns - 1 - x0`, the number of increments the bound still allows. -/
def pivot_scan (matrix : List (List fraction)) (y0 : Nat) : Nat → Nat → Nat
  | 0, x0 => x0
  | n + 1, x0 => if fraction_is_zero (cell matrix y0 x0) then pivot_scan matrix y0 n (x0 + 1) else x0

/-- One iteration of the back substitution loop, for the row `y0`. -/
def back_step (prime_numbers : List Int) (columns y0 : Nat)
    (matrix : List (List fraction)) : List (List fraction) :=
  let x0 := pivot_scan matrix y0 (columns - 1) 0
  if fraction_is_zero (cell matrix y0 x0) then matrix
  else eliminate_above prime_numbers columns x0 y0 y0 matrix

/-- The back substitution loop `for (--y0; y0 > 0; --y0)`; the numeric argument is the value of
`y0` after the initial decrement. -/
def back_loop (prime_numbers : List Int) (columns : Nat) :
    Nat → List (List fraction) → List (List fraction)
  | 0, matrix => matrix
  | y0 + 1, matrix =>
    back_loop prime_numbers columns y0 (back_step prime_numbers columns (y0 + 1) matrix)

/-- The state at the end of the forward elimination (the loop gets `rows` iterations, which is
all it can make: `forward_loop_cursor`). -/
def forward_elimination (prime_numbers : List Int) (rows columns : Nat)
    (matrix : List (List fraction)) : engine :=
  forward_loop prime_numbers rows columns rows ⟨0, 0, matrix, []⟩

/-- The C function `simplify_matrix_fraction(rows, columns, matrix)`: the grid it leaves. -/
def simplify_matrix_fraction (prime_numbers : List Int) (rows columns : Nat)
    (matrix : List (List fraction)) : List (List fraction) :=
  let s := forward_elimination prime_numbers rows columns matrix
  back_loop prime_numbers columns (s.y0 - 1) s.matrix

/-- The divisors of all calls of `fraction_div` made by `simplify_matrix_fraction` (the back
substitution makes none). -/
def simplify_matrix_divisors (prime_numbers : List Int) (rows columns : Nat)
    (matrix : List (List fraction)) : List fraction :=
  (forward_elimination prime_numbers rows columns matrix).divisors

/-! ## Grids and tables used in examples -/

/-- A row of integers as fractions `{n, 1}`. -/
def ints (l : List Int) : List fraction := l.map fraction_int2type

/-- A short table: the primes below 20 and the terminating 0. -/
def small_primes : List Int := [2, 3, 5, 7, 11, 13, 17, 19, 0]

/-! ## Notions used in the statements -/

/-- The rational number a fraction stands for (meaningful when the denominator is not 0). -/
def val (f : fraction) : ℚ := (f.numerator : ℚ) / (f.denominator : ℚ)

/-- A grid of exactly `rows` rows of exactly `columns` elements. -/
def dims (matrix : List (List fraction)) (rows columns : Nat) : Prop :=
  matrix.length = rows ∧ ∀ row ∈ matrix, row.length = columns

/-- Every element of the `rows` by `columns` grid has a nonzero denominator. -/
def valid (matrix : List (List fraction)) (rows columns : Nat) : Prop :=
  ∀ y, y < rows → ∀ x, x < columns → (cell matrix y x).denominator ≠ 0

/-- A well-formed table: integers at least 2 in strictly ascending order, followed by the
terminating 0 (what `initialize_prime_numbers` leaves in `prime_numbers`). -/
def prime_table (ps : List Int) : Prop :=
  ∃ l : List Int, ps = l ++ [0] ∧ (∀ p ∈ l, 2 ≤ p) ∧ l.Pairwise (· < ·)

/-- The invariant of a Rational Number result with respect to a table: positive denominator, zero
stored as `{0, 1}`, equal absolute values stored as `{1, 1}` or `{-1, 1}`, and no entry of the table
up to `min(|numerator|, denominator)` divides both members. -/
def reduced (ps : List Int) (r : fraction) : Prop :=
  0 < r.denominator ∧
  (r.numerator = 0 → r.denominator = 1) ∧
  (c_abs r.numerator = r.denominator → r = ⟨1, 1⟩ ∨ r = ⟨-1, 1⟩) ∧
  ∀ p ∈ ps, p ≠ 0 → p ≤ min (c_abs r.numerator) r.denominator →
    ¬ (p ∣ r.numerator ∧ p ∣ r.denominator)

/-- What the elimination body leaves in column `x` of a row, given the pivot row and the row as
they were before: nothing changes when the row has a zero in the pivot column `x0`; otherwise the
pivot column gets `{0, 1}` and the columns to its right get `row - row[x0] * pivot_row`. -/
def eliminated (ps : List Int) (columns x0 : Nat) (pivot_row row : Nat → fraction) (x : Nat) :
    fraction :=
  if (row x0).numerator = 0 then row x
  else if x = x0 then fraction_int2type 0
  else if x0 < x ∧ x < columns then
    fraction_sub ps (row x) (fraction_mul ps (pivot_row x) (row x0))
  else row x

/-- The left-hand side of the linear equation a row stands for, at the assignment `s` of one
rational to every column: the sum of `matrix[y][x] * s x` over the columns. -/
def dot (matrix : List (List fraction)) (columns y : Nat) (s : Nat → ℚ) : ℚ :=
  Finset.sum (Finset.range columns) fun x => val (cell matrix y x) * s x

/-- The assignment `s` annihilates every row of the grid.  With `s` equal to `-1` on the last
column this says that the other entries of `s` solve the system the augmented grid stands for. -/
def solves (matrix : List (List fraction)) (rows columns : Nat) (s : Nat → ℚ) : Prop :=
  ∀ y, y < rows → dot matrix columns y s = 0

/-- Shape of the grid when the forward cursor is at `k`: a `rows` by `columns` grid whose columns
left of `k` are zero below the diagonal and carry `{1, 1}` or a zero on the diagonal. -/
def shape_inv (rows columns k : Nat) (m : List (List fraction)) : Prop :=
  dims m rows columns ∧
  (∀ x y, x < k → x < y → y < rows → x < columns → (cell m y x).numerator = 0) ∧
  (∀ x, x < k → x < rows → x < columns → cell m x x = ⟨1, 1⟩ ∨ (cell m x x).numerator = 0)

/-- Shape of the grid when the back substitution is about to use row `y0`: the shape the forward
elimination leaves, and every column `k` right of `y0` whose diagonal element is `{1, 1}` is zero
above the diagonal. -/
def back_inv (rows columns y0 : Nat) (m : List (List fraction)) : Prop :=
  shape_inv rows columns (min rows columns) m ∧
  ∀ k, y0 < k → k < rows → k < columns → cell m k k = ⟨1, 1⟩ →
    ∀ y, y < k → (cell m y k).numerator = 0

/-- The `n` by `n` coefficient part of an augmented grid, as a matrix of rationals. -/
def coefficient_matrix (m : List (List fraction)) (n : Nat) : Matrix (Fin n) (Fin n) ℚ :=
  Matrix.of fun i j => val (cell m i.val j.val)

/-- A fraction in lowest terms with positive denominator. -/
def lowest_terms (f : fraction) : Prop :=
  0 < f.denominator ∧ Int.gcd f.numerator f.denominator = 1

/-- Column `x` holds the leading entry of row `y`: the first nonzero of the row. -/
def is_lead (m : List (List fraction)) (columns y x : Nat) : Prop :=
  x < columns ∧ (cell m y x).numerator ≠ 0 ∧ ∀ x1, x1 < x → (cell m y x1).numerator = 0

/-- The terminal form of the specification: the leading entry of every nonzero row is 1 and all
other entries of its column are zero. -/
def terminal_form (m : List (List fraction)) (rows columns : Nat) : Prop :=
  ∀ y, y < rows → ∀ x, is_lead m columns y x →
    val (cell m y x) = 1 ∧ ∀ y1, y1 < rows → y1 ≠ y → (cell m y1 x).numerator = 0

/-- Reduced row-echelon form: the terminal form, and every row above a nonzero row is nonzero
with its leading entry strictly further left (so zero rows are at the bottom). -/
def is_rref (m : List (List fraction)) (rows columns : Nat) : Prop :=
  terminal_form m rows columns ∧
  ∀ y, y < rows → ∀ x, is_lead m columns y x →
    ∀ y1, y1 < y → ∃ x1, x1 < x ∧ is_lead m columns y1 x1

/-! ## The prime table -/

/-- The inner loop of `initialize_prime_numbers`:
`for (int j = 2 * i; j < MAX_PRIME + 1; j += i) sieve[j / INT_BIT] &= ~(1 << (j % INT_BIT));`,
from the current `j` on.  The bit array `sieve` is a list of booleans, bit `i` being what the C code
reads as `sieve[i / INT_BIT] & (1 << i % INT_BIT)`.  The first numeric argument bounds the number
of iterations (`sieve_clear_spec` shows that `MAX_PRIME + 1` is enough for `i ≥ 1`). -/
def sieve_clear (max_prime i : Nat) : Nat → Nat → List Bool → List Bool
  | 0, _, sieve => sieve
  | fuel + 1, j, sieve =>
    if j < max_prime + 1 then sieve_clear max_prime i fuel (j + i) (sieve.set j false)
    else sieve

/-- The body of the outer loop `for (int i = 2; i < MAX_PRIME + 1; ++i)` on the state
`(sieve, number_of_primes)`: `if (bit i of sieve) { clear the multiples; ++number_of_primes; }`. -/
def sieve_step (max_prime : Nat) (state : List Bool × Nat) (i : Nat) : List Bool × Nat :=
  if state.1.getD i false then
    (sieve_clear max_prime i (max_prime + 1) (2 * i) state.1, state.2 + 1)
  else state

/-- The sieve after `memset(sieve, '\xff', sieve_size); sieve[0] &= ~((1 << 0) | (1 << 1));`:
the bits `0 .. MAX_PRIME`, all set but the first two. -/
def sieve_initial (max_prime : Nat) : List Bool :=
  ((List.replicate (max_prime + 1) true).set 0 false).set 1 false

/-- The sieve and `number_of_primes` after the outer loop. -/
def sieve_run (max_prime : Nat) : List Bool × Nat :=
  (List.range' 2 (max_prime + 1 - 2)).foldl (sieve_step max_prime) (sieve_initial max_prime, 0)

/-- The loop that fills the table:
`for (int i = 0, j = 0; j < number_of_primes; ++i) if (bit i of sieve) prime_numbers[j++] = i;`,
as the list of the values written, in the order of `j`.  The first numeric argument bounds the
number of iterations (`MAX_PRIME + 1` is enough: `initialize_prime_numbers_length`). -/
def sieve_collect (sieve : List Bool) (number_of_primes : Nat) : Nat → Nat → Nat → List Int
  | 0, _, _ => []
  | fuel + 1, i, j =>
    if j < number_of_primes then
      if sieve.getD i false then (i : Int) :: sieve_collect sieve number_of_primes fuel (i + 1) (j + 1)
      else sieve_collect sieve number_of_primes fuel (i + 1) j
    else []

/-- The C function `initialize_prime_numbers`, as the contents it leaves in `prime_numbers`;
`MAX_PRIME` (`USHRT_MAX` of the platform, 65535) is an argument. -/
def initialize_prime_numbers (max_prime : Nat) : List Int :=
  let state := sieve_run max_prime
  sieve_collect state.1 state.2 (max_prime + 1) 0 0 ++ [0]

/-- The primes up to `n` in ascending order, as integers. -/
def primes_up_to (n : Nat) : List Int :=
  ((List.range (n + 1)).filter fun k => decide (Nat.Prime k)).map Int.ofNat

/-- The invariant of the outer loop of the sieve when it reaches `i = c`: the bits set are the
numbers of `2 .. max_prime` with no proper divisor in `2 .. c - 1`, and `number_of_primes` counts
the primes below `c`. -/
def sieve_inv (max_prime c : Nat) (state : List Bool × Nat) : Prop :=
  state.1.length = max_prime + 1 ∧
  (∀ k, state.1.getD k false = true ↔
    2 ≤ k ∧ k ≤ max_prime ∧ ∀ d, 2 ≤ d → d < c → d ∣ k → d = k) ∧
  state.2 = ((List.range c).filter fun k => decide (Nat.Prime k)).length

/-! ## The arithmetic on 32-bit `int`

The definitions above compute on unbounded integers.  The definitions of this section repeat
`reduction` and the three operations that multiply with every arithmetic result taken as a 32-bit
two's complement `int` that wraps around (the C standard leaves signed overflow undefined; wrapping
is what the usual platforms do).  None of the C functions has a test of the range or a way to
report an error: they return a `fraction` on every input. -/

/-- The 32-bit two's complement `int` that an arithmetic operation with exact result `x` leaves. -/
def wrap_int (x : Int) : Int := (x + 2147483648) % 4294967296 - 2147483648

/-- The value is a 32-bit `int`. -/
def int_range (x : Int) : Prop := -2147483648 ≤ x ∧ x ≤ 2147483647

instance (x : Int) : Decidable (int_range x) := by
  unfold int_range
  infer_instance

/-- Both `x` and `-x` are values of a 32-bit `int`. -/
def fits_int (x : Int) : Prop := -2147483647 ≤ x ∧ x ≤ 2147483647

instance (x : Int) : Decidable (fits_int x) := by
  unfold fits_int
  infer_instance

/-- C library `abs` on a 32-bit `int`. -/
def c_abs_int32 (x : Int) : Int := if x < 0 then wrap_int (-x) else x

/-- The inner loop of `reduction` on 32-bit `int` (see `reduction_while`). -/
def reduction_while_int32 (p : Int) : Nat → fraction → fraction
  | 0, x => x
  | fuel + 1, x =>
    if x.numerator.tmod p = 0 ∧ x.denominator.tmod p = 0 then
      reduction_while_int32 p fuel ⟨wrap_int (x.numerator.tdiv p), wrap_int (x.denominator.tdiv p)⟩
    else x

/-- The outer loop of `reduction` on 32-bit `int` (see `reduction_for`). -/
def reduction_for_int32 : List Int → fraction → fraction
  | [], x => x
  | p :: rest, x =>
    if p ≤ c_abs_int32 x.numerator ∧ p ≤ x.denominator ∧ p ≠ 0 then
      reduction_for_int32 rest (reduction_while_int32 p x.numerator.natAbs x)
    else x

/-- The C function `reduction` on 32-bit `int`. -/
def reduction_int32 (prime_numbers : List Int) (x : fraction) : fraction :=
  let x : fraction :=
    if x.denominator < 0 then ⟨wrap_int (x.numerator * -1), wrap_int (x.denominator * -1)⟩ else x
  if x.numerator = 0 then
    ⟨x.numerator, 1⟩
  else if c_abs_int32 x.numerator = x.denominator then
    ⟨wrap_int (x.numerator.tdiv x.denominator), wrap_int (x.denominator.tdiv x.denominator)⟩
  else
    reduction_for_int32 prime_numbers x

/-- The C function `fraction_div` on 32-bit `int`. -/
def fraction_div_int32 (prime_numbers : List Int) (a b : fraction) : fraction :=
  reduction_int32 prime_numbers
    ⟨wrap_int (a.numerator * b.denominator), wrap_int (a.denominator * b.numerator)⟩

/-- The C function `fraction_mul` on 32-bit `int`. -/
def fraction_mul_int32 (prime_numbers : List Int) (a b : fraction) : fraction :=
  reduction_int32 prime_numbers
    ⟨wrap_int (a.numerator * b.numerator), wrap_int (a.denominator * b.denominator)⟩

/-- The C function `fraction_sub` on 32-bit `int`. -/
def fraction_sub_int32 (prime_numbers : List Int) (a b : fraction) : fraction :=
  reduction_int32 prime_numbers
    ⟨wrap_int (wrap_int (a.numerator * b.denominator) - wrap_int (b.numerator * a.denominator)),
      wrap_int (a.denominator * b.denominator)⟩

/-! ## The accesses of the engine

The functions of this section list, in program order, the indices of the accesses
`simplify_matrix_fraction` makes to the grid and `reduction` makes to the table.  They follow the
control flow of the functions above, on the same intermediate grids. -/

/-- An access to the grid: an element `matrix[y][x]` (read or written), or a row pointer
`matrix[y]` (read and written by the exchange of rows). -/
inductive access where
  | elem (y x : Nat)
  | row (y : Nat)
deriving DecidableEq

/-- The access lies in a grid of `rows` rows of `columns` elements. -/
def access_ok (rows columns : Nat) : access → Bool
  | access.elem y x => decide (y < rows) && decide (x < columns)
  | access.row y => decide (y < rows)

/-- The accesses of the loop `for (int y = y0 + 1; y < rows; ++y) if (!is_zero(matrix[y][x0]))
{ swap; break; }` over the rows `ys` still to visit: the test reads `matrix[y][x0]`, the exchange
reads and writes `matrix[y0]` and `matrix[y]`. -/
def search_accesses (x0 y0 : Nat) (matrix : List (List fraction)) : List Nat → List access
  | [] => []
  | y :: ys =>
    access.elem y x0 ::
      if !fraction_is_zero (cell matrix y x0) then
        [access.row y0, access.row y, access.row y0, access.row y]
      else search_accesses x0 y0 matrix ys

/-- The accesses of `pivot_search`. -/
def pivot_search_accesses (rows x0 y0 : Nat) (matrix : List (List fraction)) : List access :=
  access.elem y0 x0 ::
    if fraction_is_zero (cell matrix y0 x0) then
      search_accesses x0 y0 matrix (List.range' (y0 + 1) (rows - (y0 + 1)))
    else []

/-- The accesses of `scale_row`: each element of the row is read and written. -/
def scale_row_accesses (columns x0 y0 : Nat) : List access :=
  (List.range' x0 (columns - x0)).flatMap fun x => [access.elem y0 x, access.elem y0 x]

/-- The accesses of `eliminate_row`: the test and, on a nonzero, the read of the multiplier, the
write of the zero, and for each further column the reads of `matrix[y][x]` and `matrix[y0][x]` and
the write of `matrix[y][x]`. -/
def eliminate_row_accesses (columns x0 y0 y : Nat) (matrix : List (List fraction)) : List access :=
  access.elem y x0 ::
    if !fraction_is_zero (cell matrix y x0) then
      access.elem y x0 :: access.elem y x0 ::
        (List.range' (x0 + 1) (columns - (x0 + 1))).flatMap fun x =>
          [access.elem y x, access.elem y0 x, access.elem y x]
    else []

/-- The accesses of `eliminate_below`, over the rows `ys` still to visit. -/
def eliminate_below_accesses (prime_numbers : List Int) (columns x0 y0 : Nat) :
    List Nat → List (List fraction) → List access
  | [], _ => []
  | y :: ys, matrix =>
    eliminate_row_accesses columns x0 y0 y matrix ++
      eliminate_below_accesses prime_numbers columns x0 y0 ys
        (eliminate_row prime_numbers columns x0 y0 y matrix)

/-- The accesses of `eliminate_above`. -/
def eliminate_above_accesses (prime_numbers : List Int) (columns x0 y0 : Nat) :
    Nat → List (List fraction) → List access
  | 0, _ => []
  | y + 1, matrix =>
    eliminate_row_accesses columns x0 y0 y matrix ++
      eliminate_above_accesses prime_numbers columns x0 y0 y
        (eliminate_row prime_numbers columns x0 y0 y matrix)

/-- The accesses of `forward_step`: the pivot search, the second test of `matrix[y0][x0]`, and
on a nonzero the read of the pivot `matrix[y0][y0]`, the normalisation and the elimination. -/
def forward_step_accesses (prime_numbers : List Int) (rows columns : Nat) (s : engine) :
    List access :=
  let matrix := pivot_search rows s.x0 s.y0 s.matrix
  pivot_search_accesses rows s.x0 s.y0 s.matrix ++
    access.elem s.y0 s.x0 ::
      if fraction_is_zero (cell matrix s.y0 s.x0) then []
      else
        let multiplier := fraction_div prime_numbers (fraction_int2type 1) (cell matrix s.y0 s.y0)
        let scaled := scale_row prime_numbers columns s.x0 s.y0 multiplier matrix
        access.elem s.y0 s.y0 ::
          (scale_row_accesses columns s.x0 s.y0 ++
            eliminate_below_accesses prime_numbers columns s.x0 s.y0
              (List.range' (s.y0 + 1) (rows - (s.y0 + 1))) scaled)

/-- The accesses of `forward_loop`. -/
def forward_loop_accesses (prime_numbers : List Int) (rows columns : Nat) :
    Nat → engine → List access
  | 0, _ => []
  | fuel + 1, s =>
    if s.x0 < columns ∧ s.y0 < rows then
      forward_step_accesses prime_numbers rows columns s ++
        forward_loop_accesses prime_numbers rows columns fuel
          (forward_step prime_numbers rows columns s)
    else []

/-- The accesses of `pivot_scan`: the test reads `matrix[y0][x0]` while `x0 < columns - 1`. -/
def pivot_scan_accesses (matrix : List (List fraction)) (y0 : Nat) : Nat → Nat → List access
  | 0, _ => []
  | n + 1, x0 =>
    access.elem y0 x0 ::
      if fraction_is_zero (cell matrix y0 x0) then pivot_scan_accesses matrix y0 n (x0 + 1) else []

/-- The accesses of `back_step`: the pivot scan, the test of `matrix[y0][x0]` after it, and on a
nonzero the elimination. -/
def back_step_accesses (prime_numbers : List Int) (columns y0 : Nat)
    (matrix : List (List fraction)) : List access :=
  let x0 := pivot_scan matrix y0 (columns - 1) 0
  pivot_scan_accesses matrix y0 (columns - 1) 0 ++
    access.elem y0 x0 ::
      if fraction_is_zero (cell matrix y0 x0) then []
      else eliminate_above_accesses prime_numbers columns x0 y0 y0 matrix

/-- The accesses of `back_loop`. -/
def back_loop_accesses (prime_numbers : List Int) (columns : Nat) :
    Nat → List (List fraction) → List access
  | 0, _ => []
  | y0 + 1, matrix =>
    back_step_accesses prime_numbers columns (y0 + 1) matrix ++
      back_loop_accesses prime_numbers columns y0 (back_step prime_numbers columns (y0 + 1) matrix)

/-- The accesses of `simplify_matrix_fraction(rows, columns, matrix)` to the grid. -/
def simplify_matrix_accesses (prime_numbers : List Int) (rows columns : Nat)
    (matrix : List (List fraction)) : List access :=
  let s := forward_elimination prime_numbers rows columns matrix
  forward_loop_accesses prime_numbers rows columns rows ⟨0, 0, matrix, []⟩ ++
    back_loop_accesses prime_numbers columns (s.y0 - 1) s.matrix

/-- The indices `i` of the reads `prime_numbers[i]` of the outer loop of `reduction` (the loop
condition and the inner loop read the same index), for the part of the table from index `i` on.
At the end of the list the condition reads `prime_numbers[i]` past the last entry. -/
def reduction_for_reads : Nat → List Int → fraction → List Nat
  | i, [], _ => [i]
  | i, p :: rest, x =>
    i ::
      if p ≤ c_abs x.numerator ∧ p ≤ x.denominator ∧ p ≠ 0 then
        reduction_for_reads (i + 1) rest (reduction_while p x.numerator.natAbs x)
      else []

/-- The indices of the reads `prime_numbers[i]` of `reduction`. -/
def reduction_reads (prime_numbers : List Int) (x : fraction) : List Nat :=
  let x : fraction :=
    if x.denominator < 0 then ⟨x.numerator * -1, x.denominator * -1⟩ else x
  if x.numerator = 0 then []
  else if c_abs x.numerator = x.denominator then []
  else reduction_for_reads 0 prime_numbers x

/-! ## Addition -/

/-- Modelled from the spec: the operation `add` of the Rational Number, which `matrixes.c` does
not define (it has `fraction_sub` only).  The spec (section 4.2) gives it as: cross-multiply
denominators, combine numerators accordingly (`a.n*b.d + b.n*a.d`, new denominator `a.d*b.d`),
then reduce; overflow of numerator or denominator during the cross-multiplication is the fatal
error `Overflow`, which is detected and not wrapped.  The result `none` is that error: the two
products have to be values of a 32-bit `int`, and the numerator and the denominator handed to
`reduction` have to be values whose negation is one too, because `reduction` negates them and
takes the absolute value. -/
def fraction_add (prime_numbers : List Int) (a b : fraction) : Option fraction :=
  if int_range (a.numerator * b.denominator) ∧ int_range (b.numerator * a.denominator) ∧
      fits_int (a.numerator * b.denominator + b.numerator * a.denominator) ∧
      fits_int (a.denominator * b.denominator) then
    some (reduction prime_numbers
      ⟨a.numerator * b.denominator + b.numerator * a.denominator,
        a.denominator * b.denominator⟩)
  else none

/-! ## Arithmetic of fractions -/

theorem c_abs_eq (x : Int) : c_abs x = |x| := by
  unfold c_abs
  split_ifs with h
  · exact (abs_of_neg h).symm
  · exact (abs_of_nonneg (not_lt.mp h)).symm

theorem fraction_ext {a b : fraction} (hn : a.numerator = b.numerator)
    (hd : a.denominator = b.denominator) : a = b := by
  cases a; cases b; simp_all

/-- The inner loop divides numerator and denominator by the same power of `p`. -/
theorem reduction_while_pow (p : Int) (fuel : Nat) (x : fraction) :
    ∃ j : Nat, x.numerator = (reduction_while p fuel x).numerator * p ^ j ∧
      x.denominator = (reduction_while p fuel x).denominator * p ^ j := by
  induction fuel generalizing x with
  | zero => exact ⟨0, by simp [reduction_while]⟩
  | succ fuel ih =>
    unfold reduction_while
    split_ifs with h
    · obtain ⟨j, hn, hd⟩ := ih ⟨x.numerator.tdiv p, x.denominator.tdiv p⟩
      refine ⟨j + 1, ?_, ?_⟩
      · have h1 := Int.tdiv_mul_cancel (Int.dvd_of_tmod_eq_zero h.1)
        simp only at hn
        rw [pow_succ, ← mul_assoc, ← hn, h1]
      · have h1 := Int.tdiv_mul_cancel (Int.dvd_of_tmod_eq_zero h.2)
        simp only at hd
        rw [pow_succ, ← mul_assoc, ← hd, h1]
    · exact ⟨0, by simp⟩

/-- The step budget `|x.numerator|` is never used up when the table entry is at least 2 and the
numerator is not 0: the inner loop stops because its condition fails. -/
theorem reduction_while_exhausts (p : Int) (hp : 2 ≤ p) (fuel : Nat) (x : fraction)
    (hx : x.numerator ≠ 0) (hfuel : x.numerator.natAbs ≤ fuel) :
    ¬ ((reduction_while p fuel x).numerator.tmod p = 0 ∧
        (reduction_while p fuel x).denominator.tmod p = 0) := by
  induction fuel generalizing x with
  | zero =>
    exfalso
    have : x.numerator.natAbs = 0 := Nat.le_zero.mp hfuel
    exact hx (Int.natAbs_eq_zero.mp this)
  | succ fuel ih =>
    unfold reduction_while
    split_ifs with h
    · have hdvd := Int.dvd_of_tmod_eq_zero h.1
      have hmul := Int.tdiv_mul_cancel hdvd
      have hne : x.numerator.tdiv p ≠ 0 := by
        intro h0
        rw [h0, zero_mul] at hmul
        exact hx hmul.symm
      apply ih
      · exact hne
      · have hlt : (x.numerator.tdiv p).natAbs < x.numerator.natAbs := by
          have h2 : x.numerator.natAbs = (x.numerator.tdiv p).natAbs * p.natAbs := by
            rw [← Int.natAbs_mul, hmul]
          have h3 : 2 ≤ p.natAbs := by omega
          have h4 : 0 < (x.numerator.tdiv p).natAbs := Int.natAbs_pos.mpr hne
          nlinarith
        simp only
        omega
    · exact h

/-- The trial-division loop divides numerator and denominator by one nonzero integer, which is
positive when no entry of the table is negative. -/
theorem reduction_for_factor (ps : List Int) (x : fraction) :
    ∃ c : Int, c ≠ 0 ∧ ((∀ p ∈ ps, 0 ≤ p) → 0 < c) ∧
      x.numerator = (reduction_for ps x).numerator * c ∧
      x.denominator = (reduction_for ps x).denominator * c := by
  induction ps generalizing x with
  | nil => exact ⟨1, by simp [reduction_for]⟩
  | cons p rest ih =>
    unfold reduction_for
    split_ifs with h
    · obtain ⟨j, hn, hd⟩ := reduction_while_pow p x.numerator.natAbs x
      obtain ⟨c, hc, hpos, hn2, hd2⟩ := ih (reduction_while p x.numerator.natAbs x)
      refine ⟨c * p ^ j, mul_ne_zero hc (pow_ne_zero _ h.2.2), ?_, ?_, ?_⟩
      · intro hall
        have hp : 0 < p := lt_of_le_of_ne (hall p (List.mem_cons_self _ _)) (Ne.symm h.2.2)
        exact mul_pos (hpos fun q hq => hall q (List.mem_cons_of_mem _ hq)) (pow_pos hp _)
      · rw [← mul_assoc, ← hn2, ← hn]
      · rw [← mul_assoc, ← hd2, ← hd]
    · exact ⟨1, by simp⟩

theorem reduction_of_num_zero (ps : List Int) (x : fraction) (h : x.numerator = 0) :
    reduction ps x = ⟨0, 1⟩ := by
  unfold reduction
  split_ifs <;> simp_all

/-- What `reduction` does to a fraction with nonzero numerator: it divides numerator and
denominator by one nonzero integer. -/
theorem reduction_factor (ps : List Int) (x : fraction) (h : x.numerator ≠ 0) :
    ∃ c : Int, c ≠ 0 ∧ x.numerator = (reduction ps x).numerator * c ∧
      x.denominator = (reduction ps x).denominator * c := by
  have key : ∀ y : fraction, y.numerator ≠ 0 →
      ∃ c : Int, c ≠ 0 ∧
        y.numerator = (if y.numerator = 0 then (⟨y.numerator, 1⟩ : fraction)
          else if c_abs y.numerator = y.denominator then
            ⟨y.numerator.tdiv y.denominator, y.denominator.tdiv y.denominator⟩
          else reduction_for ps y).numerator * c ∧
        y.denominator = (if y.numerator = 0 then (⟨y.numerator, 1⟩ : fraction)
          else if c_abs y.numerator = y.denominator then
            ⟨y.numerator.tdiv y.denominator, y.denominator.tdiv y.denominator⟩
          else reduction_for ps y).denominator * c := by
    intro y hy
    rw [if_neg hy]
    split_ifs with h2
    · have hd : y.denominator ≠ 0 := by
        rw [← h2, c_abs_eq]
        exact abs_ne_zero.mpr hy
      have hdvd : y.denominator ∣ y.numerator := by
        rw [← h2, c_abs_eq]
        exact (abs_dvd _ _).mpr dvd_rfl
      refine ⟨y.denominator, hd, ?_, ?_⟩
      · exact (Int.tdiv_mul_cancel hdvd).symm
      · exact (Int.tdiv_mul_cancel dvd_rfl).symm
    · obtain ⟨c, hc, -, hn, hd⟩ := reduction_for_factor ps y
      exact ⟨c, hc, hn, hd⟩
  unfold reduction
  by_cases hneg : x.denominator < 0
  · simp only [hneg, if_true]
    obtain ⟨c, hc, hn, hd⟩ := key ⟨x.numerator * -1, x.denominator * -1⟩ (by simpa using h)
    refine ⟨-c, neg_ne_zero.mpr hc, ?_, ?_⟩
    · simp only at hn
      rw [mul_neg, ← hn]; ring
    · simp only at hd
      rw [mul_neg, ← hd]; ring
  · simp only [hneg, if_false]
    exact key x h

theorem reduction_num_eq_zero (ps : List Int) (x : fraction) :
    (reduction ps x).numerator = 0 ↔ x.numerator = 0 := by
  constructor
  · intro h
    by_contra hx
    obtain ⟨c, -, hn, -⟩ := reduction_factor ps x hx
    rw [h, zero_mul] at hn
    exact hx hn
  · intro h
    rw [reduction_of_num_zero ps x h]

theorem reduction_den_ne_zero (ps : List Int) (x : fraction) (h : x.denominator ≠ 0) :
    (reduction ps x).denominator ≠ 0 := by
  by_cases hx : x.numerator = 0
  · rw [reduction_of_num_zero ps x hx]; decide
  · obtain ⟨c, -, -, hd⟩ := reduction_factor ps x hx
    intro h0
    rw [h0, zero_mul] at hd
    exact h hd

/-- The normal form `reduction` returns stands for the same cross-products. -/
theorem reduction_cross (ps : List Int) (x : fraction) :
    x.numerator * (reduction ps x).denominator = (reduction ps x).numerator * x.denominator := by
  by_cases hx : x.numerator = 0
  · rw [reduction_of_num_zero ps x hx, hx]; simp
  · obtain ⟨c, -, hn, hd⟩ := reduction_factor ps x hx
    calc x.numerator * (reduction ps x).denominator
        = (reduction ps x).numerator * c * (reduction ps x).denominator := by rw [← hn]
      _ = (reduction ps x).numerator * ((reduction ps x).denominator * c) := by ring
      _ = (reduction ps x).numerator * x.denominator := by rw [← hd]

theorem val_reduction (ps : List Int) (x : fraction) (h : x.denominator ≠ 0) :
    val (reduction ps x) = val x := by
  have hd := reduction_den_ne_zero ps x h
  have hc := reduction_cross ps x
  unfold val
  rw [div_eq_div_iff (by exact_mod_cast hd) (by exact_mod_cast h)]
  exact_mod_cast hc.symm

theorem val_eq_zero {f : fraction} (h : f.denominator ≠ 0) : val f = 0 ↔ f.numerator = 0 := by
  unfold val
  rw [div_eq_zero_iff]
  constructor
  · rintro (h1 | h1)
    · exact_mod_cast h1
    · exact absurd (by exact_mod_cast h1) h
  · intro h1
    left
    exact_mod_cast h1

theorem val_of_num_zero {f : fraction} (h : f.numerator = 0) : val f = 0 := by
  unfold val
  rw [h]; simp

theorem is_zero_iff (f : fraction) : fraction_is_zero f = true ↔ f.numerator = 0 := by
  simp [fraction_is_zero]

theorem is_zero_false_iff (f : fraction) : fraction_is_zero f = false ↔ f.numerator ≠ 0 := by
  simp [fraction_is_zero]

theorem mul_den_ne_zero (ps : List Int) {a b : fraction} (ha : a.denominator ≠ 0)
    (hb : b.denominator ≠ 0) : (fraction_mul ps a b).denominator ≠ 0 :=
  reduction_den_ne_zero ps _ (mul_ne_zero ha hb)

theorem val_mul (ps : List Int) {a b : fraction} (ha : a.denominator ≠ 0)
    (hb : b.denominator ≠ 0) : val (fraction_mul ps a b) = val a * val b := by
  unfold fraction_mul
  rw [val_reduction ps _ (mul_ne_zero ha hb)]
  unfold val
  push_cast
  rw [div_mul_div_comm]

theorem sub_den_ne_zero (ps : List Int) {a b : fraction} (ha : a.denominator ≠ 0)
    (hb : b.denominator ≠ 0) : (fraction_sub ps a b).denominator ≠ 0 :=
  reduction_den_ne_zero ps _ (mul_ne_zero ha hb)

theorem val_sub (ps : List Int) {a b : fraction} (ha : a.denominator ≠ 0)
    (hb : b.denominator ≠ 0) : val (fraction_sub ps a b) = val a - val b := by
  unfold fraction_sub
  rw [val_reduction ps _ (mul_ne_zero ha hb)]
  unfold val
  have ha1 : (a.denominator : ℚ) ≠ 0 := by exact_mod_cast ha
  have hb1 : (b.denominator : ℚ) ≠ 0 := by exact_mod_cast hb
  push_cast
  field_simp
  ring

theorem div_den_ne_zero (ps : List Int) {a b : fraction} (ha : a.denominator ≠ 0)
    (hb : b.numerator ≠ 0) : (fraction_div ps a b).denominator ≠ 0 :=
  reduction_den_ne_zero ps _ (mul_ne_zero ha hb)

theorem val_div (ps : List Int) {a b : fraction} (ha : a.denominator ≠ 0)
    (hb : b.denominator ≠ 0) (hbn : b.numerator ≠ 0) :
    val (fraction_div ps a b) = val a / val b := by
  unfold fraction_div
  rw [val_reduction ps _ (mul_ne_zero ha hbn)]
  unfold val
  have ha1 : (a.denominator : ℚ) ≠ 0 := by exact_mod_cast ha
  have hb1 : (b.denominator : ℚ) ≠ 0 := by exact_mod_cast hb
  have hb2 : (b.numerator : ℚ) ≠ 0 := by exact_mod_cast hbn
  push_cast
  field_simp

theorem mul_num_zero_left (ps : List Int) {a b : fraction} (ha : a.numerator = 0) :
    (fraction_mul ps a b).numerator = 0 := by
  unfold fraction_mul
  rw [reduction_num_eq_zero]
  simp [ha]

theorem sub_num_zero (ps : List Int) {a b : fraction} (ha : a.numerator = 0)
    (hb : b.numerator = 0) : (fraction_sub ps a b).numerator = 0 := by
  unfold fraction_sub
  rw [reduction_num_eq_zero]
  simp [ha, hb]

/-- A fraction whose numerator and denominator are equal and nonzero reduces to `{1, 1}`. -/
theorem reduction_diag (ps : List Int) (n : Int) (h : n ≠ 0) : reduction ps ⟨n, n⟩ = ⟨1, 1⟩ := by
  unfold reduction
  by_cases hneg : n < 0
  · have h1 : ¬ (n * -1 = 0) := by simpa using h
    have h2 : c_abs (n * -1) = n * -1 := by rw [c_abs_eq]; exact abs_of_pos (by linarith)
    have h3 : (n * -1).tdiv (n * -1) = 1 := Int.tdiv_self h1
    simp only [hneg, if_true, h1, if_false, h2, h3]
  · have h2 : c_abs n = n := by rw [c_abs_eq]; exact abs_of_nonneg (not_lt.mp hneg)
    have h3 : n.tdiv n = 1 := Int.tdiv_self h
    simp only [hneg, if_false, h, h2, if_true, h3]

/-- Multiplying a fraction by the reciprocal the engine computes gives `{1, 1}` as stored. -/
theorem mul_div_one (ps : List Int) (p : fraction) (hn : p.numerator ≠ 0)
    (hd : p.denominator ≠ 0) :
    fraction_mul ps p (fraction_div ps (fraction_int2type 1) p) = ⟨1, 1⟩ := by
  have hne : (⟨1 * p.denominator, 1 * p.numerator⟩ : fraction).numerator ≠ 0 := by simpa using hd
  obtain ⟨c, hc, h1, h2⟩ := reduction_factor ps ⟨1 * p.denominator, 1 * p.numerator⟩ hne
  unfold fraction_mul fraction_div fraction_int2type
  simp only
  generalize reduction ps ⟨1 * p.denominator, 1 * p.numerator⟩ = r at h1 h2 ⊢
  simp only [one_mul] at h1 h2
  have hrd : r.denominator ≠ 0 := by
    intro h0; rw [h0, zero_mul] at h2; exact hn h2
  have heq : p.numerator * r.numerator = p.denominator * r.denominator := by
    apply mul_right_cancel₀ hc
    calc p.numerator * r.numerator * c
        = p.numerator * (r.numerator * c) := by ring
      _ = p.numerator * p.denominator := by rw [← h1]
      _ = p.denominator * (r.denominator * c) := by rw [← h2]; ring
      _ = p.denominator * r.denominator * c := by ring
  rw [heq]
  exact reduction_diag ps _ (mul_ne_zero hd hrd)

/-- Without the assumption on the denominator, the normalised pivot is `{1, 1}` or a zero. -/
theorem mul_div_one_or_zero (ps : List Int) (p : fraction) (hn : p.numerator ≠ 0) :
    fraction_mul ps p (fraction_div ps (fraction_int2type 1) p) = ⟨1, 1⟩ ∨
      (fraction_mul ps p (fraction_div ps (fraction_int2type 1) p)).numerator = 0 := by
  by_cases hd : p.denominator = 0
  · right
    unfold fraction_mul
    rw [reduction_num_eq_zero]
    have : (fraction_div ps (fraction_int2type 1) p).numerator = 0 := by
      unfold fraction_div
      rw [reduction_num_eq_zero]
      simp [fraction_int2type, hd]
    simp only
    rw [this, mul_zero]
  · exact Or.inl (mul_div_one ps p hn hd)

/-! ## The normal form returned by `reduction` -/

theorem prime_table_nonneg {ps : List Int} (h : prime_table ps) : ∀ p ∈ ps, 0 ≤ p := by
  obtain ⟨l, rfl, h2, -⟩ := h
  intro p hp
  rcases List.mem_append.mp hp with hp | hp
  · have := h2 p hp; omega
  · simp at hp; omega

theorem prime_table_entry {ps : List Int} (h : prime_table ps) : ∀ p ∈ ps, p = 0 ∨ 2 ≤ p := by
  obtain ⟨l, rfl, h2, -⟩ := h
  intro p hp
  rcases List.mem_append.mp hp with hp | hp
  · exact Or.inr (h2 p hp)
  · simp at hp; exact Or.inl hp

theorem small_primes_table : prime_table small_primes :=
  ⟨[2, 3, 5, 7, 11, 13, 17, 19], rfl, by decide, by decide⟩

/-- After the trial-division loop over a well-formed table, no entry of the table that is at most
`min(|numerator|, denominator)` divides both members. -/
theorem reduction_for_coprime (l : List Int) (h2 : ∀ p ∈ l, 2 ≤ p) (hs : l.Pairwise (· < ·))
    (x : fraction) (hn : x.numerator ≠ 0) (hd : 0 < x.denominator) :
    ∀ q ∈ l ++ [0], q ≤ c_abs (reduction_for (l ++ [0]) x).numerator →
      q ≤ (reduction_for (l ++ [0]) x).denominator →
      ¬ (q ∣ (reduction_for (l ++ [0]) x).numerator ∧
          q ∣ (reduction_for (l ++ [0]) x).denominator) := by
  induction l generalizing x with
  | nil =>
    intro q hq _ _ hdiv
    simp at hq
    subst hq
    have hx : reduction_for ([] ++ [0]) x = x := by simp [reduction_for]
    rw [hx] at hdiv
    have := zero_dvd_iff.mp hdiv.2
    omega
  | cons p rest ih =>
    have hp2 : 2 ≤ p := h2 p (List.mem_cons_self _ _)
    have hrest2 : ∀ q ∈ rest, 2 ≤ q := fun q hq => h2 q (List.mem_cons_of_mem _ hq)
    have hrests : rest.Pairwise (· < ·) := (List.pairwise_cons.mp hs).2
    have hlt : ∀ q ∈ rest, p < q := (List.pairwise_cons.mp hs).1
    rw [List.cons_append]
    unfold reduction_for
    split_ifs with hc
    · obtain ⟨j, hjn, hjd⟩ := reduction_while_pow p x.numerator.natAbs x
      have hppos : 0 < p ^ j := pow_pos (by omega) _
      have hn1 : (reduction_while p x.numerator.natAbs x).numerator ≠ 0 := by
        intro h0; rw [h0, zero_mul] at hjn; exact hn hjn
      have hd1 : 0 < (reduction_while p x.numerator.natAbs x).denominator := by
        rw [hjd] at hd
        rcases pos_and_pos_or_neg_and_neg_of_mul_pos hd with h | h
        · exact h.1
        · omega
      intro q hq hqn hqd hdiv
      rcases List.mem_cons.mp hq with hq | hq
      · subst hq
        obtain ⟨c, -, -, hcn, hcd⟩ :=
          reduction_for_factor (rest ++ [0]) (reduction_while q x.numerator.natAbs x)
        have hex := reduction_while_exhausts q hp2 x.numerator.natAbs x hn le_rfl
        apply hex
        constructor
        · apply Int.tmod_eq_zero_of_dvd
          rw [hcn]
          exact Dvd.dvd.mul_right hdiv.1 c
        · apply Int.tmod_eq_zero_of_dvd
          rw [hcd]
          exact Dvd.dvd.mul_right hdiv.2 c
      · exact ih hrest2 hrests _ hn1 hd1 q hq hqn hqd hdiv
    · intro q hq hqn hqd hdiv
      rcases List.mem_cons.mp hq with hq | hq
      · subst hq
        exact hc ⟨hqn, hqd, by omega⟩
      · rcases List.mem_append.mp hq with hq | hq
        · have := hlt q hq
          exact hc ⟨by omega, by omega, by omega⟩
        · simp at hq
          subst hq
          have := zero_dvd_iff.mp hdiv.2
          omega

/-- The result of `reduction` on a fraction with nonzero denominator satisfies the Rational
Number invariant. -/
theorem reduction_reduced (ps : List Int) (hps : prime_table ps) (x : fraction)
    (hx : x.denominator ≠ 0) : reduced ps (reduction ps x) := by
  have key : ∀ y : fraction, 0 < y.denominator →
      reduced ps (if y.numerator = 0 then (⟨y.numerator, 1⟩ : fraction)
          else if c_abs y.numerator = y.denominator then
            ⟨y.numerator.tdiv y.denominator, y.denominator.tdiv y.denominator⟩
          else reduction_for ps y) := by
    intro y hy
    have hunit : ∀ e : Int, e = 1 ∨ e = -1 → reduced ps ⟨e, 1⟩ := by
      intro e he
      refine ⟨by norm_num, fun _ => rfl, ?_, ?_⟩
      · intro _
        rcases he with he | he
        · left; rw [he]
        · right; rw [he]
      · intro p hp hp0 hle _
        have hp2 := (prime_table_entry hps p hp).resolve_left hp0
        have : min (c_abs e) 1 ≤ 1 := min_le_right _ _
        simp only at hle
        omega
    split_ifs with h0 h1
    · refine ⟨by norm_num, fun _ => rfl, ?_, ?_⟩
      · intro habs
        simp only [h0] at habs
        simp [c_abs] at habs
      · intro p hp hp0 hle _
        have hp2 := (prime_table_entry hps p hp).resolve_left hp0
        simp only [h0] at hle
        have : min (c_abs 0) (1 : Int) ≤ c_abs 0 := min_le_left _ _
        simp [c_abs] at this hle
        omega
    · have hdd : y.denominator.tdiv y.denominator = 1 := Int.tdiv_self (by omega)
      rw [hdd]
      apply hunit
      rw [c_abs_eq] at h1
      rcases abs_eq (by omega : (0 : Int) ≤ y.denominator) |>.mp h1 with h | h
      · left; rw [h]; exact hdd
      · right
        rw [h]
        have : (-y.denominator).tdiv y.denominator = -(y.denominator.tdiv y.denominator) :=
          Int.neg_tdiv _ _
        rw [this, hdd]
    · obtain ⟨c, -, hcpos, hcn, hcd⟩ := reduction_for_factor ps y
      have hc := hcpos (prime_table_nonneg hps)
      have hrd : 0 < (reduction_for ps y).denominator := by
        rw [hcd] at hy
        rcases pos_and_pos_or_neg_and_neg_of_mul_pos hy with h | h
        · exact h.1
        · omega
      refine ⟨hrd, ?_, ?_, ?_⟩
      · intro hr0
        rw [hr0, zero_mul] at hcn
        exact absurd hcn h0
      · intro habs
        exfalso
        apply h1
        rw [hcn, hcd, c_abs_eq, abs_mul, abs_of_pos hc, ← c_abs_eq, habs]
      · obtain ⟨l, rfl, hl2, hls⟩ := hps
        intro p hp _ hle
        exact reduction_for_coprime l hl2 hls y h0 hy p hp
          (le_trans hle (min_le_left _ _)) (le_trans hle (min_le_right _ _))
  unfold reduction
  by_cases hneg : x.denominator < 0
  · simp only [hneg, if_true]
    exact key ⟨x.numerator * -1, x.denominator * -1⟩ (by simp only; omega)
  · simp only [hneg, if_false]
    exact key x (by omega)

/-! ## Reads and writes on a grid -/

theorem getD_set_eq {α : Type} (l : List α) (i j : Nat) (a d : α) :
    (l.set i a).getD j d = if i = j ∧ i < l.length then a else l.getD j d := by
  simp only [List.getD_eq_getElem?_getD, List.getElem?_set]
  by_cases h1 : i = j
  · subst h1
    by_cases h2 : i < l.length
    · simp [h2]
    · simp only [h2, if_false, and_false, if_true]
      rw [List.getElem?_eq_none (not_lt.mp h2)]
  · simp [h1]

theorem dims_length {m : List (List fraction)} {rows columns : Nat} (h : dims m rows columns) :
    m.length = rows := h.1

theorem dims_row {m : List (List fraction)} {rows columns : Nat} (h : dims m rows columns)
    {y : Nat} (hy : y < rows) : (m.getD y []).length = columns := by
  have hy1 : y < m.length := by rw [h.1]; exact hy
  rw [List.getD_eq_getElem m [] hy1]
  exact h.2 _ (List.getElem_mem hy1)

theorem cell_set_elem {m : List (List fraction)} {rows columns : Nat} (h : dims m rows columns)
    {y x : Nat} (hy : y < rows) (hx : x < columns) (v : fraction) (y1 x1 : Nat) :
    cell (set_elem m y x v) y1 x1 = if y1 = y ∧ x1 = x then v else cell m y1 x1 := by
  unfold cell set_elem
  rw [getD_set_eq]
  by_cases h1 : y = y1
  · subst h1
    rw [if_pos ⟨rfl, by rw [h.1]; exact hy⟩, getD_set_eq, dims_row h hy]
    by_cases h2 : x = x1
    · subst h2
      simp [hx]
    · have h3 : ¬ x1 = x := fun h => h2 h.symm
      simp [h2, h3]
  · have h3 : ¬ y1 = y := fun h => h1 h.symm
    simp [h1, h3]

theorem dims_set_elem {m : List (List fraction)} {rows columns : Nat} (h : dims m rows columns)
    (y x : Nat) (v : fraction) : dims (set_elem m y x v) rows columns := by
  unfold set_elem
  refine ⟨by rw [List.length_set]; exact h.1, ?_⟩
  intro row hrow
  rcases List.mem_or_eq_of_mem_set hrow with h1 | h1
  · exact h.2 row h1
  · rw [h1, List.length_set]
    by_cases hy : y < rows
    · exact dims_row h hy
    · have hlen : m.length ≤ y := by rw [h.1]; omega
      rw [List.set_eq_of_length_le hlen] at hrow
      have := h.2 row hrow
      rw [h1, List.length_set] at this
      exact this

theorem cell_swap_rows {m : List (List fraction)} {rows columns : Nat} (h : dims m rows columns)
    {y0 y : Nat} (hy0 : y0 < rows) (hy : y < rows) (y1 x1 : Nat) :
    cell (swap_rows m y0 y) y1 x1 =
      if y1 = y then cell m y0 x1 else if y1 = y0 then cell m y x1 else cell m y1 x1 := by
  unfold cell swap_rows
  simp only
  rw [getD_set_eq, getD_set_eq, List.length_set]
  have hl0 : y0 < m.length := by rw [h.1]; exact hy0
  have hl : y < m.length := by rw [h.1]; exact hy
  by_cases h1 : y1 = y
  · subst h1
    simp [hl]
  · by_cases h2 : y1 = y0
    · subst h2
      have : ¬ y = y1 := fun h => h1 h.symm
      simp [this, h1, hl0]
    · have h3 : ¬ y = y1 := fun h => h1 h.symm
      have h4 : ¬ y0 = y1 := fun h => h2 h.symm
      simp [h1, h2, h3, h4]

theorem dims_swap_rows {m : List (List fraction)} {rows columns : Nat} (h : dims m rows columns)
    {y0 y : Nat} (hy0 : y0 < rows) (hy : y < rows) : dims (swap_rows m y0 y) rows columns := by
  unfold swap_rows
  simp only
  refine ⟨by rw [List.length_set, List.length_set]; exact h.1, ?_⟩
  intro row hrow
  rcases List.mem_or_eq_of_mem_set hrow with h1 | h1
  · rcases List.mem_or_eq_of_mem_set h1 with h2 | h2
    · exact h.2 row h2
    · rw [h2]; exact dims_row h hy
  · rw [h1]; exact dims_row h hy0

/-- Two grids of the same dimensions with the same elements are equal. -/
theorem grid_ext {m1 m2 : List (List fraction)} {rows columns : Nat} (h1 : dims m1 rows columns)
    (h2 : dims m2 rows columns)
    (h : ∀ y, y < rows → ∀ x, x < columns → cell m1 y x = cell m2 y x) : m1 = m2 := by
  apply List.ext_getElem (by rw [h1.1, h2.1])
  intro y hy1 hy2
  have hy : y < rows := by rw [← h1.1]; exact hy1
  have hr1 := dims_row h1 hy
  have hr2 := dims_row h2 hy
  rw [List.getD_eq_getElem m1 [] hy1] at hr1
  rw [List.getD_eq_getElem m2 [] hy2] at hr2
  apply List.ext_getElem (by rw [hr1, hr2])
  intro x hx1 hx2
  have hx : x < columns := by rw [← hr1]; exact hx1
  have := h y hy x hx
  unfold cell at this
  rw [List.getD_eq_getElem m1 [] hy1, List.getD_eq_getElem m2 [] hy2,
    List.getD_eq_getElem _ _ hx1, List.getD_eq_getElem _ _ hx2] at this
  exact this

/-! ## The inner loops, element by element -/

/-- A loop that rewrites the elements of row `y` in the columns of `l`, each from its old value and
from the element of another row `yp` in the same column. -/
theorem cell_fold_row (G : Nat → fraction → fraction → fraction) {rows columns : Nat} (y yp : Nat)
    (hne : yp ≠ y) (hy : y < rows) (l : List Nat) (hnd : l.Nodup) (hl : ∀ x ∈ l, x < columns)
    (m : List (List fraction)) (hd : dims m rows columns) :
    dims (l.foldl (fun m x => set_elem m y x (G x (cell m y x) (cell m yp x))) m) rows columns ∧
    ∀ y1 x1, cell (l.foldl (fun m x => set_elem m y x (G x (cell m y x) (cell m yp x))) m) y1 x1 =
      if y1 = y ∧ x1 ∈ l then G x1 (cell m y x1) (cell m yp x1) else cell m y1 x1 := by
  induction l generalizing m with
  | nil => exact ⟨hd, fun y1 x1 => by simp⟩
  | cons a l ih =>
    have ha : a < columns := hl a (List.mem_cons_self _ _)
    have hnd1 := List.nodup_cons.mp hnd
    have hd1 := dims_set_elem hd y a (G a (cell m y a) (cell m yp a))
    obtain ⟨h1, h2⟩ := ih hnd1.2 (fun x hx => hl x (List.mem_cons_of_mem _ hx)) _ hd1
    rw [List.foldl_cons]
    refine ⟨h1, ?_⟩
    intro y1 x1
    rw [h2 y1 x1]
    by_cases hy1 : y1 = y
    · subst hy1
      by_cases hx1 : x1 ∈ l
      · have hx1a : x1 ≠ a := fun h => hnd1.1 (h ▸ hx1)
        rw [if_pos ⟨rfl, hx1⟩, if_pos ⟨rfl, List.mem_cons_of_mem _ hx1⟩,
          cell_set_elem hd hy ha, cell_set_elem hd hy ha, if_neg (fun h => hx1a h.2),
          if_neg (fun h => hne h.1)]
      · rw [if_neg (fun h => hx1 h.2), cell_set_elem hd hy ha]
        by_cases hx1a : x1 = a
        · subst hx1a
          rw [if_pos ⟨rfl, rfl⟩, if_pos ⟨rfl, List.mem_cons_self _ _⟩]
        · rw [if_neg (fun h => hx1a h.2), if_neg]
          rintro ⟨-, h⟩
          rcases List.mem_cons.mp h with h | h
          · exact hx1a h
          · exact hx1 h
    · rw [if_neg (fun h => hy1 h.1), if_neg (fun h => hy1 h.1), cell_set_elem hd hy ha,
        if_neg (fun h => hy1 h.1)]

theorem mem_range_iff (s n x : Nat) : x ∈ List.range' s (n - s) ↔ s ≤ x ∧ x < n := by
  rw [List.mem_range'_1]
  omega

/-- The normalisation loop multiplies the elements of row `y0` from column `x0` on. -/
theorem scale_row_spec (ps : List Int) {rows columns : Nat} (x0 y0 : Nat) (mult : fraction)
    (m : List (List fraction)) (hd : dims m rows columns) (hy : y0 < rows) :
    dims (scale_row ps columns x0 y0 mult m) rows columns ∧
    ∀ y1 x1, cell (scale_row ps columns x0 y0 mult m) y1 x1 =
      if y1 = y0 ∧ x0 ≤ x1 ∧ x1 < columns then fraction_mul ps (cell m y0 x1) mult
      else cell m y1 x1 := by
  obtain ⟨h1, h2⟩ := cell_fold_row (fun _ a _ => fraction_mul ps a mult) y0 (y0 + 1)
    (Nat.succ_ne_self y0) hy (List.range' x0 (columns - x0)) (List.nodup_range' _ _)
    (fun x hx => ((mem_range_iff _ _ _).mp hx).2) m hd
  refine ⟨h1, ?_⟩
  intro y1 x1
  unfold scale_row
  rw [h2 y1 x1]
  simp only [mem_range_iff]

/-- The elimination body on a row `y` other than the pivot row. -/
theorem eliminate_row_spec (ps : List Int) {rows columns : Nat} (x0 y0 y : Nat)
    (m : List (List fraction)) (hd : dims m rows columns) (hy : y < rows) (hx0 : x0 < columns)
    (hne : y0 ≠ y) :
    dims (eliminate_row ps columns x0 y0 y m) rows columns ∧
    ∀ y1 x1, cell (eliminate_row ps columns x0 y0 y m) y1 x1 =
      if y1 = y then eliminated ps columns x0 (cell m y0) (cell m y) x1 else cell m y1 x1 := by
  unfold eliminate_row
  by_cases hz : fraction_is_zero (cell m y x0) = true
  · have hz0 : (cell m y x0).numerator = 0 := (is_zero_iff _).mp hz
    simp only [hz, Bool.not_true, Bool.false_eq_true, if_false]
    refine ⟨hd, ?_⟩
    intro y1 x1
    by_cases hy1 : y1 = y
    · subst hy1
      simp [eliminated, hz0]
    · simp [hy1]
  · have hz0 : (cell m y x0).numerator ≠ 0 := by
      intro h; exact hz ((is_zero_iff _).mpr h)
    have hz1 : (!fraction_is_zero (cell m y x0)) = true := by simpa using hz
    simp only [hz1, if_true]
    have hd1 := dims_set_elem hd y x0 (fraction_int2type 0)
    obtain ⟨h1, h2⟩ := cell_fold_row
      (fun _ a b => fraction_sub ps a (fraction_mul ps b (cell m y x0))) y y0 hne hy
      (List.range' (x0 + 1) (columns - (x0 + 1))) (List.nodup_range' _ _)
      (fun x hx => ((mem_range_iff _ _ _).mp hx).2) _ hd1
    refine ⟨h1, ?_⟩
    intro y1 x1
    rw [h2 y1 x1]
    simp only [mem_range_iff]
    by_cases hy1 : y1 = y
    · subst hy1
      simp only [eq_self_iff_true, true_and, if_true]
      unfold eliminated
      rw [if_neg hz0]
      by_cases hx1 : x1 = x0
      · subst hx1
        rw [if_neg (by omega), cell_set_elem hd hy hx0, if_pos ⟨rfl, rfl⟩, if_pos rfl]
      · rw [if_neg hx1]
        by_cases hx2 : x0 + 1 ≤ x1 ∧ x1 < columns
        · rw [if_pos hx2, if_pos ⟨by omega, hx2.2⟩, cell_set_elem hd hy hx0,
            cell_set_elem hd hy hx0, if_neg (fun h => hx1 h.2), if_neg (fun h => hne h.1)]
        · rw [if_neg hx2, if_neg (by omega), cell_set_elem hd hy hx0, if_neg (fun h => hx1 h.2)]
    · rw [if_neg (fun h => hy1 h.1), if_neg hy1, cell_set_elem hd hy hx0,
        if_neg (fun h => hy1 h.1)]

/-- The elimination body run over a list of rows, none of them the pivot row. -/
theorem eliminate_rows_spec (ps : List Int) {rows columns : Nat} (x0 y0 : Nat) (hx0 : x0 < columns)
    (l : List Nat) (hnd : l.Nodup) (hl : ∀ y ∈ l, y < rows ∧ y0 ≠ y)
    (m : List (List fraction)) (hd : dims m rows columns) :
    dims (l.foldl (fun m y => eliminate_row ps columns x0 y0 y m) m) rows columns ∧
    ∀ y1 x1, cell (l.foldl (fun m y => eliminate_row ps columns x0 y0 y m) m) y1 x1 =
      if y1 ∈ l then eliminated ps columns x0 (cell m y0) (cell m y1) x1 else cell m y1 x1 := by
  induction l generalizing m with
  | nil => exact ⟨hd, fun y1 x1 => by simp⟩
  | cons a l ih =>
    have ha := hl a (List.mem_cons_self _ _)
    have hnd1 := List.nodup_cons.mp hnd
    obtain ⟨hd1, hc1⟩ := eliminate_row_spec ps x0 y0 a m hd ha.1 hx0 ha.2
    obtain ⟨h1, h2⟩ := ih hnd1.2 (fun y hy => hl y (List.mem_cons_of_mem _ hy)) _ hd1
    rw [List.foldl_cons]
    refine ⟨h1, ?_⟩
    intro y1 x1
    rw [h2 y1 x1]
    have hrow0 : cell (eliminate_row ps columns x0 y0 a m) y0 = cell m y0 := by
      funext x
      rw [hc1 y0 x, if_neg ha.2]
    by_cases hy1 : y1 ∈ l
    · have hy1a : y1 ≠ a := fun h => hnd1.1 (h ▸ hy1)
      have hrow1 : cell (eliminate_row ps columns x0 y0 a m) y1 = cell m y1 := by
        funext x
        rw [hc1 y1 x, if_neg hy1a]
      rw [if_pos hy1, if_pos (List.mem_cons_of_mem _ hy1), hrow0, hrow1]
    · rw [if_neg hy1, hc1 y1 x1]
      by_cases hy1a : y1 = a
      · subst hy1a
        rw [if_pos rfl, if_pos (List.mem_cons_self _ _)]
      · rw [if_neg hy1a, if_neg]
        intro h
        rcases List.mem_cons.mp h with h | h
        · exact hy1a h
        · exact hy1 h

/-- Elimination below the pivot row. -/
theorem eliminate_below_spec (ps : List Int) {rows columns : Nat} (x0 y0 : Nat)
    (hx0 : x0 < columns) (m : List (List fraction)) (hd : dims m rows columns) :
    dims (eliminate_below ps rows columns x0 y0 m) rows columns ∧
    ∀ y1 x1, cell (eliminate_below ps rows columns x0 y0 m) y1 x1 =
      if y0 < y1 ∧ y1 < rows then eliminated ps columns x0 (cell m y0) (cell m y1) x1
      else cell m y1 x1 := by
  obtain ⟨h1, h2⟩ := eliminate_rows_spec ps x0 y0 hx0 (List.range' (y0 + 1) (rows - (y0 + 1)))
    (List.nodup_range' _ _)
    (fun y hy => by
      have := (mem_range_iff _ _ _).mp hy
      exact ⟨this.2, by omega⟩) m hd
  refine ⟨h1, ?_⟩
  intro y1 x1
  unfold eliminate_below
  rw [h2 y1 x1]
  simp only [mem_range_iff, Nat.add_one_le_iff]

/-- Elimination above the pivot row, on the rows below `n`. -/
theorem eliminate_above_spec (ps : List Int) {rows columns : Nat} (x0 y0 : Nat)
    (hx0 : x0 < columns) (hy0 : y0 < rows) (n : Nat) (hn : n ≤ y0)
    (m : List (List fraction)) (hd : dims m rows columns) :
    dims (eliminate_above ps columns x0 y0 n m) rows columns ∧
    ∀ y1 x1, cell (eliminate_above ps columns x0 y0 n m) y1 x1 =
      if y1 < n then eliminated ps columns x0 (cell m y0) (cell m y1) x1 else cell m y1 x1 := by
  induction n generalizing m with
  | zero => exact ⟨hd, fun y1 x1 => by simp [eliminate_above]⟩
  | succ n ih =>
    obtain ⟨hd1, hc1⟩ := eliminate_row_spec ps x0 y0 n m hd (by omega) hx0 (by omega)
    obtain ⟨h1, h2⟩ := ih (by omega) _ hd1
    unfold eliminate_above
    refine ⟨h1, ?_⟩
    intro y1 x1
    rw [h2 y1 x1]
    have hrow0 : cell (eliminate_row ps columns x0 y0 n m) y0 = cell m y0 := by
      funext x
      rw [hc1 y0 x, if_neg (by omega)]
    by_cases hy1 : y1 < n
    · have hrow1 : cell (eliminate_row ps columns x0 y0 n m) y1 = cell m y1 := by
        funext x
        rw [hc1 y1 x, if_neg (by omega)]
      rw [if_pos hy1, if_pos (by omega), hrow0, hrow1]
    · rw [if_neg hy1, hc1 y1 x1]
      by_cases hy1n : y1 = n
      · subst hy1n
        rw [if_pos rfl, if_pos (by omega)]
      · rw [if_neg hy1n, if_neg (by omega)]

/-! ## Pivot search and pivot scan -/

theorem pivot_search_cases (rows x0 y0 : Nat) (m : List (List fraction)) :
    (pivot_search rows x0 y0 m = m ∧
      ((cell m y0 x0).numerator ≠ 0 ∨
        ∀ y, y0 < y → y < rows → (cell m y x0).numerator = 0)) ∨
    (∃ y, y0 < y ∧ y < rows ∧ (cell m y0 x0).numerator = 0 ∧ (cell m y x0).numerator ≠ 0 ∧
      pivot_search rows x0 y0 m = swap_rows m y0 y) := by
  unfold pivot_search
  by_cases hz : fraction_is_zero (cell m y0 x0) = true
  · rw [if_pos hz]
    cases hfind : (List.range' (y0 + 1) (rows - (y0 + 1))).find?
        (fun y => !fraction_is_zero (cell m y x0)) with
    | none =>
      left
      refine ⟨rfl, Or.inr ?_⟩
      intro y hy1 hy2
      have := List.find?_eq_none.mp hfind y ((mem_range_iff _ _ _).mpr ⟨hy1, hy2⟩)
      simpa [fraction_is_zero] using this
    | some y =>
      right
      have hmem := (mem_range_iff _ _ _).mp (List.mem_of_find?_eq_some hfind)
      have hp := List.find?_some hfind
      refine ⟨y, hmem.1, hmem.2, (is_zero_iff _).mp hz, ?_, rfl⟩
      simpa [fraction_is_zero] using hp
  · rw [if_neg hz]
    left
    exact ⟨rfl, Or.inl fun h => hz ((is_zero_iff _).mpr h)⟩

/-- The pivot scan stops at the first column from `s` on that holds a nonzero, or at the bound. -/
theorem pivot_scan_spec (m : List (List fraction)) (y0 n s : Nat) :
    s ≤ pivot_scan m y0 n s ∧ pivot_scan m y0 n s ≤ s + n ∧
    (∀ x, s ≤ x → x < pivot_scan m y0 n s → (cell m y0 x).numerator = 0) ∧
    (pivot_scan m y0 n s < s + n → (cell m y0 (pivot_scan m y0 n s)).numerator ≠ 0) := by
  induction n generalizing s with
  | zero =>
    refine ⟨le_rfl, le_rfl, ?_, ?_⟩
    · intro x h1 h2
      simp only [pivot_scan] at h2
      omega
    · intro h
      simp only [pivot_scan] at h
      omega
  | succ n ih =>
    unfold pivot_scan
    by_cases hz : fraction_is_zero (cell m y0 s) = true
    · rw [if_pos hz]
      obtain ⟨h1, h2, h3, h4⟩ := ih (s + 1)
      refine ⟨by omega, by omega, ?_, ?_⟩
      · intro x hx1 hx2
        by_cases hxs : x = s
        · subst hxs
          exact (is_zero_iff _).mp hz
        · exact h3 x (by omega) hx2
      · intro h
        exact h4 (by omega)
    · rw [if_neg hz]
      refine ⟨le_rfl, by omega, ?_, ?_⟩
      · intro x h1 h2
        omega
      · intro _ h
        exact hz ((is_zero_iff _).mpr h)

/-! ## The elimination body in values -/

theorem eliminated_left (ps : List Int) (columns x0 : Nat) (p r : Nat → fraction) (x : Nat)
    (hx : x < x0) : eliminated ps columns x0 p r x = r x := by
  unfold eliminated
  split_ifs with h1 h2 h3
  · rfl
  · omega
  · omega
  · rfl

theorem eliminated_pivot_column (ps : List Int) (columns x0 : Nat) (p r : Nat → fraction) :
    (eliminated ps columns x0 p r x0).numerator = 0 := by
  unfold eliminated
  by_cases h1 : (r x0).numerator = 0
  · rw [if_pos h1]; exact h1
  · rw [if_neg h1, if_pos rfl]; rfl

theorem eliminated_num_zero (ps : List Int) (columns x0 : Nat) (p r : Nat → fraction) (x : Nat)
    (hr : (r x).numerator = 0) (hp : (p x).numerator = 0) :
    (eliminated ps columns x0 p r x).numerator = 0 := by
  unfold eliminated
  split_ifs
  · exact hr
  · rfl
  · exact sub_num_zero ps hr (mul_num_zero_left ps hp)
  · exact hr

theorem eliminated_den (ps : List Int) (columns x0 : Nat) (p r : Nat → fraction) (x : Nat)
    (hx0 : (r x0).denominator ≠ 0) (hr : (r x).denominator ≠ 0) (hp : (p x).denominator ≠ 0) :
    (eliminated ps columns x0 p r x).denominator ≠ 0 := by
  unfold eliminated
  split_ifs
  · exact hr
  · simp [fraction_int2type]
  · exact sub_den_ne_zero ps hr (mul_den_ne_zero ps hp hx0)
  · exact hr

/-- In values the elimination body subtracts `row[x0]` times the pivot row from the row, provided
the pivot row has the value 1 in the pivot column and zeros to its left. -/
theorem val_eliminated (ps : List Int) (columns x0 : Nat) (p r : Nat → fraction) (x : Nat)
    (hx : x < columns) (hx0 : (r x0).denominator ≠ 0) (hr : (r x).denominator ≠ 0)
    (hp : (p x).denominator ≠ 0) (hp1 : val (p x0) = 1)
    (hp0 : ∀ x1, x1 < x0 → (p x1).numerator = 0) :
    val (eliminated ps columns x0 p r x) = val (r x) - val (r x0) * val (p x) := by
  unfold eliminated
  split_ifs with h1 h2 h3
  · rw [val_of_num_zero h1]; ring
  · subst h2
    rw [hp1, @val_of_num_zero (fraction_int2type 0) rfl]; ring
  · rw [val_sub ps hr (mul_den_ne_zero ps hp hx0), val_mul ps hp hx0]; ring
  · have hlt : x < x0 := by omega
    rw [val_of_num_zero (hp0 x hlt)]; ring

/-! ## Row operations and the equations of the rows -/

theorem dot_congr {m1 m2 : List (List fraction)} {columns : Nat} {y1 y2 : Nat} (s : Nat → ℚ)
    (h : ∀ x, x < columns → val (cell m1 y1 x) = val (cell m2 y2 x)) :
    dot m1 columns y1 s = dot m2 columns y2 s := by
  unfold dot
  apply Finset.sum_congr rfl
  intro x hx
  rw [h x (Finset.mem_range.mp hx)]

theorem dot_scale {m1 m2 : List (List fraction)} {columns : Nat} {y1 y2 : Nat} (s : Nat → ℚ)
    (c : ℚ) (h : ∀ x, x < columns → val (cell m1 y1 x) = c * val (cell m2 y2 x)) :
    dot m1 columns y1 s = c * dot m2 columns y2 s := by
  unfold dot
  rw [Finset.mul_sum]
  apply Finset.sum_congr rfl
  intro x hx
  rw [h x (Finset.mem_range.mp hx)]
  ring

theorem dot_sub {m1 m2 : List (List fraction)} {columns : Nat} {y k : Nat} (s : Nat → ℚ)
    (c : ℚ)
    (h : ∀ x, x < columns → val (cell m1 y x) = val (cell m2 y x) - c * val (cell m2 k x)) :
    dot m1 columns y s = dot m2 columns y s - c * dot m2 columns k s := by
  unfold dot
  rw [Finset.mul_sum, ← Finset.sum_sub_distrib]
  apply Finset.sum_congr rfl
  intro x hx
  rw [h x (Finset.mem_range.mp hx)]
  ring

/-! ## One iteration of the forward elimination -/

theorem forward_step_matrix (ps : List Int) (rows columns : Nat) (s : engine) :
    (forward_step ps rows columns s).matrix =
      if fraction_is_zero (cell (pivot_search rows s.x0 s.y0 s.matrix) s.y0 s.x0) then
        pivot_search rows s.x0 s.y0 s.matrix
      else
        eliminate_below ps rows columns s.x0 s.y0
          (scale_row ps columns s.x0 s.y0
            (fraction_div ps (fraction_int2type 1)
              (cell (pivot_search rows s.x0 s.y0 s.matrix) s.y0 s.y0))
            (pivot_search rows s.x0 s.y0 s.matrix)) := by
  unfold forward_step
  simp only
  split_ifs <;> rfl

theorem forward_step_cursor (ps : List Int) (rows columns : Nat) (s : engine) :
    (forward_step ps rows columns s).x0 = s.x0 + 1 ∧
    (forward_step ps rows columns s).y0 = s.y0 + 1 := by
  unfold forward_step
  simp only
  split_ifs <;> exact ⟨rfl, rfl⟩

/-- The pivot search keeps the shape, the nonzero denominators, the solutions and the rows above
the cursor, and either brings a nonzero to the cursor or finds the column zero from the cursor row
down. -/
theorem pivot_search_inv (rows columns k : Nat) (m : List (List fraction))
    (hinv : shape_inv rows columns k m) (hy : k < rows) :
    shape_inv rows columns k (pivot_search rows k k m) ∧
    (valid m rows columns → valid (pivot_search rows k k m) rows columns) ∧
    (∀ s, solves (pivot_search rows k k m) rows columns s ↔ solves m rows columns s) ∧
    (∀ y x, y < k → cell (pivot_search rows k k m) y x = cell m y x) ∧
    ((cell (pivot_search rows k k m) k k).numerator ≠ 0 ∨
      ∀ y, k ≤ y → y < rows → (cell (pivot_search rows k k m) y k).numerator = 0) := by
  obtain ⟨hd, hz, hdg⟩ := hinv
  rcases pivot_search_cases rows k k m with ⟨heq, h⟩ | ⟨y, hy1, hy2, -, hnz, heq⟩
  · rw [heq]
    refine ⟨⟨hd, hz, hdg⟩, fun hv => hv, fun s => Iff.rfl, fun _ _ _ => rfl, ?_⟩
    rcases h with h | h
    · exact Or.inl h
    · by_cases hk : (cell m k k).numerator = 0
      · right
        intro y hy1 hy2
        rcases Nat.eq_or_lt_of_le hy1 with h1 | h1
        · rw [← h1]; exact hk
        · exact h y h1 hy2
      · exact Or.inl hk
  · rw [heq]
    have hc := cell_swap_rows hd hy hy2
    have hky : k ≠ y := by omega
    refine ⟨⟨dims_swap_rows hd hy hy2, ?_, ?_⟩, ?_, ?_, ?_, ?_⟩
    · intro x y1 h1 h2 h3 h4
      rw [hc]
      split_ifs
      · exact hz x k h1 h1 hy h4
      · exact hz x y h1 (by omega) hy2 h4
      · exact hz x y1 h1 h2 h3 h4
    · intro x h1 h2 h3
      rw [hc, if_neg (by omega), if_neg (by omega)]
      exact hdg x h1 h2 h3
    · intro hv y1 h1 x1 h2
      rw [hc]
      split_ifs
      · exact hv k hy x1 h2
      · exact hv y hy2 x1 h2
      · exact hv y1 h1 x1 h2
    · intro s
      have e1 : dot (swap_rows m k y) columns y s = dot m columns k s :=
        dot_congr s fun x _ => by rw [hc, if_pos rfl]
      have e2 : dot (swap_rows m k y) columns k s = dot m columns y s :=
        dot_congr s fun x _ => by rw [hc, if_neg hky, if_pos rfl]
      have e3 : ∀ y1, y1 ≠ y → y1 ≠ k →
          dot (swap_rows m k y) columns y1 s = dot m columns y1 s :=
        fun y1 h1 h2 => dot_congr s fun x _ => by rw [hc, if_neg h1, if_neg h2]
      constructor
      · intro h y1 hy3
        by_cases h1 : y1 = y
        · rw [h1, ← e2]; exact h k hy
        · by_cases h2 : y1 = k
          · rw [h2, ← e1]; exact h y hy2
          · rw [← e3 y1 h1 h2]; exact h y1 hy3
      · intro h y1 hy3
        by_cases h1 : y1 = y
        · rw [h1, e1]; exact h k hy
        · by_cases h2 : y1 = k
          · rw [h2, e2]; exact h y hy2
          · rw [e3 y1 h1 h2]; exact h y1 hy3
    · intro y1 x1 h1
      rw [hc, if_neg (by omega), if_neg (by omega)]
    · left
      rw [hc, if_neg hky, if_pos rfl]
      exact hnz

/-- One iteration of the forward elimination with the cursor on the diagonal at `k`: the shape
invariant moves to `k + 1` and the rows above `k` are kept; when the denominators are nonzero they
stay so, the solutions are kept, and either the diagonal element is `{1, 1}` afterwards or column
`k` is zero from row `k` down. -/
theorem forward_step_inv (ps : List Int) (rows columns k : Nat) (m : List (List fraction))
    (d : List fraction) (hinv : shape_inv rows columns k m) (hy : k < rows)
    (hx : k < columns) :
    shape_inv rows columns (k + 1) (forward_step ps rows columns ⟨k, k, m, d⟩).matrix ∧
    (∀ y x, y < k → cell (forward_step ps rows columns ⟨k, k, m, d⟩).matrix y x = cell m y x) ∧
    (valid m rows columns →
      valid (forward_step ps rows columns ⟨k, k, m, d⟩).matrix rows columns ∧
      (∀ s, solves (forward_step ps rows columns ⟨k, k, m, d⟩).matrix rows columns s ↔
        solves m rows columns s) ∧
      (cell (forward_step ps rows columns ⟨k, k, m, d⟩).matrix k k = ⟨1, 1⟩ ∨
        ∀ y, k ≤ y → y < rows →
          (cell (forward_step ps rows columns ⟨k, k, m, d⟩).matrix y k).numerator = 0)) := by
  obtain ⟨⟨hd1, hz1, hdg1⟩, hvalid1, hs1, hf1, hp1⟩ := pivot_search_inv rows columns k m hinv hy
  rw [forward_step_matrix]
  simp only
  generalize pivot_search rows k k m = m1 at hd1 hvalid1 hz1 hdg1 hs1 hf1 hp1 ⊢
  by_cases hzero : fraction_is_zero (cell m1 k k) = true
  · rw [if_pos hzero]
    have hk0 : (cell m1 k k).numerator = 0 := (is_zero_iff _).mp hzero
    have hcol : ∀ y, k ≤ y → y < rows → (cell m1 y k).numerator = 0 :=
      hp1.resolve_left (fun h => h hk0)
    refine ⟨⟨hd1, ?_, ?_⟩, hf1, fun hv => ⟨hvalid1 hv, hs1, Or.inr hcol⟩⟩
    · intro x y h1 h2 h3 h4
      rcases Nat.lt_succ_iff_lt_or_eq.mp h1 with h | h
      · exact hz1 x y h h2 h3 h4
      · subst h
        exact hcol y (by omega) h3
    · intro x h1 h2 h3
      rcases Nat.lt_succ_iff_lt_or_eq.mp h1 with h | h
      · exact hdg1 x h h2 h3
      · subst h
        exact Or.inr hk0
  · rw [if_neg hzero]
    have hpn : (cell m1 k k).numerator ≠ 0 := fun h => hzero ((is_zero_iff _).mpr h)
    have hmd : (cell m1 k k).denominator ≠ 0 →
        (fraction_div ps (fraction_int2type 1) (cell m1 k k)).denominator ≠ 0 :=
      fun _ => div_den_ne_zero ps (by simp [fraction_int2type]) hpn
    have hmv : (cell m1 k k).denominator ≠ 0 →
        val (fraction_div ps (fraction_int2type 1) (cell m1 k k)) = 1 / val (cell m1 k k) := by
      intro hpd
      rw [val_div ps (by simp [fraction_int2type]) hpd hpn]
      simp [val, fraction_int2type]
    have hone : (cell m1 k k).denominator ≠ 0 →
        fraction_mul ps (cell m1 k k) (fraction_div ps (fraction_int2type 1) (cell m1 k k))
          = ⟨1, 1⟩ := mul_div_one ps (cell m1 k k) hpn
    have hone0 := mul_div_one_or_zero ps (cell m1 k k) hpn
    generalize fraction_div ps (fraction_int2type 1) (cell m1 k k) = mult at hmd hmv hone hone0 ⊢
    obtain ⟨hd2, hc2⟩ := scale_row_spec ps k k mult m1 hd1 hy
    generalize scale_row ps columns k k mult m1 = m2 at hd2 hc2 ⊢
    obtain ⟨hd3, hc3⟩ := eliminate_below_spec ps k k hx m2 hd2
    generalize eliminate_below ps rows columns k k m2 = m3 at hd3 hc3 ⊢
    -- facts about the scaled grid
    have hkk2 : cell m2 k k = fraction_mul ps (cell m1 k k) mult := by
      rw [hc2, if_pos ⟨rfl, le_rfl, hx⟩]
    have hleft2 : ∀ x1, x1 < k → (cell m2 k x1).numerator = 0 := by
      intro x1 h1
      rw [hc2, if_neg (by omega)]
      exact hz1 x1 k h1 h1 hy (by omega)
    have hother2 : ∀ y1 x1, y1 ≠ k → cell m2 y1 x1 = cell m1 y1 x1 := by
      intro y1 x1 h1
      rw [hc2, if_neg (fun h => h1 h.1)]
    have hsame3 : ∀ y1 x1, y1 ≤ k → cell m3 y1 x1 = cell m2 y1 x1 := by
      intro y1 x1 h1
      rw [hc3, if_neg (by omega)]
    refine ⟨⟨hd3, ?_, ?_⟩, ?_, ?_⟩
    · intro x y1 h1 h2 h3 h4
      rw [hc3]
      by_cases h5 : k < y1
      · rw [if_pos ⟨h5, h3⟩]
        rcases Nat.lt_succ_iff_lt_or_eq.mp h1 with h | h
        · rw [eliminated_left ps columns k _ _ x h, hother2 y1 x (by omega)]
          exact hz1 x y1 h h2 h3 h4
        · subst h
          exact eliminated_pivot_column ps columns x _ _
      · rw [if_neg (fun h => h5 h.1)]
        have hxk : x < k := by omega
        by_cases h6 : y1 = k
        · subst h6
          exact hleft2 x hxk
        · rw [hother2 y1 x h6]
          exact hz1 x y1 hxk h2 h3 h4
    · intro x h1 h2 h3
      rw [hsame3 x x (by omega)]
      rcases Nat.lt_succ_iff_lt_or_eq.mp h1 with h | h
      · rw [hother2 x x (by omega)]
        exact hdg1 x h h2 h3
      · subst h
        rw [hkk2]
        exact hone0
    · intro y1 x1 h1
      rw [hsame3 y1 x1 (by omega), hother2 y1 x1 (by omega)]
      exact hf1 y1 x1 h1
    · intro hv
      have hv1 := hvalid1 hv
      have hpd : (cell m1 k k).denominator ≠ 0 := hv1 k hy k hx
      have hmd := hmd hpd
      have hmv := hmv hpd
      have hkk2one : cell m2 k k = ⟨1, 1⟩ := by rw [hkk2]; exact hone hpd
      have hv2 : valid m2 rows columns := by
        intro y1 h1 x1 h2
        rw [hc2]
        split_ifs
        · exact mul_den_ne_zero ps (hv1 k hy x1 h2) hmd
        · exact hv1 y1 h1 x1 h2
      have hval2 : ∀ x1, x1 < columns →
          val (cell m2 k x1) = (1 / val (cell m1 k k)) * val (cell m1 k x1) := by
        intro x1 h1
        rw [hc2]
        by_cases h2 : k ≤ x1
        · rw [if_pos ⟨rfl, h2, h1⟩, val_mul ps (hv1 k hy x1 h1) hmd, hmv]
          ring
        · rw [if_neg (by omega), val_of_num_zero (hz1 x1 k (by omega) (by omega) hy h1)]
          ring
      have hval3 : ∀ y1, k < y1 → y1 < rows → ∀ x1, x1 < columns →
          val (cell m3 y1 x1) =
            val (cell m2 y1 x1) - val (cell m2 y1 k) * val (cell m2 k x1) := by
        intro y1 h1 h2 x1 h3
        rw [hc3, if_pos ⟨h1, h2⟩]
        exact val_eliminated ps columns k (cell m2 k) (cell m2 y1) x1 h3 (hv2 y1 h2 k hx)
          (hv2 y1 h2 x1 h3) (hv2 k hy x1 h3) (by rw [hkk2one]; simp [val]) hleft2
      refine ⟨?_, ?_, ?_⟩
      · intro y1 h1 x1 h2
        rw [hc3]
        split_ifs
        · exact eliminated_den ps columns k _ _ x1 (hv2 y1 h1 k hx) (hv2 y1 h1 x1 h2)
            (hv2 k hy x1 h2)
        · exact hv2 y1 h1 x1 h2
      · intro s
        rw [← hs1 s]
        have hpv : val (cell m1 k k) ≠ 0 := fun h => hpn ((val_eq_zero hpd).mp h)
        have ek2 : dot m2 columns k s = (1 / val (cell m1 k k)) * dot m1 columns k s :=
          dot_scale s _ hval2
        have eo2 : ∀ y1, y1 ≠ k → dot m2 columns y1 s = dot m1 columns y1 s :=
          fun y1 h1 => dot_congr s fun x _ => by rw [hother2 y1 x h1]
        have el3 : ∀ y1, y1 ≤ k → dot m3 columns y1 s = dot m2 columns y1 s :=
          fun y1 h1 => dot_congr s fun x _ => by rw [hsame3 y1 x h1]
        have eg3 : ∀ y1, k < y1 → y1 < rows →
            dot m3 columns y1 s =
              dot m2 columns y1 s - val (cell m2 y1 k) * dot m2 columns k s :=
          fun y1 h1 h2 => dot_sub s _ (hval3 y1 h1 h2)
        constructor
        · intro h
          have hk : dot m1 columns k s = 0 := by
            have := h k hy
            rw [el3 k le_rfl, ek2] at this
            rcases mul_eq_zero.mp this with h0 | h0
            · exact absurd h0 (one_div_ne_zero hpv)
            · exact h0
          intro y1 hy1
          by_cases h1 : y1 = k
          · rw [h1]; exact hk
          · by_cases h2 : k < y1
            · have := h y1 hy1
              rw [eg3 y1 h2 hy1, ek2, hk, eo2 y1 h1] at this
              simpa using this
            · have := h y1 hy1
              rw [el3 y1 (by omega), eo2 y1 h1] at this
              exact this
        · intro h y1 hy1
          have hk : dot m2 columns k s = 0 := by rw [ek2, h k hy]; ring
          by_cases h2 : k < y1
          · rw [eg3 y1 h2 hy1, hk, eo2 y1 (by omega), h y1 hy1]; ring
          · rw [el3 y1 (by omega)]
            by_cases h1 : y1 = k
            · rw [h1]; exact hk
            · rw [eo2 y1 h1]; exact h y1 hy1
      · left
        rw [hsame3 k k le_rfl]
        exact hkk2one

/-! ## The two outer loops -/

/-- Induction along the forward elimination loop started with the cursor on the diagonal: the
cursor ends at `min rows columns`, so the step budget `rows` of `forward_elimination` is enough. -/
theorem forward_loop_induction (ps : List Int) (rows columns : Nat)
    (P : Nat → List (List fraction) → Prop)
    (hstep : ∀ k m d, k < rows → k < columns → P k m →
      P (k + 1) (forward_step ps rows columns ⟨k, k, m, d⟩).matrix)
    (fuel k : Nat) (m : List (List fraction)) (d : List fraction)
    (hk : k ≤ min rows columns) (hfuel : min rows columns ≤ k + fuel) (h : P k m) :
    (forward_loop ps rows columns fuel ⟨k, k, m, d⟩).x0 = min rows columns ∧
    (forward_loop ps rows columns fuel ⟨k, k, m, d⟩).y0 = min rows columns ∧
    P (min rows columns) (forward_loop ps rows columns fuel ⟨k, k, m, d⟩).matrix := by
  induction fuel generalizing k m d with
  | zero =>
    have hk2 : k = min rows columns := by omega
    unfold forward_loop
    exact ⟨hk2, hk2, hk2 ▸ h⟩
  | succ fuel ih =>
    unfold forward_loop
    by_cases hc : k < columns ∧ k < rows
    · rw [if_pos hc]
      have hcur := forward_step_cursor ps rows columns ⟨k, k, m, d⟩
      have hP := hstep k m d hc.2 hc.1 h
      generalize forward_step ps rows columns ⟨k, k, m, d⟩ = s1 at hcur hP
      obtain ⟨x1, y1, m1, d1⟩ := s1
      simp only at hcur hP
      obtain ⟨rfl, rfl⟩ := hcur
      exact ih (k + 1) m1 d1 (by omega) (by omega) hP
    · rw [if_neg hc]
      have hk2 : k = min rows columns := by omega
      exact ⟨hk2, hk2, hk2 ▸ h⟩

theorem forward_loop_cursor (ps : List Int) (rows columns : Nat) (m : List (List fraction)) :
    (forward_elimination ps rows columns m).x0 = min rows columns ∧
    (forward_elimination ps rows columns m).y0 = min rows columns := by
  have := forward_loop_induction ps rows columns (fun _ _ => True) (fun _ _ _ _ _ _ => trivial)
    rows 0 m [] (Nat.zero_le _) (by omega) trivial
  exact ⟨this.1, this.2.1⟩

/-- Induction along the forward elimination from the initial state. -/
theorem forward_elimination_induction (ps : List Int) (rows columns : Nat)
    (P : Nat → List (List fraction) → Prop)
    (hstep : ∀ k m d, k < rows → k < columns → P k m →
      P (k + 1) (forward_step ps rows columns ⟨k, k, m, d⟩).matrix)
    (m : List (List fraction)) (h : P 0 m) :
    P (min rows columns) (forward_elimination ps rows columns m).matrix :=
  (forward_loop_induction ps rows columns P hstep rows 0 m [] (Nat.zero_le _) (by omega) h).2.2

/-- Induction along the back substitution loop. -/
theorem back_loop_induction (ps : List Int) (columns : Nat)
    (P : Nat → List (List fraction) → Prop)
    (hstep : ∀ y0 m, P (y0 + 1) m → P y0 (back_step ps columns (y0 + 1) m))
    (n : Nat) (m : List (List fraction)) (h : P n m) : P 0 (back_loop ps columns n m) := by
  induction n generalizing m with
  | zero => exact h
  | succ n ih =>
    unfold back_loop
    exact ih _ (hstep n m h)

theorem simplify_matrix_eq (ps : List Int) (rows columns : Nat) (m : List (List fraction)) :
    simplify_matrix_fraction ps rows columns m =
      back_loop ps columns (min rows columns - 1) (forward_elimination ps rows columns m).matrix := by
  unfold simplify_matrix_fraction
  simp only
  rw [(forward_loop_cursor ps rows columns m).2]

/-- The forward elimination establishes the shape invariant at `min rows columns`; nonzero
denominators stay nonzero, and then the solutions are kept. -/
theorem forward_elimination_inv (ps : List Int) (rows columns : Nat) (m : List (List fraction))
    (hd : dims m rows columns) :
    shape_inv rows columns (min rows columns) (forward_elimination ps rows columns m).matrix ∧
    (valid m rows columns →
      valid (forward_elimination ps rows columns m).matrix rows columns ∧
      ∀ s, solves (forward_elimination ps rows columns m).matrix rows columns s ↔
        solves m rows columns s) := by
  apply forward_elimination_induction ps rows columns
    (fun k m1 => shape_inv rows columns k m1 ∧
      (valid m rows columns → valid m1 rows columns ∧
        ∀ s, solves m1 rows columns s ↔ solves m rows columns s))
  · intro k m1 d hy hx ⟨h1, h2⟩
    obtain ⟨h3, -, h4⟩ := forward_step_inv ps rows columns k m1 d h1 hy hx
    refine ⟨h3, fun hv => ?_⟩
    obtain ⟨hv1, hs1⟩ := h2 hv
    obtain ⟨hv2, hs2, -⟩ := h4 hv1
    exact ⟨hv2, fun s => (hs2 s).trans (hs1 s)⟩
  · refine ⟨⟨hd, ?_, ?_⟩, fun hv => ⟨hv, fun s => Iff.rfl⟩⟩
    · intro x y h; omega
    · intro x h; omega

/-! ## One iteration of the back substitution -/

/-- One iteration of the back substitution on row `y0 + 1`: the shape invariant moves up one row
and no element on or below the diagonal changes; nonzero denominators stay nonzero, and then the
solutions are kept when the diagonal element of the row is `{1, 1}`. -/
theorem back_step_inv (ps : List Int) (rows columns y0 : Nat) (m : List (List fraction))
    (hinv : back_inv rows columns (y0 + 1) m) (hy : y0 + 1 < rows) (hx : y0 + 1 < columns) :
    back_inv rows columns y0 (back_step ps columns (y0 + 1) m) ∧
    (∀ y x, x ≤ y → cell (back_step ps columns (y0 + 1) m) y x = cell m y x) ∧
    (valid m rows columns →
      valid (back_step ps columns (y0 + 1) m) rows columns ∧
      (cell m (y0 + 1) (y0 + 1) = ⟨1, 1⟩ →
        ∀ s, solves (back_step ps columns (y0 + 1) m) rows columns s ↔
          solves m rows columns s)) := by
  obtain ⟨⟨hd, hz, hdg⟩, hK⟩ := hinv
  have hmin : y0 + 1 < min rows columns := by omega
  obtain ⟨-, hs2, hs3, hs4⟩ := pivot_scan_spec m (y0 + 1) (columns - 1) 0
  have hrowz : ∀ x, x < y0 + 1 → (cell m (y0 + 1) x).numerator = 0 :=
    fun x h => hz x (y0 + 1) (by omega) h hy (by omega)
  have hge : y0 + 1 ≤ pivot_scan m (y0 + 1) (columns - 1) 0 := by
    by_contra hlt
    exact hs4 (by omega) (hrowz _ (by omega))
  have hone : cell m (y0 + 1) (y0 + 1) = ⟨1, 1⟩ →
      pivot_scan m (y0 + 1) (columns - 1) 0 = y0 + 1 := by
    intro h1
    by_contra hne
    have := hs3 (y0 + 1) (Nat.zero_le _) (by omega)
    rw [h1] at this
    exact absurd this (by decide)
  unfold back_step
  simp only
  generalize pivot_scan m (y0 + 1) (columns - 1) 0 = x0 at hs2 hs3 hs4 hge hone ⊢
  have hx0 : x0 < columns := by omega
  by_cases hzero : fraction_is_zero (cell m (y0 + 1) x0) = true
  · rw [if_pos hzero]
    refine ⟨⟨⟨hd, hz, hdg⟩, ?_⟩, fun _ _ _ => rfl, fun hv => ⟨hv, fun _ _ => Iff.rfl⟩⟩
    intro k h1 h2 h3 h4 y h5
    rcases Nat.eq_or_lt_of_le (Nat.succ_le_of_lt h1) with h | h
    · exfalso
      have hk : k = y0 + 1 := h.symm
      subst hk
      have := (is_zero_iff _).mp hzero
      rw [hone h4, h4] at this
      exact absurd this (by decide)
    · exact hK k h h2 h3 h4 y h5
  · rw [if_neg hzero]
    obtain ⟨hd1, hc1⟩ := eliminate_above_spec ps x0 (y0 + 1) hx0 hy (y0 + 1) le_rfl m hd
    generalize eliminate_above ps columns x0 (y0 + 1) (y0 + 1) m = m1 at hd1 hc1 ⊢
    have hframe : ∀ y x, x ≤ y → cell m1 y x = cell m y x := by
      intro y x h
      rw [hc1]
      by_cases h1 : y < y0 + 1
      · rw [if_pos h1]
        exact eliminated_left ps columns x0 _ _ x (by omega)
      · rw [if_neg h1]
    refine ⟨⟨⟨hd1, ?_, ?_⟩, ?_⟩, hframe, ?_⟩
    · intro x y h1 h2 h3 h4
      rw [hframe y x (by omega)]
      exact hz x y h1 h2 h3 h4
    · intro x h1 h2 h3
      rw [hframe x x le_rfl]
      exact hdg x h1 h2 h3
    · intro k h1 h2 h3 h4 y h5
      rw [hframe k k le_rfl] at h4
      rw [hc1]
      by_cases h6 : y < y0 + 1
      · rw [if_pos h6]
        rcases Nat.eq_or_lt_of_le (Nat.succ_le_of_lt h1) with h | h
        · have hk : k = y0 + 1 := h.symm
          subst hk
          rw [← hone h4]
          exact eliminated_pivot_column ps columns x0 _ _
        · exact eliminated_num_zero ps columns x0 _ _ k (hK k h h2 h3 h4 y h5)
            (hK k h h2 h3 h4 (y0 + 1) h)
      · rw [if_neg h6]
        have hk : y0 + 1 < k := by omega
        exact hK k hk h2 h3 h4 y h5
    · intro hv
      refine ⟨?_, ?_⟩
      · intro y h1 x h2
        rw [hc1]
        split_ifs
        · exact eliminated_den ps columns x0 _ _ x (hv y h1 x0 hx0) (hv y h1 x h2)
            (hv (y0 + 1) hy x h2)
        · exact hv y h1 x h2
      · intro h1 s
        have hx0eq := hone h1
        subst hx0eq
        have hval : ∀ y, y < y0 + 1 → ∀ x, x < columns →
            val (cell m1 y x) =
              val (cell m y x) - val (cell m y (y0 + 1)) * val (cell m (y0 + 1) x) := by
          intro y h2 x h3
          rw [hc1, if_pos h2]
          exact val_eliminated ps columns (y0 + 1) _ _ x h3 (hv y (by omega) (y0 + 1) hx)
            (hv y (by omega) x h3) (hv (y0 + 1) hy x h3) (by rw [h1]; simp [val]) hrowz
        have elo : ∀ y, y < y0 + 1 → dot m1 columns y s =
            dot m columns y s - val (cell m y (y0 + 1)) * dot m columns (y0 + 1) s :=
          fun y h2 => dot_sub s _ (hval y h2)
        have ehi : ∀ y, ¬ y < y0 + 1 → dot m1 columns y s = dot m columns y s :=
          fun y h2 => dot_congr s fun x _ => by rw [hc1, if_neg h2]
        constructor
        · intro h y hy1
          have hr : dot m columns (y0 + 1) s = 0 := by
            rw [← ehi (y0 + 1) (by omega)]; exact h (y0 + 1) hy
          by_cases h2 : y < y0 + 1
          · have := h y hy1
            rw [elo y h2, hr] at this
            simpa using this
          · rw [← ehi y h2]; exact h y hy1
        · intro h y hy1
          by_cases h2 : y < y0 + 1
          · rw [elo y h2, h y hy1, h (y0 + 1) hy]; ring
          · rw [ehi y h2]; exact h y hy1

/-! ## Systems with an invertible coefficient part -/

/-- A square system whose rows from `k` down are zero in the columns up to `k` has a nonzero
solution of its homogeneous equations supported on those columns. -/
theorem exists_kernel_vector (f : Nat → Nat → ℚ) (n k : Nat) (hkn : k < n)
    (hz : ∀ y x, k ≤ y → y < n → x ≤ k → f y x = 0) :
    ∃ v : Nat → ℚ, (∃ x, x ≤ k ∧ v x ≠ 0) ∧ (∀ x, k < x → v x = 0) ∧
      ∀ y, y < n → Finset.sum (Finset.range (k + 1)) (fun x => f y x * v x) = 0 := by
  let B : Matrix (Fin (k + 1)) (Fin (k + 1)) ℚ := Matrix.of fun i j => f i.val j.val
  have hdet : B.det = 0 := by
    apply Matrix.det_eq_zero_of_row_eq_zero (Fin.last k)
    intro j
    exact hz k j.val le_rfl hkn (Nat.lt_succ_iff.mp j.isLt)
  obtain ⟨w, hw0, hw⟩ := Matrix.exists_mulVec_eq_zero_iff.mpr hdet
  obtain ⟨i, hi⟩ := Function.ne_iff.mp hw0
  refine ⟨fun x => if h : x < k + 1 then w ⟨x, h⟩ else 0, ⟨i.val, Nat.lt_succ_iff.mp i.isLt, ?_⟩,
    ?_, ?_⟩
  · simpa [i.isLt] using hi
  · intro x hx
    simp only
    rw [dif_neg (by omega)]
  · intro y hy
    by_cases hyk : y < k + 1
    · have := congrFun hw ⟨y, hyk⟩
      simp only [Matrix.mulVec, Matrix.dotProduct, Pi.zero_apply] at this
      refine Eq.trans ?_ this
      rw [← Fin.sum_univ_eq_sum_range
        (fun x => f y x * (if h : x < k + 1 then w ⟨x, h⟩ else 0))]
      apply Finset.sum_congr rfl
      intro j _
      simp [B, j.isLt]
    · apply Finset.sum_eq_zero
      intro x hx
      rw [hz y x (by omega) hy (Nat.lt_succ_iff.mp (Finset.mem_range.mp hx)), zero_mul]

/-- A coefficient part with nonzero determinant has only the zero solution of its homogeneous
equations. -/
theorem kernel_trivial (m : List (List fraction)) (n : Nat)
    (hdet : (coefficient_matrix m n).det ≠ 0) (v : Nat → ℚ)
    (hv : ∀ y, y < n → Finset.sum (Finset.range n) (fun x => val (cell m y x) * v x) = 0) :
    ∀ x, x < n → v x = 0 := by
  by_contra hne
  push_neg at hne
  obtain ⟨x, hx, hvx⟩ := hne
  apply hdet
  apply Matrix.exists_mulVec_eq_zero_iff.mp
  refine ⟨fun i => v i.val, ?_, ?_⟩
  · intro h
    exact hvx (congrFun h ⟨x, hx⟩)
  · funext i
    simp only [Matrix.mulVec, Matrix.dotProduct, Pi.zero_apply]
    rw [← hv i.val i.isLt, ← Fin.sum_univ_eq_sum_range (fun x => val (cell m i.val x) * v x)]
    rfl

/-- The equation of a row of an augmented grid, split into the coefficient part and the constant
term. -/
theorem dot_augmented (m : List (List fraction)) (n y : Nat) (s : Nat → ℚ) :
    dot m (n + 1) y s =
      Finset.sum (Finset.range n) (fun x => val (cell m y x) * s x) + val (cell m y n) * s n := by
  unfold dot
  rw [Finset.sum_range_succ]

/-- With an invertible coefficient part, the forward elimination finds a pivot on every diagonal
position. -/
theorem forward_elimination_pivots (ps : List Int) (n : Nat) (m : List (List fraction))
    (hd : dims m n (n + 1)) (hv : valid m n (n + 1))
    (hdet : (coefficient_matrix m n).det ≠ 0) :
    shape_inv n (n + 1) n (forward_elimination ps n (n + 1) m).matrix ∧
    valid (forward_elimination ps n (n + 1) m).matrix n (n + 1) ∧
    (∀ s, solves (forward_elimination ps n (n + 1) m).matrix n (n + 1) s ↔ solves m n (n + 1) s) ∧
    ∀ x, x < n → cell (forward_elimination ps n (n + 1) m).matrix x x = ⟨1, 1⟩ := by
  have hmin : min n (n + 1) = n := by omega
  have key := forward_elimination_induction ps n (n + 1)
    (fun k m1 => shape_inv n (n + 1) k m1 ∧ valid m1 n (n + 1) ∧
      (∀ s, solves m1 n (n + 1) s ↔ solves m n (n + 1) s) ∧
      ∀ x, x < k → cell m1 x x = ⟨1, 1⟩) ?_ m ?_
  · rw [hmin] at key
    exact key
  · intro k m1 d hy hx ⟨h1, hv1, h2, h3⟩
    obtain ⟨h4, h6, hrest⟩ := forward_step_inv ps n (n + 1) k m1 d h1 hy hx
    obtain ⟨hv2, h5, h7⟩ := hrest hv1
    generalize (forward_step ps n (n + 1) ⟨k, k, m1, d⟩).matrix = m2 at h4 h5 h6 h7 hv2 ⊢
    refine ⟨h4, hv2, fun s => (h5 s).trans (h2 s), ?_⟩
    intro x hxk
    rcases Nat.lt_succ_iff_lt_or_eq.mp hxk with h | h
    · rw [h6 x x h]; exact h3 x h
    · subst h
      rcases h7 with h7 | h7
      · exact h7
      · exfalso
        obtain ⟨hd2, hz2, -⟩ := h4
        have hzero : ∀ y x1, x ≤ y → y < n → x1 ≤ x → val (cell m2 y x1) = 0 := by
          intro y x1 hy1 hy2 hx1
          apply val_of_num_zero
          rcases Nat.eq_or_lt_of_le hx1 with h | h
          · rw [h]; exact h7 y hy1 hy2
          · exact hz2 x1 y (by omega) (by omega) hy2 (by omega)
        obtain ⟨v, ⟨x1, hx1, hvx1⟩, hv0, hvs⟩ :=
          exists_kernel_vector (fun y x1 => val (cell m2 y x1)) n x hy hzero
        have hsol : solves m2 n (n + 1) v := by
          intro y hy1
          unfold dot
          rw [← hvs y hy1]
          symm
          apply Finset.sum_subset
          · intro a ha
            rw [Finset.mem_range] at ha ⊢
            omega
          · intro a _ ha
            rw [Finset.mem_range] at ha
            rw [hv0 a (by omega), mul_zero]
        have hsol0 := (h2 v).mp ((h5 v).mp hsol)
        have hker := kernel_trivial m n hdet v (by
          intro y hy1
          have := hsol0 y hy1
          rw [dot_augmented, hv0 n (by omega), mul_zero, add_zero] at this
          exact this)
        exact hvx1 (hker x1 (by omega))
  · refine ⟨⟨hd, ?_, ?_⟩, hv, fun s => Iff.rfl, ?_⟩
    · intro x y h; omega
    · intro x h; omega
    · intro x h; omega

/-- With an invertible coefficient part, the engine leaves the identity in the coefficient part
and keeps the solutions. -/
theorem simplify_invertible (ps : List Int) (n : Nat) (m : List (List fraction))
    (hd : dims m n (n + 1)) (hv : valid m n (n + 1))
    (hdet : (coefficient_matrix m n).det ≠ 0) :
    (∀ i j, i < n → j < n →
      val (cell (simplify_matrix_fraction ps n (n + 1) m) i j) = if i = j then 1 else 0) ∧
    ∀ s, solves (simplify_matrix_fraction ps n (n + 1) m) n (n + 1) s ↔ solves m n (n + 1) s := by
  obtain ⟨h1, hv1, h2, h3⟩ := forward_elimination_pivots ps n m hd hv hdet
  rw [simplify_matrix_eq]
  have hmin : min n (n + 1) = n := by omega
  rw [hmin]
  generalize (forward_elimination ps n (n + 1) m).matrix = m1 at h1 hv1 h2 h3
  have key := back_loop_induction ps (n + 1)
    (fun y0 m2 => (y0 = 0 ∨ y0 < n) ∧ back_inv n (n + 1) y0 m2 ∧ valid m2 n (n + 1) ∧
      (∀ s, solves m2 n (n + 1) s ↔ solves m n (n + 1) s) ∧
      ∀ x, x < n → cell m2 x x = ⟨1, 1⟩) ?_ (n - 1) m1 ?_
  · obtain ⟨-, ⟨⟨-, hz, -⟩, hK⟩, -, hs, hdg⟩ := key
    refine ⟨?_, hs⟩
    intro i j hi hj
    by_cases hij : i = j
    · subst hij
      rw [if_pos rfl, hdg i hi]
      simp [val]
    · rw [if_neg hij]
      apply val_of_num_zero
      rcases Nat.lt_or_gt_of_ne hij with h | h
      · exact hK j (by omega) hj (by omega) (hdg j hj) i h
      · exact hz j i (by omega) h hi (by omega)
  · intro y0 m2 ⟨hy0, hb, hv2, hs, hdg⟩
    have hy1 : y0 + 1 < n := by omega
    obtain ⟨h4, h5, hrest⟩ := back_step_inv ps n (n + 1) y0 m2 hb hy1 (by omega)
    obtain ⟨hv3, h6⟩ := hrest hv2
    refine ⟨by omega, h4, hv3, ?_, ?_⟩
    · intro s
      exact (h6 (hdg (y0 + 1) hy1) s).trans (hs s)
    · intro x hx
      rw [h5 x x le_rfl]
      exact hdg x hx
  · refine ⟨by omega, ⟨by rw [hmin]; exact h1, ?_⟩, hv1, h2, h3⟩
    intro k hk1 hk2
    omega

/-! ## Steps that leave the grid as it is -/

theorem set_elem_self (m : List (List fraction)) (y x : Nat) : set_elem m y x (cell m y x) = m := by
  unfold set_elem cell
  have hrow : (m.getD y []).set x ((m.getD y []).getD x ⟨0, 1⟩) = m.getD y [] := by
    apply List.ext_getElem? 
    intro n
    rw [List.getElem?_set]
    by_cases h1 : x = n
    · subst h1
      by_cases h2 : x < (m.getD y []).length
      · rw [if_pos rfl, if_pos h2, List.getD_eq_getElem _ _ h2, List.getElem?_eq_getElem h2]
      · rw [if_pos rfl, if_neg h2, List.getElem?_eq_none (not_lt.mp h2)]
    · rw [if_neg h1]
  rw [hrow]
  apply List.ext_getElem?
  intro n
  rw [List.getElem?_set]
  by_cases h1 : y = n
  · subst h1
    by_cases h2 : y < m.length
    · rw [if_pos rfl, if_pos h2, List.getD_eq_getElem _ _ h2, List.getElem?_eq_getElem h2]
    · rw [if_pos rfl, if_neg h2, List.getElem?_eq_none (not_lt.mp h2)]
  · rw [if_neg h1]

theorem eliminate_row_noop (ps : List Int) (columns x0 y0 y : Nat) (m : List (List fraction))
    (h : (cell m y x0).numerator = 0) : eliminate_row ps columns x0 y0 y m = m := by
  unfold eliminate_row
  have hz : fraction_is_zero (cell m y x0) = true := (is_zero_iff _).mpr h
  simp [hz]

theorem foldl_noop {α : Type} (f : List (List fraction) → α → List (List fraction))
    (m : List (List fraction)) (l : List α) (h : ∀ a ∈ l, f m a = m) : l.foldl f m = m := by
  induction l with
  | nil => rfl
  | cons a l ih =>
    rw [List.foldl_cons, h a (List.mem_cons_self _ _)]
    exact ih fun b hb => h b (List.mem_cons_of_mem _ hb)

theorem eliminate_below_noop (ps : List Int) (rows columns x0 y0 : Nat)
    (m : List (List fraction))
    (h : ∀ y, y0 < y → y < rows → (cell m y x0).numerator = 0) :
    eliminate_below ps rows columns x0 y0 m = m := by
  unfold eliminate_below
  apply foldl_noop
  intro y hy
  have := (mem_range_iff _ _ _).mp hy
  exact eliminate_row_noop ps columns x0 y0 y m (h y (by omega) this.2)

theorem eliminate_above_noop (ps : List Int) (columns x0 y0 n : Nat) (m : List (List fraction))
    (h : ∀ y, y < n → (cell m y x0).numerator = 0) :
    eliminate_above ps columns x0 y0 n m = m := by
  induction n with
  | zero => rfl
  | succ n ih =>
    unfold eliminate_above
    rw [eliminate_row_noop ps columns x0 y0 n m (h n (Nat.lt_succ_self n))]
    exact ih fun y hy => h y (by omega)

theorem pivot_search_noop (rows x0 y0 : Nat) (m : List (List fraction))
    (h : (cell m y0 x0).numerator ≠ 0 ∨ ∀ y, y0 < y → y < rows → (cell m y x0).numerator = 0) :
    pivot_search rows x0 y0 m = m := by
  rcases pivot_search_cases rows x0 y0 m with ⟨heq, -⟩ | ⟨y, hy1, hy2, hz, hnz, -⟩
  · exact heq
  · rcases h with h | h
    · exact absurd hz h
    · exact absurd (h y hy1 hy2) hnz

/-- An iteration of the forward elimination that finds column `k` zero from row `k` down leaves
the grid as it is. -/
theorem forward_step_skip (ps : List Int) (rows columns k : Nat) (m : List (List fraction))
    (d : List fraction) (h : ∀ y, k ≤ y → y < rows → (cell m y k).numerator = 0)
    (hk : k < rows) :
    (forward_step ps rows columns ⟨k, k, m, d⟩).matrix = m := by
  rw [forward_step_matrix]
  simp only
  rw [pivot_search_noop rows k k m (Or.inr fun y h1 h2 => h y (by omega) h2),
    if_pos ((is_zero_iff _).mpr (h k le_rfl hk))]

/-- An iteration of the back substitution on a row that is zero in every column leaves the grid
as it is. -/
theorem back_step_skip (ps : List Int) (columns y0 : Nat) (m : List (List fraction))
    (hc : 0 < columns) (h : ∀ x, x < columns → (cell m y0 x).numerator = 0) :
    back_step ps columns y0 m = m := by
  unfold back_step
  simp only
  obtain ⟨-, h2, -, -⟩ := pivot_scan_spec m y0 (columns - 1) 0
  rw [if_pos ((is_zero_iff _).mpr (h _ (by omega)))]

/-! ## Fractions in lowest terms -/

theorem reduction_for_lowest (ps : List Int) (hps : ∀ p ∈ ps, p = 0 ∨ 2 ≤ p) (x : fraction)
    (hx : lowest_terms x) : reduction_for ps x = x := by
  induction ps with
  | nil => rfl
  | cons p rest ih =>
    unfold reduction_for
    split_ifs with hc
    · have hp2 : 2 ≤ p := (hps p (List.mem_cons_self _ _)).resolve_left hc.2.2
      have hw : reduction_while p x.numerator.natAbs x = x := by
        cases hfuel : x.numerator.natAbs with
        | zero => rfl
        | succ fuel =>
          unfold reduction_while
          rw [if_neg]
          rintro ⟨h1, h2⟩
          have hd1 := Int.dvd_of_tmod_eq_zero h1
          have hd2 := Int.dvd_of_tmod_eq_zero h2
          have hg : p ∣ ((Int.gcd x.numerator x.denominator : Nat) : Int) :=
            Int.dvd_gcd hd1 hd2
          rw [hx.2] at hg
          have := Int.le_of_dvd (by norm_num) hg
          omega
      rw [hw]
      exact ih fun q hq => hps q (List.mem_cons_of_mem _ hq)
    · rfl

/-- On a fraction in lowest terms with positive denominator `reduction` is the identity. -/
theorem reduction_lowest (ps : List Int) (hps : prime_table ps) (x : fraction)
    (hx : lowest_terms x) : reduction ps x = x := by
  obtain ⟨hd, hg⟩ := hx
  unfold reduction
  have hneg : ¬ x.denominator < 0 := by omega
  simp only [hneg, if_false]
  split_ifs with h0 h1
  · rw [h0, Int.gcd_zero_left] at hg
    have : x.denominator = 1 := by omega
    exact fraction_ext rfl this.symm
  · have habs : x.numerator.natAbs = x.denominator.natAbs := by
      rw [c_abs_eq] at h1
      have := congrArg Int.natAbs h1
      rwa [Int.natAbs_abs] at this
    have hd1 : x.denominator = 1 := by
      unfold Int.gcd at hg
      rw [habs, Nat.gcd_self] at hg
      omega
    rw [hd1]
    exact fraction_ext (by simp) (by simp [hd1])
  · exact reduction_for_lowest ps (prime_table_entry hps) x ⟨hd, hg⟩

theorem mul_one_lowest (ps : List Int) (hps : prime_table ps) (x : fraction)
    (hx : lowest_terms x) : fraction_mul ps x ⟨1, 1⟩ = x := by
  unfold fraction_mul
  simp only [mul_one]
  exact reduction_lowest ps hps x hx

theorem val_one_lowest (x : fraction) (hx : lowest_terms x) (h : val x = 1) : x = ⟨1, 1⟩ := by
  obtain ⟨hd, hg⟩ := hx
  unfold val at h
  have hd0 : (x.denominator : ℚ) ≠ 0 := by exact_mod_cast (by omega : x.denominator ≠ 0)
  rw [div_eq_one_iff_eq hd0] at h
  have hnd : x.numerator = x.denominator := by exact_mod_cast h
  rw [hnd, Int.gcd_self] at hg
  have hd1 : x.denominator = 1 := by omega
  exact fraction_ext (by rw [hnd, hd1]) hd1

/-! ## Claims about the arithmetic of fractions -/

/-- In exact arithmetic, with a well-formed table, every result of `fraction_mul`,
`fraction_sub` and `fraction_div` on fractions with nonzero denominators (and a nonzero divisor)
satisfies the Rational Number invariant `reduced`. -/
theorem results_reduced (ps : List Int) (hps : prime_table ps) (a b : fraction)
    (ha : a.denominator ≠ 0) (hb : b.denominator ≠ 0) :
    reduced ps (fraction_mul ps a b) ∧ reduced ps (fraction_sub ps a b) ∧
      (b.numerator ≠ 0 → reduced ps (fraction_div ps a b)) :=
  ⟨reduction_reduced ps hps _ (mul_ne_zero ha hb), reduction_reduced ps hps _ (mul_ne_zero ha hb),
    fun hbn => reduction_reduced ps hps _ (mul_ne_zero ha hbn)⟩

/-- Claim C9: a fraction with nonzero numerator and denominator, multiplied by the reciprocal
`fraction_div(fraction_int2type(1), p)`, gives `{1, 1}` as a stored pair. -/
theorem fraction_round_trip (ps : List Int) (p : fraction) (hn : p.numerator ≠ 0)
    (hd : p.denominator ≠ 0) :
    fraction_mul ps p (fraction_div ps (fraction_int2type 1) p) = ⟨1, 1⟩ :=
  mul_div_one ps p hn hd

/-- Claim C9, witness of `fraction_round_trip`: the reciprocal of `{1, 2}` is `{2, 1}`, and
`{1, 2}` times it is `{1, 1}`. -/
theorem fraction_round_trip_witness :
    fraction_div small_primes (fraction_int2type 1) ⟨1, 2⟩ = ⟨2, 1⟩ ∧
      fraction_mul small_primes ⟨1, 2⟩ ⟨2, 1⟩ = ⟨1, 1⟩ ∧
      fraction_mul small_primes ⟨1, 2⟩ (fraction_div small_primes (fraction_int2type 1) ⟨1, 2⟩)
        = ⟨1, 1⟩ :=
  ⟨by decide, by decide, fraction_round_trip small_primes ⟨1, 2⟩ (by decide) (by decide)⟩

/-- Claim C10: `fraction_sub(a, b)` is `reduction` of the cross-multiplied pair, its result has
the same cross-products as that pair, and for nonzero denominators it stands for the rational
`a - b`. -/
theorem fraction_sub_cross (ps : List Int) (a b : fraction) (ha : a.denominator ≠ 0)
    (hb : b.denominator ≠ 0) :
    fraction_sub ps a b =
        reduction ps ⟨a.numerator * b.denominator - b.numerator * a.denominator,
          a.denominator * b.denominator⟩ ∧
      (fraction_sub ps a b).numerator * (a.denominator * b.denominator) =
        (a.numerator * b.denominator - b.numerator * a.denominator) *
          (fraction_sub ps a b).denominator ∧
      (fraction_sub ps a b).denominator ≠ 0 ∧
      val (fraction_sub ps a b) = val a - val b :=
  ⟨rfl, (reduction_cross ps _).symm, sub_den_ne_zero ps ha hb, val_sub ps ha hb⟩

/-- Claim C10, witness of `fraction_sub_cross`: `{1, 2} - {1, 3}`, which is `{1, 6}`. -/
theorem fraction_sub_cross_witness :
    fraction_sub small_primes ⟨1, 2⟩ ⟨1, 3⟩ = ⟨1, 6⟩ ∧
      (fraction_sub small_primes ⟨1, 2⟩ ⟨1, 3⟩ =
          reduction small_primes ⟨(1 : Int) * 3 - 1 * 2, (2 : Int) * 3⟩ ∧
        (fraction_sub small_primes ⟨1, 2⟩ ⟨1, 3⟩).numerator * ((2 : Int) * 3) =
          ((1 : Int) * 3 - 1 * 2) * (fraction_sub small_primes ⟨1, 2⟩ ⟨1, 3⟩).denominator ∧
        (fraction_sub small_primes ⟨1, 2⟩ ⟨1, 3⟩).denominator ≠ 0 ∧
        val (fraction_sub small_primes ⟨1, 2⟩ ⟨1, 3⟩) = val ⟨1, 2⟩ - val ⟨1, 3⟩) :=
  ⟨by decide, fraction_sub_cross small_primes ⟨1, 2⟩ ⟨1, 3⟩ (by decide) (by decide)⟩

/-! ## Claims about the elimination engine -/

/-- The equations of an augmented grid, read at the assignment that extends `x` by `-1` on the
constant column. -/
theorem solves_augmented (m : List (List fraction)) (n : Nat) (x : Nat → ℚ) :
    solves m n (n + 1) (fun j => if j < n then x j else -1) ↔
      ∀ y, y < n →
        Finset.sum (Finset.range n) (fun j => val (cell m y j) * x j) = val (cell m y n) := by
  have hsum : ∀ y, dot m (n + 1) y (fun j => if j < n then x j else -1) =
      Finset.sum (Finset.range n) (fun j => val (cell m y j) * x j) - val (cell m y n) := by
    intro y
    rw [dot_augmented]
    simp only [lt_irrefl, if_false]
    rw [Finset.sum_congr rfl (fun j hj => by rw [if_pos (Finset.mem_range.mp hj)])]
    ring
  unfold solves
  constructor
  · intro h y hy
    have := h y hy
    rw [hsum] at this
    linarith
  · intro h y hy
    rw [hsum, h y hy]
    ring

/-- Claim C1: on an `n` by `n + 1` augmented grid of fractions with nonzero denominators whose
coefficient part has nonzero determinant, `simplify_matrix_fraction` leaves the identity (in value)
in the coefficient part, and an assignment solves the input system exactly when it is the last
column of the output: that column is the unique solution. -/
theorem equation_solving (ps : List Int) (n : Nat) (m : List (List fraction))
    (hd : dims m n (n + 1)) (hv : valid m n (n + 1))
    (hdet : (coefficient_matrix m n).det ≠ 0) :
    (∀ i j, i < n → j < n →
      val (cell (simplify_matrix_fraction ps n (n + 1) m) i j) = if i = j then 1 else 0) ∧
    ∀ x : Nat → ℚ,
      (∀ y, y < n →
        Finset.sum (Finset.range n) (fun j => val (cell m y j) * x j) = val (cell m y n)) ↔
      ∀ j, j < n → x j = val (cell (simplify_matrix_fraction ps n (n + 1) m) j n) := by
  obtain ⟨hI, hS⟩ := simplify_invertible ps n m hd hv hdet
  refine ⟨hI, fun x => ?_⟩
  rw [← solves_augmented m n x, ← hS, solves_augmented]
  have hrow : ∀ y, y < n →
      Finset.sum (Finset.range n)
        (fun j => val (cell (simplify_matrix_fraction ps n (n + 1) m) y j) * x j) = x y := by
    intro y hy
    rw [Finset.sum_congr rfl (fun j hj => by rw [hI y j hy (Finset.mem_range.mp hj)])]
    simp only [ite_mul, one_mul, zero_mul]
    rw [Finset.sum_ite_eq, if_pos (Finset.mem_range.mpr hy)]
  constructor
  · intro h j hj
    rw [← hrow j hj]
    exact h j hj
  · intro h y hy
    rw [hrow y hy]
    exact h y hy

/-- Claim C1, witness of `equation_solving`: the system `x + y = 3`, `x - y = 1`, whose grid
becomes the rows `[1, 0, 2]` and `[0, 1, 1]`. -/
theorem equation_solving_witness :
    simplify_matrix_fraction small_primes 2 3 [ints [1, 1, 3], ints [1, -1, 1]] =
        [ints [1, 0, 2], ints [0, 1, 1]] ∧
    ((∀ i j, i < 2 → j < 2 →
      val (cell (simplify_matrix_fraction small_primes 2 (2 + 1)
        [ints [1, 1, 3], ints [1, -1, 1]]) i j) = if i = j then 1 else 0) ∧
    ∀ x : Nat → ℚ,
      (∀ y, y < 2 →
        Finset.sum (Finset.range 2)
          (fun j => val (cell [ints [1, 1, 3], ints [1, -1, 1]] y j) * x j) =
          val (cell [ints [1, 1, 3], ints [1, -1, 1]] y 2)) ↔
      ∀ j, j < 2 → x j = val (cell (simplify_matrix_fraction small_primes 2 (2 + 1)
        [ints [1, 1, 3], ints [1, -1, 1]]) j 2)) :=
  ⟨by decide,
    equation_solving small_primes 2 [ints [1, 1, 3], ints [1, -1, 1]]
      (by unfold dims; decide) (by unfold valid; decide)
      (by
        rw [Matrix.det_fin_two]
        simp [coefficient_matrix, val, cell, ints, fraction_int2type]
        norm_num)⟩

/-- Claim C2, the failing input: whatever the table, on the grid of `x + y + z = 1`, `2z = 1`
the engine returns the grid of `x + y = 0`, `2z = 1`; the assignment `x = 0`, `y = z = 1/2`
solves the input system and does not solve the output system. -/
theorem solve_rank_deficient_diverges :
    (∀ ps : List Int,
      simplify_matrix_fraction ps 2 4 [ints [1, 1, 1, 1], ints [0, 0, 2, 1]] =
        [ints [1, 1, 0, 0], ints [0, 0, 2, 1]]) ∧
    solves [ints [1, 1, 1, 1], ints [0, 0, 2, 1]] 2 4
        (fun j => if j = 1 ∨ j = 2 then 1 / 2 else if j = 3 then -1 else 0) ∧
    ¬ solves [ints [1, 1, 0, 0], ints [0, 0, 2, 1]] 2 4
        (fun j => if j = 1 ∨ j = 2 then 1 / 2 else if j = 3 then -1 else 0) := by
  refine ⟨?_, ?_, ?_⟩
  · intro ps
    have red_one : reduction ps ⟨1, 1⟩ = ⟨1, 1⟩ := reduction_diag ps 1 one_ne_zero
    have red_zero : reduction ps ⟨0, 1⟩ = ⟨0, 1⟩ := reduction_of_num_zero ps _ rfl
    simp [simplify_matrix_fraction, forward_elimination, forward_loop, forward_step,
      pivot_search, back_loop, back_step, pivot_scan, eliminate_above, eliminate_below,
      eliminate_row, scale_row, set_elem, fraction_div, fraction_mul, fraction_sub,
      red_one, red_zero, cell, ints, fraction_int2type, fraction_is_zero, List.range']
  · intro y hy
    interval_cases y
    · simp [dot, Finset.sum_range_succ, cell, ints, val, fraction_int2type]
      norm_num
    · simp [dot, Finset.sum_range_succ, cell, ints, val, fraction_int2type]
  · intro h
    have := h 0 (by decide)
    simp [dot, Finset.sum_range_succ, cell, ints, val, fraction_int2type] at this

/-- The shape the whole run leaves: the shape of the forward elimination, and every column
whose diagonal element is `{1, 1}` is zero above the diagonal; nonzero denominators stay
nonzero. -/
theorem simplify_back_inv (ps : List Int) (rows columns : Nat) (m : List (List fraction))
    (hd : dims m rows columns) :
    back_inv rows columns 0 (simplify_matrix_fraction ps rows columns m) ∧
    (valid m rows columns → valid (simplify_matrix_fraction ps rows columns m) rows columns) := by
  obtain ⟨h1, h2⟩ := forward_elimination_inv ps rows columns m hd
  rw [simplify_matrix_eq]
  generalize (forward_elimination ps rows columns m).matrix = m1 at h1 h2
  have key := back_loop_induction ps columns
    (fun y0 m2 => (y0 = 0 ∨ y0 < min rows columns) ∧ back_inv rows columns y0 m2 ∧
      (valid m rows columns → valid m2 rows columns)) ?_
    (min rows columns - 1) m1 ?_
  · exact key.2
  · intro y0 m2 ⟨hy0, hb, hv⟩
    have hy1 : y0 + 1 < min rows columns := by omega
    obtain ⟨h4, -, h5⟩ := back_step_inv ps rows columns y0 m2 hb (by omega) (by omega)
    exact ⟨by omega, h4, fun h => (h5 (hv h)).1⟩
  · refine ⟨by omega, ⟨h1, ?_⟩, fun h => (h2 h).1⟩
    intro k hk1 hk2 hk3
    omega

/-- Claim C3, as the code has it: after `simplify_matrix_fraction` on a `rows` by `columns`
grid, every row `k` whose diagonal element is nonzero has its leading entry on the diagonal,
stored as `{1, 1}`, and every other element of column `k` is zero.  (Nothing is said of a row
whose diagonal element is zero.)  The output has the dimensions of the input, and nonzero
denominators if the input has. -/
theorem diagonal_pivot_rows (ps : List Int) (rows columns : Nat) (m : List (List fraction))
    (hd : dims m rows columns) :
    dims (simplify_matrix_fraction ps rows columns m) rows columns ∧
    (valid m rows columns → valid (simplify_matrix_fraction ps rows columns m) rows columns) ∧
    ∀ k, k < rows → k < columns →
      (cell (simplify_matrix_fraction ps rows columns m) k k).numerator ≠ 0 →
      is_lead (simplify_matrix_fraction ps rows columns m) columns k k ∧
      cell (simplify_matrix_fraction ps rows columns m) k k = ⟨1, 1⟩ ∧
      ∀ y, y < rows → y ≠ k →
        (cell (simplify_matrix_fraction ps rows columns m) y k).numerator = 0 := by
  obtain ⟨⟨⟨hd1, hz, hdg⟩, hK⟩, hv1⟩ := simplify_back_inv ps rows columns m hd
  refine ⟨hd1, hv1, ?_⟩
  intro k hk1 hk2 hne
  have hmin : k < min rows columns := by omega
  have hone := (hdg k hmin hk1 hk2).resolve_right hne
  refine ⟨⟨hk2, hne, fun x1 hx1 => hz x1 k (by omega) hx1 hk1 (by omega)⟩, hone, ?_⟩
  intro y hy1 hy2
  rcases Nat.lt_or_gt_of_ne hy2 with h | h
  · exact hK k (by omega) hk1 hk2 hone y h
  · exact hz k y hmin h hy1 hk2

/-- Claim C3, witness of `diagonal_pivot_rows`: the grid of `2x + 4y = 6`, `3x - y = 5`,
`x + y = 1`. -/
theorem diagonal_pivot_rows_witness :
    dims (simplify_matrix_fraction small_primes 3 3
      [ints [2, 4, 6], ints [3, -1, 5], ints [1, 1, 1]]) 3 3 ∧
    (valid [ints [2, 4, 6], ints [3, -1, 5], ints [1, 1, 1]] 3 3 →
      valid (simplify_matrix_fraction small_primes 3 3
        [ints [2, 4, 6], ints [3, -1, 5], ints [1, 1, 1]]) 3 3) ∧
    ∀ k, k < 3 → k < 3 →
      (cell (simplify_matrix_fraction small_primes 3 3
        [ints [2, 4, 6], ints [3, -1, 5], ints [1, 1, 1]]) k k).numerator ≠ 0 →
      is_lead (simplify_matrix_fraction small_primes 3 3
        [ints [2, 4, 6], ints [3, -1, 5], ints [1, 1, 1]]) 3 k k ∧
      cell (simplify_matrix_fraction small_primes 3 3
        [ints [2, 4, 6], ints [3, -1, 5], ints [1, 1, 1]]) k k = ⟨1, 1⟩ ∧
      ∀ y, y < 3 → y ≠ k →
        (cell (simplify_matrix_fraction small_primes 3 3
          [ints [2, 4, 6], ints [3, -1, 5], ints [1, 1, 1]]) y k).numerator = 0 :=
  diagonal_pivot_rows small_primes 3 3 [ints [2, 4, 6], ints [3, -1, 5], ints [1, 1, 1]]
    (by unfold dims; decide)

/-- Claim C3, counterexample: whatever the table, the one-row grid `[0, 2]` is returned as it
is, and its only row is nonzero with leading entry 2, so the output is not in the terminal
form. -/
theorem terminal_form_fails :
    (∀ ps : List Int, simplify_matrix_fraction ps 1 2 [ints [0, 2]] = [ints [0, 2]]) ∧
    ¬ terminal_form [ints [0, 2]] 1 2 := by
  constructor
  · intro ps
    simp [simplify_matrix_fraction, forward_elimination, forward_loop, forward_step, pivot_search,
      back_loop, cell, ints, fraction_int2type, fraction_is_zero, List.range']
  · intro h
    have hlead : is_lead [ints [0, 2]] 2 0 1 := by
      refine ⟨by decide, by decide, ?_⟩
      intro x1 hx1
      interval_cases x1
      decide
    have := (h 0 (by decide) 1 hlead).1
    simp [val, cell, ints, fraction_int2type] at this

/-! ### Idempotence -/

theorem exists_lead (m : List (List fraction)) (columns y x : Nat) (hx : x < columns)
    (h : (cell m y x).numerator ≠ 0) : ∃ x1, x1 ≤ x ∧ is_lead m columns y x1 := by
  have hex : ∃ x1, (cell m y x1).numerator ≠ 0 := ⟨x, h⟩
  refine ⟨Nat.find hex, Nat.find_le h, ?_, Nat.find_spec hex, ?_⟩
  · exact lt_of_le_of_lt (Nat.find_le h) hx
  · intro x1 hx1
    by_contra hne
    exact Nat.find_min hex hx1 hne

theorem rref_lead_ge (m : List (List fraction)) (rows columns : Nat)
    (h : is_rref m rows columns) (y : Nat) :
    y < rows → ∀ x, is_lead m columns y x → y ≤ x := by
  induction y using Nat.strong_induction_on with
  | _ y ih =>
    intro hy x hl
    rcases Nat.eq_zero_or_pos y with h0 | h0
    · omega
    · obtain ⟨x1, hx1, hl1⟩ := h.2 y hy x hl (y - 1) (by omega)
      have := ih (y - 1) (by omega) (by omega) x1 hl1
      omega

/-- On a grid in reduced row-echelon form with elements in lowest terms an iteration of the
forward elimination changes nothing. -/
theorem rref_forward_step (ps : List Int) (hps : prime_table ps) (rows columns : Nat)
    (m : List (List fraction))
    (hlow : ∀ y, y < rows → ∀ x, x < columns → lowest_terms (cell m y x))
    (h : is_rref m rows columns) (k : Nat) (d : List fraction) (hk1 : k < rows)
    (hk2 : k < columns) : (forward_step ps rows columns ⟨k, k, m, d⟩).matrix = m := by
  by_cases hkk : (cell m k k).numerator = 0
  · apply forward_step_skip ps rows columns k m d _ hk1
    intro y hy1 hy2
    by_contra hne
    have hyk : k < y := by
      rcases Nat.eq_or_lt_of_le hy1 with h1 | h1
      · exact absurd (h1 ▸ hkk) hne
      · exact h1
    obtain ⟨x1, hx1, hl⟩ := exists_lead m columns y k hk2 hne
    obtain ⟨x2, hx2, hl2⟩ := h.2 y hy2 x1 hl k hyk
    have := rref_lead_ge m rows columns h k hk1 x2 hl2
    omega
  · obtain ⟨x1, hx1, hl⟩ := exists_lead m columns k k hk2 hkk
    have hge := rref_lead_ge m rows columns h k hk1 x1 hl
    have hx1k : x1 = k := by omega
    subst hx1k
    obtain ⟨hv1, hcol⟩ := h.1 x1 hk1 x1 hl
    have hone : cell m x1 x1 = ⟨1, 1⟩ := val_one_lowest _ (hlow x1 hk1 x1 hk2) hv1
    rw [forward_step_matrix]
    simp only
    rw [pivot_search_noop rows x1 x1 m (Or.inl hkk), if_neg (by rw [hone]; decide), hone]
    have hmult : fraction_div ps (fraction_int2type 1) ⟨1, 1⟩ = ⟨1, 1⟩ := by
      unfold fraction_div fraction_int2type
      simp only [mul_one]
      exact reduction_diag ps 1 one_ne_zero
    rw [hmult]
    have hscale : scale_row ps columns x1 x1 ⟨1, 1⟩ m = m := by
      unfold scale_row
      apply foldl_noop
      intro x hx
      have := (mem_range_iff _ _ _).mp hx
      rw [mul_one_lowest ps hps _ (hlow x1 hk1 x this.2), set_elem_self]
    rw [hscale]
    exact eliminate_below_noop ps rows columns x1 x1 m
      fun y hy1 hy2 => hcol y hy2 (by omega)

/-- On a grid in reduced row-echelon form an iteration of the back substitution changes
nothing. -/
theorem rref_back_step (ps : List Int) (rows columns : Nat) (m : List (List fraction))
    (h : is_rref m rows columns) (y0 : Nat) (hy : y0 < rows) (hc : 0 < columns) :
    back_step ps columns y0 m = m := by
  unfold back_step
  simp only
  obtain ⟨-, h2, h3, -⟩ := pivot_scan_spec m y0 (columns - 1) 0
  generalize pivot_scan m y0 (columns - 1) 0 = x0 at h2 h3 ⊢
  by_cases hz : fraction_is_zero (cell m y0 x0) = true
  · rw [if_pos hz]
  · rw [if_neg hz]
    have hne : (cell m y0 x0).numerator ≠ 0 := fun h0 => hz ((is_zero_iff _).mpr h0)
    have hl : is_lead m columns y0 x0 :=
      ⟨by omega, hne, fun x1 hx1 => h3 x1 (Nat.zero_le _) hx1⟩
    exact eliminate_above_noop ps columns x0 y0 y0 m
      fun y hy1 => (h.1 y0 hy x0 hl).2 y (by omega) (by omega)

/-- Claim C4: on a grid already in reduced row-echelon form whose elements are stored in lowest
terms with positive denominators, `simplify_matrix_fraction` returns the grid unchanged, every
stored pair included (the table being well formed). -/
theorem idempotence (ps : List Int) (hps : prime_table ps) (rows columns : Nat)
    (m : List (List fraction))
    (hlow : ∀ y, y < rows → ∀ x, x < columns → lowest_terms (cell m y x))
    (h : is_rref m rows columns) :
    simplify_matrix_fraction ps rows columns m = m := by
  rw [simplify_matrix_eq]
  have hfwd : (forward_elimination ps rows columns m).matrix = m :=
    forward_elimination_induction ps rows columns (fun _ m1 => m1 = m)
      (fun k m1 d hk1 hk2 hm => by
        subst hm
        exact rref_forward_step ps hps rows columns m1 hlow h k d hk1 hk2) m rfl
  rw [hfwd]
  have key := back_loop_induction ps columns
    (fun y0 m2 => (y0 = 0 ∨ y0 < min rows columns) ∧ m2 = m) ?_ (min rows columns - 1) m ?_
  · exact key.2
  · intro y0 m2 ⟨hy0, hm⟩
    subst hm
    exact ⟨by omega, rref_back_step ps rows columns m2 h (y0 + 1) (by omega) (by omega)⟩
  · exact ⟨by omega, rfl⟩

/-- Claim C4, witness of `idempotence`: the grid with rows `[1, 2, 0]` and `[0, 0, 1]`. -/
theorem idempotence_witness :
    simplify_matrix_fraction small_primes 2 3 [ints [1, 2, 0], ints [0, 0, 1]] =
      [ints [1, 2, 0], ints [0, 0, 1]] :=
  idempotence small_primes small_primes_table 2 3 [ints [1, 2, 0], ints [0, 0, 1]]
    (by
      intro y hy x hx
      interval_cases y <;> interval_cases x <;> exact ⟨by decide, by decide⟩)
    (by
      have hl : ∀ y x, is_lead [ints [1, 2, 0], ints [0, 0, 1]] 3 y x → y < 2 →
          (y = 0 ∧ x = 0) ∨ (y = 1 ∧ x = 2) := by
        intro y x ⟨h1, h2, h3⟩ hy
        interval_cases y <;> interval_cases x
        · exact Or.inl ⟨rfl, rfl⟩
        · exact absurd (h3 0 (by decide)) (by decide)
        · exact absurd (h3 0 (by decide)) (by decide)
        · exact absurd h2 (by decide)
        · exact absurd h2 (by decide)
        · exact Or.inr ⟨rfl, rfl⟩
      refine ⟨?_, ?_⟩
      · intro y hy x hlead
        rcases hl y x hlead hy with ⟨rfl, rfl⟩ | ⟨rfl, rfl⟩
        · refine ⟨by simp [val, cell, ints, fraction_int2type], ?_⟩
          intro y1 hy1 hne
          interval_cases y1
          · exact absurd rfl hne
          · decide
        · refine ⟨by simp [val, cell, ints, fraction_int2type], ?_⟩
          intro y1 hy1 hne
          interval_cases y1
          · decide
          · exact absurd rfl hne
      · intro y hy x hlead y1 hy1
        rcases hl y x hlead hy with ⟨rfl, rfl⟩ | ⟨rfl, rfl⟩
        · omega
        · have hy0 : y1 = 0 := by omega
          subst hy0
          refine ⟨0, by decide, by decide, by decide, ?_⟩
          intro x1 hx1
          omega)

/-! ### Rank deficiency -/

/-- Claim C5: on a `2` by `c` grid (`c ≥ 2`) of fractions with nonzero denominators whose element
`[0][0]` is nonzero and whose second row is `lam` times the first, `simplify_matrix_fraction`
returns a `2` by `c` grid with nonzero denominators whose first row is the input's first row
divided by its leading entry (stored `{1, 1}` in column 0) and whose second row is zero in every
column. -/
theorem rank_deficiency (ps : List Int) (c : Nat) (hc : 2 ≤ c) (m : List (List fraction))
    (hd : dims m 2 c) (hv : valid m 2 c) (h00 : (cell m 0 0).numerator ≠ 0) (lam : ℚ)
    (hlam : ∀ x, x < c → val (cell m 1 x) = lam * val (cell m 0 x)) :
    dims (simplify_matrix_fraction ps 2 c m) 2 c ∧
    valid (simplify_matrix_fraction ps 2 c m) 2 c ∧
    cell (simplify_matrix_fraction ps 2 c m) 0 0 = ⟨1, 1⟩ ∧
    (∀ x, x < c →
      val (cell (simplify_matrix_fraction ps 2 c m) 0 x) = val (cell m 0 x) / val (cell m 0 0)) ∧
    ∀ x, x < c → (cell (simplify_matrix_fraction ps 2 c m) 1 x).numerator = 0 := by
  have hc0 : 0 < c := by omega
  have hpd : (cell m 0 0).denominator ≠ 0 := hv 0 (by decide) 0 hc0
  have hpv : val (cell m 0 0) ≠ 0 := fun h => h00 ((val_eq_zero hpd).mp h)
  -- the grid after the first iteration of the forward elimination
  have hstep : ∀ d, (forward_step ps 2 c ⟨0, 0, m, d⟩).matrix =
      eliminate_below ps 2 c 0 0
        (scale_row ps c 0 0 (fraction_div ps (fraction_int2type 1) (cell m 0 0)) m) := by
    intro d
    rw [forward_step_matrix]
    simp only
    rw [pivot_search_noop 2 0 0 m (Or.inl h00),
      if_neg (fun h => h00 ((is_zero_iff _).mp h))]
  have hmd : (fraction_div ps (fraction_int2type 1) (cell m 0 0)).denominator ≠ 0 :=
    div_den_ne_zero ps (by simp [fraction_int2type]) h00
  have hmv : val (fraction_div ps (fraction_int2type 1) (cell m 0 0)) = 1 / val (cell m 0 0) := by
    rw [val_div ps (by simp [fraction_int2type]) hpd h00]
    simp [val, fraction_int2type]
  have hone := mul_div_one ps (cell m 0 0) h00 hpd
  generalize fraction_div ps (fraction_int2type 1) (cell m 0 0) = mult at hstep hmd hmv hone
  obtain ⟨hd2, hc2⟩ := scale_row_spec ps 0 0 mult m hd (by decide : 0 < 2)
  generalize scale_row ps c 0 0 mult m = m2 at hstep hd2 hc2
  obtain ⟨hd3, hc3⟩ := @eliminate_below_spec ps 2 c 0 0 hc0 m2 hd2
  generalize eliminate_below ps 2 c 0 0 m2 = m3 at hstep hd3 hc3
  have hv2 : valid m2 2 c := by
    intro y1 h1 x1 h2
    rw [hc2]
    split_ifs
    · exact mul_den_ne_zero ps (hv 0 (by decide) x1 h2) hmd
    · exact hv y1 h1 x1 h2
  have hrow0 : ∀ x, x < c → cell m3 0 x = fraction_mul ps (cell m 0 x) mult := by
    intro x hx
    rw [hc3, if_neg (by omega), hc2, if_pos ⟨rfl, Nat.zero_le _, hx⟩]
  have hrow1 : ∀ x, cell m3 1 x = eliminated ps c 0 (cell m2 0) (cell m2 1) x := by
    intro x
    rw [hc3, if_pos ⟨by decide, by decide⟩]
  have hm21 : ∀ x, cell m2 1 x = cell m 1 x := by
    intro x
    rw [hc2, if_neg (by omega)]
  have hm20 : ∀ x, x < c → val (cell m2 0 x) = val (cell m 0 x) * (1 / val (cell m 0 0)) := by
    intro x hx
    rw [hc2, if_pos ⟨rfl, Nat.zero_le _, hx⟩, val_mul ps (hv 0 (by decide) x hx) hmd, hmv]
  have hkk2 : cell m2 0 0 = ⟨1, 1⟩ := by
    rw [hc2, if_pos ⟨rfl, le_rfl, hc0⟩]
    exact hone
  have hv3 : valid m3 2 c := by
    intro y1 h1 x1 h2
    rw [hc3]
    split_ifs
    · exact eliminated_den ps c 0 _ _ x1 (hv2 y1 h1 0 hc0) (hv2 y1 h1 x1 h2)
        (hv2 0 (by decide) x1 h2)
    · exact hv2 y1 h1 x1 h2
  have hzero1 : ∀ x, x < c → (cell m3 1 x).numerator = 0 := by
    intro x hx
    apply (val_eq_zero (hv3 1 (by decide) x hx)).mp
    rw [hrow1, val_eliminated ps c 0 _ _ x hx (hv2 1 (by decide) 0 hc0)
      (hv2 1 (by decide) x hx) (hv2 0 (by decide) x hx) (by rw [hkk2]; simp [val])
      (fun x1 h => absurd h (Nat.not_lt_zero x1)),
      hm21, hm21, hm20 x hx, hlam x hx, hlam 0 hc0]
    field_simp
    ring
  -- the second iteration and the back substitution change nothing
  have hfwd : (forward_elimination ps 2 c m).matrix = m3 := by
    have key := forward_elimination_induction ps 2 c
      (fun k m1 => (k = 0 ∧ m1 = m) ∨ (0 < k ∧ m1 = m3)) ?_ m (Or.inl ⟨rfl, rfl⟩)
    · rcases key with ⟨h1, -⟩ | ⟨-, h1⟩
      · omega
      · exact h1
    · intro k m1 d hk1 hk2 hP
      right
      refine ⟨Nat.succ_pos k, ?_⟩
      rcases hP with ⟨rfl, rfl⟩ | ⟨hk, rfl⟩
      · exact hstep d
      · have hk1 : k = 1 := by omega
        subst hk1
        apply forward_step_skip ps 2 c 1 m1 d _ (by decide)
        intro y hy1 hy2
        have hy : y = 1 := by omega
        subst hy
        exact hzero1 1 (by omega)
  have hmin : min 2 c = 2 := by omega
  have hrun : simplify_matrix_fraction ps 2 c m = m3 := by
    rw [simplify_matrix_eq, hfwd, hmin]
    show back_loop ps c 0 (back_step ps c (0 + 1) m3) = m3
    unfold back_loop
    exact back_step_skip ps c 1 m3 hc0 hzero1
  rw [hrun]
  refine ⟨hd3, hv3, ?_, ?_, hzero1⟩
  · rw [hrow0 0 hc0]
    exact hone
  · intro x hx
    rw [hrow0 x hx, val_mul ps (hv 0 (by decide) x hx) hmd, hmv]
    ring

/-- Claim C5, witness of `rank_deficiency`: the grid with rows `[1, 1, 2]` and `[2, 2, 4]`,
which becomes `[1, 1, 2]` and `[0, 0, 0]`. -/
theorem rank_deficiency_witness :
    simplify_matrix_fraction small_primes 2 3 [ints [1, 1, 2], ints [2, 2, 4]] =
        [ints [1, 1, 2], ints [0, 0, 0]] ∧
    (dims (simplify_matrix_fraction small_primes 2 3 [ints [1, 1, 2], ints [2, 2, 4]]) 2 3 ∧
    valid (simplify_matrix_fraction small_primes 2 3 [ints [1, 1, 2], ints [2, 2, 4]]) 2 3 ∧
    cell (simplify_matrix_fraction small_primes 2 3 [ints [1, 1, 2], ints [2, 2, 4]]) 0 0
      = ⟨1, 1⟩ ∧
    (∀ x, x < 3 →
      val (cell (simplify_matrix_fraction small_primes 2 3 [ints [1, 1, 2], ints [2, 2, 4]]) 0 x)
        = val (cell [ints [1, 1, 2], ints [2, 2, 4]] 0 x) /
          val (cell [ints [1, 1, 2], ints [2, 2, 4]] 0 0)) ∧
    ∀ x, x < 3 →
      (cell (simplify_matrix_fraction small_primes 2 3
        [ints [1, 1, 2], ints [2, 2, 4]]) 1 x).numerator = 0) :=
  ⟨by decide,
    rank_deficiency small_primes 3 (by decide) [ints [1, 1, 2], ints [2, 2, 4]]
      (by unfold dims; decide) (by unfold valid; decide) (by decide) 2
      (by
        intro x hx
        interval_cases x <;> norm_num [val, cell, ints, fraction_int2type])⟩

/-! ### Divisors of `fraction_div` -/

theorem forward_step_divisors (ps : List Int) (rows columns : Nat) (s : engine)
    (hxy : s.x0 = s.y0) (h : ∀ d ∈ s.divisors, d.numerator ≠ 0) :
    ∀ d ∈ (forward_step ps rows columns s).divisors, d.numerator ≠ 0 := by
  obtain ⟨x0, y0, m, dv⟩ := s
  simp only at hxy h
  subst hxy
  unfold forward_step
  simp only
  split_ifs with hz
  · exact h
  · intro d hd
    rcases List.mem_append.mp hd with h1 | h1
    · exact h d h1
    · rw [List.mem_singleton] at h1
      rw [h1]
      intro h0
      exact hz ((is_zero_iff _).mpr h0)

theorem forward_loop_divisors (ps : List Int) (rows columns fuel : Nat) (s : engine)
    (hxy : s.x0 = s.y0) (h : ∀ d ∈ s.divisors, d.numerator ≠ 0) :
    ∀ d ∈ (forward_loop ps rows columns fuel s).divisors, d.numerator ≠ 0 := by
  induction fuel generalizing s with
  | zero => exact h
  | succ fuel ih =>
    unfold forward_loop
    split_ifs with hc
    · apply ih
      · obtain ⟨h1, h2⟩ := forward_step_cursor ps rows columns s
        rw [h1, h2, hxy]
      · exact forward_step_divisors ps rows columns s hxy h
    · exact h

/-- Claim C6: every call of `fraction_div` made by `simplify_matrix_fraction`, whatever the
grid, has a divisor with nonzero numerator. -/
theorem divisors_nonzero (ps : List Int) (rows columns : Nat) (m : List (List fraction)) :
    ∀ d ∈ simplify_matrix_divisors ps rows columns m, d.numerator ≠ 0 := by
  unfold simplify_matrix_divisors forward_elimination
  apply forward_loop_divisors
  · rfl
  · intro d hd
    simp at hd

/-- Claim C6, witness of `divisors_nonzero`: on the grid of `2x + 4y + 6z = 8`,
`3x - y + 5z = 7`, `x + y + z = 1` the engine divides by `2`, `-7` and `-10/7`. -/
theorem divisors_nonzero_witness :
    simplify_matrix_divisors small_primes 3 4
        [ints [2, 4, 6, 8], ints [3, -1, 5, 7], ints [1, 1, 1, 1]] = [⟨2, 1⟩, ⟨-7, 1⟩, ⟨-10, 7⟩] ∧
    (⟨-10, 7⟩ : fraction).numerator ≠ 0 :=
  ⟨by decide,
    divisors_nonzero small_primes 3 4 [ints [2, 4, 6, 8], ints [3, -1, 5, 7], ints [1, 1, 1, 1]]
      ⟨-10, 7⟩ (by decide)⟩

/-! ## Further claims about `reduction` and the shape of the output -/

/-- Claim C17: `reduction` keeps the cross-products of the fraction it is given, and its result
has numerator 0 exactly when the argument has. -/
theorem reduction_preserves_value (ps : List Int) (x : fraction) :
    x.numerator * (reduction ps x).denominator = (reduction ps x).numerator * x.denominator ∧
    ((reduction ps x).numerator = 0 ↔ x.numerator = 0) :=
  ⟨reduction_cross ps x, reduction_num_eq_zero ps x⟩

/-- The back substitution changes no element on or below the main diagonal. -/
theorem back_loop_frame (ps : List Int) (rows columns : Nat) (m1 : List (List fraction))
    (h1 : shape_inv rows columns (min rows columns) m1) :
    ∀ y x, x ≤ y →
      cell (back_loop ps columns (min rows columns - 1) m1) y x = cell m1 y x := by
  have key := back_loop_induction ps columns
    (fun y0 m2 => (y0 = 0 ∨ y0 < min rows columns) ∧ back_inv rows columns y0 m2 ∧
      ∀ y x, x ≤ y → cell m2 y x = cell m1 y x) ?_
    (min rows columns - 1) m1 ?_
  · exact key.2.2
  · intro y0 m2 ⟨hy0, hb, hf⟩
    have hy1 : y0 + 1 < min rows columns := by omega
    obtain ⟨h4, h5, -⟩ := back_step_inv ps rows columns y0 m2 hb (by omega) (by omega)
    exact ⟨by omega, h4, fun y x hxy => (h5 y x hxy).trans (hf y x hxy)⟩
  · refine ⟨by omega, ⟨h1, ?_⟩, fun _ _ _ => rfl⟩
    intro k hk1 hk2 hk3
    omega

/-- Claim C16: after `simplify_matrix_fraction` on a `rows` by `columns` grid every element
strictly below the main diagonal is zero, every element of the main diagonal is zero or stored as
`{1, 1}`, and the back substitution has changed no element on or below the diagonal: those
elements are the ones the forward elimination left. -/
theorem echelon_shape (ps : List Int) (rows columns : Nat) (m : List (List fraction))
    (hd : dims m rows columns) :
    (∀ y x, y < rows → x < columns → x < y →
      (cell (simplify_matrix_fraction ps rows columns m) y x).numerator = 0 ∧
      val (cell (simplify_matrix_fraction ps rows columns m) y x) = 0) ∧
    (∀ k, k < rows → k < columns →
      (cell (simplify_matrix_fraction ps rows columns m) k k).numerator = 0 ∨
      cell (simplify_matrix_fraction ps rows columns m) k k = ⟨1, 1⟩) ∧
    ∀ y x, x ≤ y →
      cell (simplify_matrix_fraction ps rows columns m) y x =
        cell (forward_elimination ps rows columns m).matrix y x := by
  obtain ⟨⟨⟨-, hz, hdg⟩, -⟩, -⟩ := simplify_back_inv ps rows columns m hd
  refine ⟨?_, ?_, ?_⟩
  · intro y x hy hx hxy
    have := hz x y (by omega) hxy hy hx
    exact ⟨this, val_of_num_zero this⟩
  · intro k hk1 hk2
    exact (hdg k (by omega) hk1 hk2).symm
  · rw [simplify_matrix_eq]
    exact back_loop_frame ps rows columns _ (forward_elimination_inv ps rows columns m hd).1

/-- Claim C16, witness of `echelon_shape`: a `3` by `2` grid, more rows than columns. -/
theorem echelon_shape_witness :
    simplify_matrix_fraction small_primes 3 2 [ints [0, 4], ints [3, -1], ints [1, 1]] =
      [ints [1, 0], ints [0, 1], ints [0, 0]] ∧
    ((∀ y x, y < 3 → x < 2 → x < y →
      (cell (simplify_matrix_fraction small_primes 3 2
        [ints [0, 4], ints [3, -1], ints [1, 1]]) y x).numerator = 0 ∧
      val (cell (simplify_matrix_fraction small_primes 3 2
        [ints [0, 4], ints [3, -1], ints [1, 1]]) y x) = 0) ∧
    (∀ k, k < 3 → k < 2 →
      (cell (simplify_matrix_fraction small_primes 3 2
        [ints [0, 4], ints [3, -1], ints [1, 1]]) k k).numerator = 0 ∨
      cell (simplify_matrix_fraction small_primes 3 2
        [ints [0, 4], ints [3, -1], ints [1, 1]]) k k = ⟨1, 1⟩) ∧
    ∀ y x, x ≤ y →
      cell (simplify_matrix_fraction small_primes 3 2
        [ints [0, 4], ints [3, -1], ints [1, 1]]) y x =
        cell (forward_elimination small_primes 3 2
          [ints [0, 4], ints [3, -1], ints [1, 1]]).matrix y x) :=
  ⟨by decide,
    echelon_shape small_primes 3 2 [ints [0, 4], ints [3, -1], ints [1, 1]]
      (by unfold dims; decide)⟩

/-! ### Pivot normalisation -/

/-- Every state the forward elimination loop reaches has its cursor on the diagonal and a grid
of the shape of that cursor; nonzero denominators stay nonzero. -/
theorem forward_loop_reach (ps : List Int) (rows columns fuel : Nat) (s : engine)
    (hxy : s.x0 = s.y0) (hs : shape_inv rows columns s.x0 s.matrix) :
    (forward_loop ps rows columns fuel s).x0 = (forward_loop ps rows columns fuel s).y0 ∧
    shape_inv rows columns (forward_loop ps rows columns fuel s).x0
      (forward_loop ps rows columns fuel s).matrix ∧
    (valid s.matrix rows columns →
      valid (forward_loop ps rows columns fuel s).matrix rows columns) := by
  induction fuel generalizing s with
  | zero => exact ⟨hxy, hs, fun h => h⟩
  | succ fuel ih =>
    unfold forward_loop
    split_ifs with hc
    · obtain ⟨x0, y0, m, d⟩ := s
      simp only at hxy hs hc
      subst hxy
      obtain ⟨h1, -, h2⟩ := forward_step_inv ps rows columns x0 m d hs hc.2 hc.1
      obtain ⟨hc1, hc2⟩ := forward_step_cursor ps rows columns ⟨x0, x0, m, d⟩
      simp only at hc1 hc2
      obtain ⟨h3, h4, h5⟩ := ih (forward_step ps rows columns ⟨x0, x0, m, d⟩)
        (by rw [hc1, hc2]) (by rw [hc1]; exact h1)
      exact ⟨h3, h4, fun hv => h5 (h2 hv).1⟩
    · exact ⟨hxy, hs, fun h => h⟩

/-- Claim C14: let `s` be the state after any number `n` of iterations of the forward
elimination on a grid of fractions with nonzero denominators, with the loop condition still true,
and let the element at the cursor be nonzero after the pivot search.  Then the cursor is on the
diagonal (`x0 = y0`, so the element `matrix[y0][y0]` the code reads is `matrix[y0][x0]`), the
iteration calls `fraction_div` once, with that element as divisor, every element of row `y0` from
column `x0` on is multiplied by `fraction_div(fraction_int2type(1), matrix[y0][x0])`, and
`matrix[y0][x0]` is `{1, 1}` afterwards. -/
theorem pivot_normalisation (ps : List Int) (rows columns : Nat) (m : List (List fraction))
    (hd : dims m rows columns) (hv : valid m rows columns) (n : Nat) (s : engine)
    (hs : s = forward_loop ps rows columns n ⟨0, 0, m, []⟩)
    (hx : s.x0 < columns) (hy : s.y0 < rows)
    (hp : (cell (pivot_search rows s.x0 s.y0 s.matrix) s.y0 s.x0).numerator ≠ 0) :
    s.x0 = s.y0 ∧
    (forward_step ps rows columns s).divisors =
      s.divisors ++ [cell (pivot_search rows s.x0 s.y0 s.matrix) s.y0 s.x0] ∧
    (∀ x, s.x0 ≤ x → x < columns →
      cell (forward_step ps rows columns s).matrix s.y0 x =
        fraction_mul ps (cell (pivot_search rows s.x0 s.y0 s.matrix) s.y0 x)
          (fraction_div ps (fraction_int2type 1)
            (cell (pivot_search rows s.x0 s.y0 s.matrix) s.y0 s.x0))) ∧
    cell (forward_step ps rows columns s).matrix s.y0 s.x0 = ⟨1, 1⟩ := by
  have hinit : shape_inv rows columns 0 m :=
    ⟨hd, fun x y h => absurd h (Nat.not_lt_zero x), fun x h => absurd h (Nat.not_lt_zero x)⟩
  obtain ⟨hxy, hshape, hvalid⟩ := forward_loop_reach ps rows columns n ⟨0, 0, m, []⟩ rfl hinit
  rw [← hs] at hxy hshape hvalid
  have hv1 := hvalid hv
  obtain ⟨x0, y0, m0, d0⟩ := s
  simp only at hxy hshape hv1 hx hy hp ⊢
  subst hxy
  obtain ⟨⟨hd1, hz1, -⟩, hvalid1, -, -, -⟩ := pivot_search_inv rows columns x0 m0 hshape hy
  have hv2 := hvalid1 hv1
  have hzf : ¬ fraction_is_zero (cell (pivot_search rows x0 x0 m0) x0 x0) = true :=
    fun h => hp ((is_zero_iff _).mp h)
  have hrow : ∀ x, x0 ≤ x → x < columns →
      cell (forward_step ps rows columns ⟨x0, x0, m0, d0⟩).matrix x0 x =
        fraction_mul ps (cell (pivot_search rows x0 x0 m0) x0 x)
          (fraction_div ps (fraction_int2type 1) (cell (pivot_search rows x0 x0 m0) x0 x0)) := by
    intro x hx1 hx2
    rw [forward_step_matrix]
    simp only
    rw [if_neg hzf]
    obtain ⟨hd2, hc2⟩ := scale_row_spec ps x0 x0
      (fraction_div ps (fraction_int2type 1) (cell (pivot_search rows x0 x0 m0) x0 x0))
      (pivot_search rows x0 x0 m0) hd1 hy
    obtain ⟨-, hc3⟩ := eliminate_below_spec ps x0 x0 hx _ hd2
    rw [hc3, if_neg (by omega), hc2, if_pos ⟨rfl, hx1, hx2⟩]
  refine ⟨rfl, ?_, hrow, ?_⟩
  · unfold forward_step
    simp only
    rw [if_neg hzf]
  · rw [hrow x0 le_rfl hx]
    exact mul_div_one ps _ hp (hv2 x0 hy x0 hx)

/-- Claim C14, witness of `pivot_normalisation`: the second iteration on the grid of
`2x + 4y + 6z = 8`, `3x - y + 5z = 7`, `x + y + z = 1`, whose pivot is `-7`. -/
theorem pivot_normalisation_witness :
    (forward_loop small_primes 3 4 1
      ⟨0, 0, [ints [2, 4, 6, 8], ints [3, -1, 5, 7], ints [1, 1, 1, 1]], []⟩).matrix =
      [ints [1, 2, 3, 4], ints [0, -7, -4, -5], ints [0, -1, -2, -3]] ∧
    cell (forward_step small_primes 3 4 (forward_loop small_primes 3 4 1
      ⟨0, 0, [ints [2, 4, 6, 8], ints [3, -1, 5, 7], ints [1, 1, 1, 1]], []⟩)).matrix 1 1
      = ⟨1, 1⟩ :=
  ⟨by decide,
    (pivot_normalisation small_primes 3 4
      [ints [2, 4, 6, 8], ints [3, -1, 5, 7], ints [1, 1, 1, 1]]
      (by unfold dims; decide) (by unfold valid; decide) 1 _ rfl (by decide) (by decide)
      (by decide)).2.2.2⟩

/-! ### The last column in the back substitution -/

/-- The pivot scan of a row that is zero in every column but perhaps the last stops at the last
column. -/
theorem pivot_scan_last (m : List (List fraction)) (columns y0 : Nat)
    (hz : ∀ x, x + 1 < columns → (cell m y0 x).numerator = 0) :
    pivot_scan m y0 (columns - 1) 0 = columns - 1 := by
  obtain ⟨-, h2, -, h4⟩ := pivot_scan_spec m y0 (columns - 1) 0
  by_contra hne
  have hlt : pivot_scan m y0 (columns - 1) 0 < 0 + (columns - 1) := by omega
  exact h4 hlt (hz _ (by omega))

/-- What an iteration of the back substitution does on a row that is zero in every column but
perhaps the last. -/
theorem back_step_zero_row (ps : List Int) (rows columns y0 : Nat) (m : List (List fraction))
    (hd : dims m rows columns) (hy : y0 < rows) (hc : 1 ≤ columns)
    (hz : ∀ x, x + 1 < columns → (cell m y0 x).numerator = 0) :
    ((cell m y0 (columns - 1)).numerator = 0 → back_step ps columns y0 m = m) ∧
    ((cell m y0 (columns - 1)).numerator ≠ 0 →
      ∀ y x, cell (back_step ps columns y0 m) y x =
        if y < y0 ∧ x = columns - 1 ∧ (cell m y x).numerator ≠ 0 then ⟨0, 1⟩ else cell m y x) := by
  have hscan := pivot_scan_last m columns y0 hz
  constructor
  · intro h0
    unfold back_step
    simp only
    rw [hscan, if_pos ((is_zero_iff _).mpr h0)]
  · intro hne y x
    unfold back_step
    simp only
    rw [hscan, if_neg (fun h => hne ((is_zero_iff _).mp h))]
    obtain ⟨-, hc1⟩ := eliminate_above_spec ps (columns - 1) y0 (by omega) hy y0 le_rfl m hd
    rw [hc1]
    by_cases hy1 : y < y0
    · rw [if_pos hy1]
      unfold eliminated
      by_cases h1 : (cell m y (columns - 1)).numerator = 0
      · rw [if_pos h1, if_neg]
        rintro ⟨-, h2, h3⟩
        rw [h2] at h3
        exact h3 h1
      · rw [if_neg h1]
        by_cases h2 : x = columns - 1
        · subst h2
          rw [if_pos rfl, if_pos ⟨hy1, rfl, h1⟩]
          rfl
        · rw [if_neg h2, if_neg (by omega), if_neg (fun h => h2 h.2.1)]
    · rw [if_neg hy1, if_neg (fun h => hy1 h.1)]

/-- Claim C15, as the code has it: the pivot scan of the back substitution tests the columns
`0 .. columns-2` and stops at column `columns-1` at the latest, and the test that follows reads the
element where the scan stopped.  So a row that is zero in the columns `0 .. columns-2` is skipped
only when its last element is zero too; otherwise the last column is its pivot column: in every row
above, a nonzero last element is replaced by `{0, 1}`, and nothing else changes. -/
theorem back_step_last_column (ps : List Int) (rows columns y0 : Nat) (m : List (List fraction))
    (hd : dims m rows columns) (hy : y0 < rows) (hc : 1 ≤ columns)
    (hz : ∀ x, x + 1 < columns → (cell m y0 x).numerator = 0) :
    pivot_scan m y0 (columns - 1) 0 = columns - 1 ∧
    ((cell m y0 (columns - 1)).numerator = 0 → back_step ps columns y0 m = m) ∧
    ((cell m y0 (columns - 1)).numerator ≠ 0 →
      ∀ y x, cell (back_step ps columns y0 m) y x =
        if y < y0 ∧ x = columns - 1 ∧ (cell m y x).numerator ≠ 0 then ⟨0, 1⟩ else cell m y x) :=
  ⟨pivot_scan_last m columns y0 hz, back_step_zero_row ps rows columns y0 m hd hy hc hz⟩

/-- Claim C15, witness of `back_step_last_column`: the grid with rows `[1, 1, 2]` and
`[0, 0, 1]`, at the row `[0, 0, 1]`. -/
theorem back_step_last_column_witness :
    pivot_scan [ints [1, 1, 2], ints [0, 0, 1]] 1 (3 - 1) 0 = 3 - 1 ∧
    ((cell [ints [1, 1, 2], ints [0, 0, 1]] 1 (3 - 1)).numerator = 0 →
      back_step small_primes 3 1 [ints [1, 1, 2], ints [0, 0, 1]] =
        [ints [1, 1, 2], ints [0, 0, 1]]) ∧
    ((cell [ints [1, 1, 2], ints [0, 0, 1]] 1 (3 - 1)).numerator ≠ 0 →
      ∀ y x, cell (back_step small_primes 3 1 [ints [1, 1, 2], ints [0, 0, 1]]) y x =
        if y < 1 ∧ x = 3 - 1 ∧ (cell [ints [1, 1, 2], ints [0, 0, 1]] y x).numerator ≠ 0 then
          ⟨0, 1⟩
        else cell [ints [1, 1, 2], ints [0, 0, 1]] y x) :=
  back_step_last_column small_primes 2 3 1 [ints [1, 1, 2], ints [0, 0, 1]]
    (by unfold dims; decide) (by decide) (by decide)
    (by
      intro x hx
      have hx2 : x < 2 := by omega
      interval_cases x <;> decide)

/-- Claim C15, counterexample: with every well-formed table the forward elimination turns the
grid `[[1, 1, 2], [2, 2, 5]]` into `[[1, 1, 2], [0, 0, 1]]`, whose second row is zero in the columns
0 and 1; the back substitution step on that row does not skip it: it changes the last element of
the first row from 2 to 0, and the engine returns `[[1, 1, 0], [0, 0, 1]]`. -/
theorem last_column_is_searched :
    (∀ ps : List Int, prime_table ps →
      (forward_elimination ps 2 3 [ints [1, 1, 2], ints [2, 2, 5]]).matrix =
        [ints [1, 1, 2], ints [0, 0, 1]] ∧
      back_step ps 3 1 [ints [1, 1, 2], ints [0, 0, 1]] = [ints [1, 1, 0], ints [0, 0, 1]] ∧
      simplify_matrix_fraction ps 2 3 [ints [1, 1, 2], ints [2, 2, 5]] =
        [ints [1, 1, 0], ints [0, 0, 1]]) ∧
    (∀ x, x + 1 < 3 → (cell [ints [1, 1, 2], ints [0, 0, 1]] 1 x).numerator = 0) ∧
    cell [ints [1, 1, 2], ints [0, 0, 1]] 0 2 ≠ cell [ints [1, 1, 0], ints [0, 0, 1]] 0 2 := by
  refine ⟨?_, ?_, by decide⟩
  · intro ps hps
    have red_int : ∀ n : Int, reduction ps ⟨n, 1⟩ = ⟨n, 1⟩ := by
      intro n
      exact reduction_lowest ps hps ⟨n, 1⟩ ⟨by norm_num, by simp⟩
    have hfwd : (forward_elimination ps 2 3 [ints [1, 1, 2], ints [2, 2, 5]]).matrix =
        [ints [1, 1, 2], ints [0, 0, 1]] := by
      simp [forward_elimination, forward_loop, forward_step,
        pivot_search, eliminate_below,
        eliminate_row, scale_row, set_elem, fraction_div, fraction_mul, fraction_sub,
        red_int, cell, ints, fraction_int2type, fraction_is_zero, List.range']
    have hback : back_step ps 3 1 [ints [1, 1, 2], ints [0, 0, 1]] =
        [ints [1, 1, 0], ints [0, 0, 1]] := by
      simp [back_step, pivot_scan, eliminate_above,
        eliminate_row, set_elem, fraction_mul, fraction_sub,
        red_int, cell, ints, fraction_int2type, fraction_is_zero, List.range']
    refine ⟨hfwd, hback, ?_⟩
    rw [simplify_matrix_eq, hfwd]
    show back_loop ps 3 0 (back_step ps 3 (0 + 1) _) = _
    unfold back_loop
    exact hback
  · intro x hx
    have hx2 : x < 2 := by omega
    interval_cases x <;> decide

/-! ### Lowest terms -/

/-- A common prime factor of the members of `reduction ps x` is a common prime factor of the
members of `x`. -/
theorem reduction_common_factor (ps : List Int) (x : fraction) (hn : x.numerator ≠ 0) (q : Int)
    (h1 : q ∣ (reduction ps x).numerator) (h2 : q ∣ (reduction ps x).denominator) :
    q ∣ x.numerator ∧ q ∣ x.denominator := by
  obtain ⟨c, -, hcn, hcd⟩ := reduction_factor ps x hn
  rw [hcn, hcd]
  exact ⟨Dvd.dvd.mul_right h1 c, Dvd.dvd.mul_right h2 c⟩

/-- With a well-formed table that holds every prime up to `B`, `reduction` returns lowest terms
on every fraction whose members have no common prime factor above `B`. -/
theorem reduction_gcd (B : Nat) (ps : List Int) (hps : prime_table ps)
    (hall : ∀ q : Nat, q.Prime → q ≤ B → (q : Int) ∈ ps) (x : fraction)
    (hx : x.denominator ≠ 0)
    (hcommon : ∀ q : Nat, q.Prime → (q : Int) ∣ x.numerator → (q : Int) ∣ x.denominator → q ≤ B) :
    0 < (reduction ps x).denominator ∧
      Int.gcd (reduction ps x).numerator (reduction ps x).denominator = 1 := by
  obtain ⟨hpos, hzero, -, hno⟩ := reduction_reduced ps hps x hx
  refine ⟨hpos, ?_⟩
  by_cases hn : x.numerator = 0
  · rw [reduction_of_num_zero ps x hn]
    rfl
  · by_contra hg
    obtain ⟨q, hq, hqd⟩ := Nat.exists_prime_and_dvd hg
    have h1 : (q : Int) ∣ (reduction ps x).numerator :=
      Int.dvd_trans (Int.natCast_dvd_natCast.mpr hqd) (Int.gcd_dvd_left)
    have h2 : (q : Int) ∣ (reduction ps x).denominator :=
      Int.dvd_trans (Int.natCast_dvd_natCast.mpr hqd) (Int.gcd_dvd_right)
    obtain ⟨h3, h4⟩ := reduction_common_factor ps x hn q h1 h2
    have hmem := hall q hq (hcommon q hq h3 h4)
    have hq0 : (q : Int) ≠ 0 := by exact_mod_cast hq.ne_zero
    have hrn : (reduction ps x).numerator ≠ 0 := fun h => hn ((reduction_num_eq_zero ps x).mp h)
    have hle1 : (q : Int) ≤ c_abs (reduction ps x).numerator := by
      rw [c_abs_eq]
      exact Int.le_of_dvd (abs_pos.mpr hrn) ((dvd_abs _ _).mpr h1)
    have hle2 : (q : Int) ≤ (reduction ps x).denominator := Int.le_of_dvd hpos h2
    exact hno q hmem hq0 (le_min hle1 hle2) ⟨h1, h2⟩

/-- In exact arithmetic, given a well-formed table that holds every prime up to 65535, for every
fraction `x` with nonzero denominator whose members have no common prime factor above 65535 (in
particular when `min(|x.numerator|, |x.denominator|) ≤ 65535`), `reduction(x)` has a positive
denominator and `gcd(|numerator|, denominator) = 1`. -/
theorem reduction_lowest_exact (ps : List Int) (hps : prime_table ps)
    (hall : ∀ q : Nat, q.Prime → q ≤ 65535 → (q : Int) ∈ ps) (x : fraction)
    (hx : x.denominator ≠ 0)
    (hreach : (∀ q : Nat, q.Prime → (q : Int) ∣ x.numerator → (q : Int) ∣ x.denominator →
        q ≤ 65535) ∨ min (c_abs x.numerator) (c_abs x.denominator) ≤ 65535) :
    0 < (reduction ps x).denominator ∧
      Int.gcd (reduction ps x).numerator (reduction ps x).denominator = 1 ∧
      Nat.gcd (c_abs (reduction ps x).numerator).toNat (reduction ps x).denominator.toNat = 1 := by
  have key : 0 < (reduction ps x).denominator ∧
      Int.gcd (reduction ps x).numerator (reduction ps x).denominator = 1 := by
    rcases hreach with h | h
    · exact reduction_gcd 65535 ps hps hall x hx h
    · by_cases hn : x.numerator = 0
      · exact ⟨(reduction_reduced ps hps x hx).1, by rw [reduction_of_num_zero ps x hn]; rfl⟩
      · apply reduction_gcd 65535 ps hps hall x hx
        intro q hq h1 h2
        have hq1 : (q : Int) ≤ c_abs x.numerator := by
          rw [c_abs_eq]
          exact Int.le_of_dvd (abs_pos.mpr hn) ((dvd_abs _ _).mpr h1)
        have hq2 : (q : Int) ≤ c_abs x.denominator := by
          rw [c_abs_eq]
          exact Int.le_of_dvd (abs_pos.mpr hx) ((dvd_abs _ _).mpr h2)
        have := le_trans (le_min hq1 hq2) h
        exact_mod_cast this
  refine ⟨key.1, key.2, ?_⟩
  have h1 : (c_abs (reduction ps x).numerator).toNat = (reduction ps x).numerator.natAbs := by
    rw [c_abs_eq]
    have := Int.natCast_natAbs (reduction ps x).numerator
    omega
  have h2 : (reduction ps x).denominator.toNat = (reduction ps x).denominator.natAbs := by
    have := key.1
    omega
  rw [h1, h2]
  exact key.2

/-! ### The prime table -/

/-- Reading a bit after a bit was cleared. -/
theorem getD_set_false (s : List Bool) (j k : Nat) :
    (s.set j false).getD k false = if k = j then false else s.getD k false := by
  rw [getD_set_eq s j k false false]
  by_cases h : k = j
  · subst h
    by_cases hk : k < s.length
    · simp [hk]
    · simp [hk, List.getElem?_eq_none (Nat.le_of_not_lt hk)]
  · simp [h, Ne.symm h]

/-- The inner loop of the sieve clears exactly the bits `j, j + i, j + 2 * i, ...` up to
`max_prime`, given enough iterations. -/
theorem sieve_clear_spec (M i : Nat) (hi : 1 ≤ i) (fuel j : Nat) (s : List Bool)
    (hf : M + 1 ≤ j + fuel) :
    (sieve_clear M i fuel j s).length = s.length ∧
    ∀ k, (sieve_clear M i fuel j s).getD k false =
      if j ≤ k ∧ k ≤ M ∧ i ∣ k - j then false else s.getD k false := by
  induction fuel generalizing j s with
  | zero =>
    refine ⟨rfl, fun k => ?_⟩
    rw [if_neg (by omega)]
    rfl
  | succ fuel ih =>
    unfold sieve_clear
    by_cases hj : j < M + 1
    · rw [if_pos hj]
      obtain ⟨h1, h2⟩ := ih (j + i) (s.set j false) (by omega)
      refine ⟨by rw [h1, List.length_set], fun k => ?_⟩
      rw [h2 k, getD_set_false]
      by_cases hkj : k = j
      · subst hkj
        simp [hi]
        omega
      · rw [if_neg hkj]
        by_cases hc : j + i ≤ k ∧ k ≤ M ∧ i ∣ k - (j + i)
        · rw [if_pos hc, if_pos]
          refine ⟨by omega, hc.2.1, ?_⟩
          have : k - j = (k - (j + i)) + i := by omega
          rw [this]
          exact Dvd.dvd.add hc.2.2 (dvd_refl i)
        · rw [if_neg hc, if_neg]
          rintro ⟨h3, h4, h5⟩
          apply hc
          have hpos : 0 < k - j := by omega
          have hle := Nat.le_of_dvd hpos h5
          refine ⟨by omega, h4, ?_⟩
          have : k - (j + i) = (k - j) - i := by omega
          rw [this]
          exact Nat.dvd_sub' h5 (dvd_refl i)
    · rw [if_neg hj]
      refine ⟨rfl, fun k => ?_⟩
      rw [if_neg (by omega)]

/-- Induction along a loop `for (c = a; c < a + n; ++c)`. -/
theorem foldl_range_induction {σ : Type} (f : σ → Nat → σ) (P : Nat → σ → Prop) (n a : Nat)
    (init : σ) (h0 : P a init)
    (hstep : ∀ c s, a ≤ c → c < a + n → P c s → P (c + 1) (f s c)) :
    P (a + n) ((List.range' a n).foldl f init) := by
  induction n generalizing a init with
  | zero => exact h0
  | succ n ih =>
    rw [List.range'_succ, List.foldl_cons]
    have := ih (a + 1) (f init a) (hstep a init (le_refl a) (by omega) h0)
      (fun c s h1 h2 h3 => hstep c s (by omega) (by omega) h3)
    rwa [show a + (n + 1) = a + 1 + n by omega]

/-- A number from 2 on is prime exactly when no smaller number from 2 on divides it. -/
theorem prime_iff_sieve (c : Nat) (hc : 2 ≤ c) :
    Nat.Prime c ↔ ∀ d, 2 ≤ d → d < c → d ∣ c → d = c := by
  rw [Nat.prime_def_lt']
  constructor
  · rintro ⟨-, h⟩ d h1 h2 h3
    exact absurd h3 (h d h1 h2)
  · intro h
    refine ⟨hc, fun d h1 h2 h3 => ?_⟩
    have := h d h1 h2 h3
    omega

/-- The sieve before the outer loop. -/
theorem sieve_initial_inv (M : Nat) : sieve_inv M 2 (sieve_initial M, 0) := by
  refine ⟨by simp [sieve_initial], fun k => ?_, ?_⟩
  · unfold sieve_initial
    simp only [getD_set_false]
    by_cases h1 : k = 1
    · subst h1; simp
    · by_cases h0 : k = 0
      · subst h0; simp
      · rw [if_neg h1, if_neg h0]
        by_cases hk : k < M + 1
        · simp [List.getD_eq_getElem?_getD, List.getElem?_replicate, hk]
          refine ⟨by omega, by omega, fun d h2 h3 => by omega⟩
        · simp [List.getD_eq_getElem?_getD, List.getElem?_replicate, hk]
          omega
  · simp [List.range_succ, Nat.not_prime_zero, Nat.not_prime_one]

/-- One iteration of the outer loop of the sieve keeps the invariant. -/
theorem sieve_step_inv (M c : Nat) (hc : 2 ≤ c) (hcM : c ≤ M) (st : List Bool × Nat)
    (h : sieve_inv M c st) : sieve_inv M (c + 1) (sieve_step M st c) := by
  obtain ⟨hlen, hbit, hcnt⟩ := h
  have hprime : st.1.getD c false = true ↔ Nat.Prime c := by
    rw [hbit c, prime_iff_sieve c hc]
    exact ⟨fun h => h.2.2, fun h => ⟨hc, hcM, h⟩⟩
  unfold sieve_step
  by_cases hb : st.1.getD c false = true
  · rw [if_pos hb]
    obtain ⟨h1, h2⟩ := sieve_clear_spec M c (by omega) (M + 1) (2 * c) st.1 (by omega)
    refine ⟨by rw [h1, hlen], fun k => ?_, ?_⟩
    · show (sieve_clear M c (M + 1) (2 * c) st.1).getD k false = true ↔ _
      rw [h2 k]
      by_cases hcl : 2 * c ≤ k ∧ k ≤ M ∧ c ∣ k - 2 * c
      · rw [if_pos hcl]
        simp only [Bool.false_eq_true, false_iff, not_and, not_forall]
        intro _ _
        refine ⟨c, hc, by omega, ?_, by omega⟩
        have : k = (k - 2 * c) + 2 * c := by omega
        rw [this]
        exact Dvd.dvd.add hcl.2.2 (Dvd.intro_left 2 rfl)
      · rw [if_neg hcl, hbit k]
        constructor
        · rintro ⟨h3, h4, h5⟩
          refine ⟨h3, h4, fun d hd1 hd2 hd3 => ?_⟩
          by_cases hdc : d < c
          · exact h5 d hd1 hdc hd3
          · have hdc2 : d = c := by omega
            subst hdc2
            by_contra hne
            apply hcl
            obtain ⟨t, ht⟩ := hd3
            have ht2 : 2 ≤ t := by
              rcases t with _ | _ | t
              · omega
              · omega
              · omega
            refine ⟨?_, h4, ?_⟩
            · rw [ht]; exact Nat.mul_le_mul_left d ht2 |>.trans_eq' (by ring)
            · refine ⟨t - 2, ?_⟩
              rw [ht, Nat.mul_sub, Nat.mul_comm d 2]
        · rintro ⟨h3, h4, h5⟩
          exact ⟨h3, h4, fun d hd1 hd2 hd3 => h5 d hd1 (by omega) hd3⟩
    · show st.2 + 1 = _
      rw [hcnt, List.range_succ, List.filter_append, List.length_append]
      simp [hprime.mp hb]
  · rw [if_neg hb]
    have hnp : ¬ Nat.Prime c := fun h => hb (hprime.mpr h)
    refine ⟨hlen, fun k => ?_, ?_⟩
    · rw [hbit k]
      constructor
      · rintro ⟨h3, h4, h5⟩
        refine ⟨h3, h4, fun d hd1 hd2 hd3 => ?_⟩
        by_cases hdc : d < c
        · exact h5 d hd1 hdc hd3
        · have hdc2 : d = c := by omega
          subst hdc2
          exfalso
          rw [prime_iff_sieve d hc] at hnp
          apply hnp
          intro e he1 he2 he3
          have := h5 e he1 he2 (dvd_trans he3 hd3)
          subst this
          have := Nat.le_of_dvd (by omega) hd3
          omega
      · rintro ⟨h3, h4, h5⟩
        exact ⟨h3, h4, fun d hd1 hd2 hd3 => h5 d hd1 (by omega) hd3⟩
    · rw [hcnt, List.range_succ, List.filter_append, List.length_append]
      simp [hnp]

/-- After the outer loop the bits set are the primes up to `max_prime`, and `number_of_primes` is
their number. -/
theorem sieve_run_spec (M : Nat) :
    (∀ k, (sieve_run M).1.getD k false = true ↔ k ≤ M ∧ Nat.Prime k) ∧
    (sieve_run M).2 = ((List.range (M + 1)).filter fun k => decide (Nat.Prime k)).length := by
  have hinv : sieve_inv M (2 + (M + 1 - 2)) (sieve_run M) :=
    foldl_range_induction (sieve_step M) (sieve_inv M) (M + 1 - 2) 2 (sieve_initial M, 0)
      (sieve_initial_inv M)
      (fun c s h1 h2 h3 => sieve_step_inv M c h1 (by omega) s h3)
  obtain ⟨-, hbit, hcnt⟩ := hinv
  constructor
  · intro k
    rw [hbit k]
    constructor
    · rintro ⟨h1, h2, h3⟩
      refine ⟨h2, (prime_iff_sieve k h1).mpr fun d hd1 hd2 hd3 => h3 d hd1 (by omega) hd3⟩
    · rintro ⟨h1, h2⟩
      refine ⟨h2.two_le, h1, fun d hd1 _ hd3 => ?_⟩
      rcases (Nat.dvd_prime h2).mp hd3 with h | h
      · omega
      · exact h
  · rw [hcnt]
    rcases Nat.lt_or_ge M 1 with h | h
    · have : M = 0 := by omega
      subst this
      simp [List.range_succ, Nat.not_prime_zero, Nat.not_prime_one]
    · rw [show 2 + (M + 1 - 2) = M + 1 by omega]

/-- The loop that fills the table writes the set bits from `i` on in ascending order, when the
bits are those of the primes up to `max_prime` and `number_of_primes - j` of them remain. -/
theorem sieve_collect_spec (M : Nat) (s : List Bool) (n : Nat)
    (hbit : ∀ k, s.getD k false = true ↔ k ≤ M ∧ Nat.Prime k) (fuel i j : Nat)
    (hf : M + 1 ≤ i + fuel)
    (hcnt : j + ((List.range' i (M + 1 - i)).filter fun k => decide (Nat.Prime k)).length = n) :
    sieve_collect s n fuel i j =
      ((List.range' i (M + 1 - i)).filter fun k => decide (Nat.Prime k)).map Int.ofNat := by
  induction fuel generalizing i j with
  | zero =>
    rw [show M + 1 - i = 0 by omega]
    rfl
  | succ fuel ih =>
    unfold sieve_collect
    by_cases hi : i ≤ M
    · have hr : List.range' i (M + 1 - i) = i :: List.range' (i + 1) (M + 1 - (i + 1)) := by
        rw [show M + 1 - i = (M + 1 - (i + 1)) + 1 by omega, List.range'_succ]
      rw [hr] at hcnt ⊢
      by_cases hp : Nat.Prime i
      · have hb : s.getD i false = true := (hbit i).mpr ⟨hi, hp⟩
        rw [List.filter_cons_of_pos (by simpa using hp)] at hcnt ⊢
        rw [List.length_cons] at hcnt
        rw [if_pos (by omega), if_pos hb, List.map_cons,
          ih (i + 1) (j + 1) (by omega) (by omega)]
        rfl
      · have hb : ¬ s.getD i false = true := fun h => hp ((hbit i).mp h).2
        rw [List.filter_cons_of_neg (by simpa using hp)] at hcnt ⊢
        by_cases hj : j < n
        · rw [if_pos hj, if_neg hb, ih (i + 1) j (by omega) hcnt]
        · rw [if_neg hj]
          have : ((List.range' (i + 1) (M + 1 - (i + 1))).filter
              fun k => decide (Nat.Prime k)).length = 0 := by omega
          rw [List.length_eq_zero.mp this]
          rfl
    · rw [show M + 1 - i = 0 by omega] at hcnt ⊢
      simp only [List.range'_zero, List.filter_nil, List.length_nil, List.map_nil] at hcnt ⊢
      rw [if_neg (by omega)]

/-- The table left by `initialize_prime_numbers`: the primes up to `max_prime` in ascending
order, then 0. -/
theorem initialize_prime_numbers_eq (M : Nat) :
    initialize_prime_numbers M = primes_up_to M ++ [0] := by
  obtain ⟨hbit, hcnt⟩ := sieve_run_spec M
  unfold initialize_prime_numbers primes_up_to
  simp only
  rw [sieve_collect_spec M (sieve_run M).1 (sieve_run M).2 hbit (M + 1) 0 0 (by omega)
    (by rw [hcnt, Nat.sub_zero, List.range_eq_range', Nat.zero_add])]
  rw [Nat.sub_zero, List.range_eq_range']

/-- Membership in the list of the primes up to `n`. -/
theorem mem_primes_up_to (n : Nat) (p : Int) :
    p ∈ primes_up_to n ↔ ∃ q : Nat, p = q ∧ q ≤ n ∧ Nat.Prime q := by
  unfold primes_up_to
  simp only [List.mem_map, List.mem_filter, List.mem_range, decide_eq_true_eq]
  constructor
  · rintro ⟨q, ⟨h1, h2⟩, rfl⟩
    exact ⟨q, rfl, by omega, h2⟩
  · rintro ⟨q, rfl, h1, h2⟩
    exact ⟨q, ⟨by omega, h2⟩, rfl⟩

/-- The list of the primes up to `n` is strictly ascending. -/
theorem primes_up_to_sorted (n : Nat) : (primes_up_to n).Pairwise (· < ·) := by
  unfold primes_up_to
  rw [List.pairwise_map]
  refine List.Pairwise.filter _ ?_
  refine List.Pairwise.imp ?_ (List.pairwise_lt_range (n + 1))
  intro a b hab
  exact Int.ofNat_lt.mpr hab

/-- The table left by `initialize_prime_numbers` is well formed. -/
theorem initialize_prime_numbers_table (M : Nat) : prime_table (initialize_prime_numbers M) := by
  refine ⟨primes_up_to M, initialize_prime_numbers_eq M, fun p hp => ?_, primes_up_to_sorted M⟩
  obtain ⟨q, rfl, -, hq⟩ := (mem_primes_up_to M p).mp hp
  exact_mod_cast hq.two_le

/-- The table left by `initialize_prime_numbers` holds every prime up to `max_prime`. -/
theorem initialize_prime_numbers_complete (M : Nat) (q : Nat) (hq : q.Prime) (hle : q ≤ M) :
    (q : Int) ∈ initialize_prime_numbers M := by
  rw [initialize_prime_numbers_eq]
  exact List.mem_append_left _ ((mem_primes_up_to M q).mpr ⟨q, rfl, hle, hq⟩)

/-- The sieve run with bound 19 leaves the table `small_primes`. -/
theorem initialize_prime_numbers_small : initialize_prime_numbers 19 = small_primes := by
  decide

/-- Claim C13: after `initialize_prime_numbers` (with `MAX_PRIME` = 65535) the table is a list
`l` followed by one terminating 0, where `l` is strictly ascending, has no repetition, and holds
exactly the primes `p` with `2 ≤ p ≤ 65535`; in particular neither 0 nor 1 nor a composite
number stands before the terminator. -/
theorem prime_table_contents :
    ∃ l : List Int, initialize_prime_numbers 65535 = l ++ [0] ∧
      l.Pairwise (· < ·) ∧ l.Nodup ∧
      (∀ p : Int, p ∈ l ↔ ∃ q : Nat, p = q ∧ 2 ≤ q ∧ q ≤ 65535 ∧ Nat.Prime q) ∧
      (0 : Int) ∉ l ∧ (1 : Int) ∉ l ∧
      (∀ a b : Nat, 2 ≤ a → 2 ≤ b → ((a * b : Nat) : Int) ∉ l) := by
  have hmem : ∀ p : Int, p ∈ primes_up_to 65535 ↔
      ∃ q : Nat, p = q ∧ 2 ≤ q ∧ q ≤ 65535 ∧ Nat.Prime q := by
    intro p
    rw [mem_primes_up_to]
    constructor
    · rintro ⟨q, h1, h2, h3⟩
      exact ⟨q, h1, h3.two_le, h2, h3⟩
    · rintro ⟨q, h1, -, h2, h3⟩
      exact ⟨q, h1, h2, h3⟩
  refine ⟨primes_up_to 65535, initialize_prime_numbers_eq 65535, primes_up_to_sorted 65535,
    (primes_up_to_sorted 65535).imp (fun h => ne_of_lt h), hmem, ?_, ?_, ?_⟩
  · intro h
    obtain ⟨q, h1, h2, -, -⟩ := (hmem 0).mp h
    omega
  · intro h
    obtain ⟨q, h1, h2, -, -⟩ := (hmem 1).mp h
    omega
  · intro a b ha hb h
    obtain ⟨q, h1, -, -, h2⟩ := (hmem _).mp h
    have h3 : a * b = q := by exact_mod_cast h1
    rw [← h3] at h2
    exact Nat.not_prime_mul (by omega) (by omega) h2

/-! ### The operations on 32-bit `int` -/

/-- Wrapping leaves a value of the 32-bit range as it is. -/
theorem wrap_int_eq (v : Int) (h : fits_int v) : wrap_int v = v := by
  unfold fits_int at h
  unfold wrap_int
  omega

/-- On values whose negation is representable, `abs` on 32-bit `int` is the exact `abs`. -/
theorem c_abs_int32_eq (v : Int) (h : fits_int v) : c_abs_int32 v = c_abs v := by
  unfold c_abs_int32 c_abs
  split_ifs
  · exact wrap_int_eq _ ⟨by unfold fits_int at h; omega, by unfold fits_int at h; omega⟩
  · rfl

/-- An exact quotient is not larger in absolute value than the dividend. -/
theorem fits_int_tdiv (n p : Int) (h : fits_int n) (hp : n.tmod p = 0) : fits_int (n.tdiv p) := by
  have h1 := Int.tdiv_mul_cancel (Int.dvd_of_tmod_eq_zero hp)
  by_cases hp0 : p = 0
  · subst hp0
    simp [fits_int]
  · have h2 : |n.tdiv p| ≤ |n| := by
      have h4 : |n| = |n.tdiv p| * |p| := by rw [← abs_mul, h1]
      rw [h4]
      exact le_mul_of_one_le_right (abs_nonneg _) (Int.one_le_abs hp0)
    unfold fits_int at h ⊢
    have h3 := abs_le.mp (le_trans h2 (abs_le.mpr ⟨by omega, h.2⟩ : |n| ≤ 2147483647))
    omega

/-- The inner loop of `reduction` on 32-bit `int` is the exact one on representable members, and
keeps them representable. -/
theorem reduction_while_int32_eq (p : Int) (fuel : Nat) (x : fraction) (hn : fits_int x.numerator)
    (hd : fits_int x.denominator) :
    reduction_while_int32 p fuel x = reduction_while p fuel x ∧
      fits_int (reduction_while p fuel x).numerator ∧
      fits_int (reduction_while p fuel x).denominator := by
  induction fuel generalizing x with
  | zero => exact ⟨rfl, hn, hd⟩
  | succ fuel ih =>
    unfold reduction_while_int32 reduction_while
    split_ifs with h
    · have h1 := fits_int_tdiv _ p hn h.1
      have h2 := fits_int_tdiv _ p hd h.2
      rw [wrap_int_eq _ h1, wrap_int_eq _ h2]
      exact ih ⟨x.numerator.tdiv p, x.denominator.tdiv p⟩ h1 h2
    · exact ⟨rfl, hn, hd⟩

/-- The outer loop of `reduction` on 32-bit `int` is the exact one on representable members. -/
theorem reduction_for_int32_eq (ps : List Int) (x : fraction) (hn : fits_int x.numerator)
    (hd : fits_int x.denominator) : reduction_for_int32 ps x = reduction_for ps x := by
  induction ps generalizing x with
  | nil => rfl
  | cons p rest ih =>
    unfold reduction_for_int32 reduction_for
    rw [c_abs_int32_eq _ hn]
    obtain ⟨h1, h2, h3⟩ := reduction_while_int32_eq p x.numerator.natAbs x hn hd
    split_ifs with h
    · rw [h1]
      exact ih _ h2 h3
    · rfl

/-- The function `reduction` on 32-bit `int` is the exact one on representable members. -/
theorem reduction_int32_eq (ps : List Int) (x : fraction) (hn : fits_int x.numerator)
    (hd : fits_int x.denominator) : reduction_int32 ps x = reduction ps x := by
  have hnn : fits_int (x.numerator * -1) := by unfold fits_int at hn ⊢; omega
  have hdn : fits_int (x.denominator * -1) := by unfold fits_int at hd ⊢; omega
  unfold reduction_int32 reduction
  by_cases hneg : x.denominator < 0
  · simp only [hneg, if_true, wrap_int_eq _ hnn, wrap_int_eq _ hdn, c_abs_int32_eq _ hnn]
    split_ifs with h1 h2
    · rfl
    · have hq : (x.numerator * -1).tmod (x.denominator * -1) = 0 := by
        rw [← h2, c_abs_eq]
        exact Int.tmod_eq_zero_of_dvd ((abs_dvd _ _).mpr (dvd_refl _))
      rw [wrap_int_eq _ (fits_int_tdiv _ _ hnn hq),
        wrap_int_eq _ (fits_int_tdiv _ _ hdn (Int.tmod_self))]
    · exact reduction_for_int32_eq ps _ hnn hdn
  · simp only [hneg, if_false, c_abs_int32_eq _ hn]
    split_ifs with h1 h2
    · rfl
    · have hq : x.numerator.tmod x.denominator = 0 := by
        rw [← h2, c_abs_eq]
        exact Int.tmod_eq_zero_of_dvd ((abs_dvd _ _).mpr (dvd_refl _))
      rw [wrap_int_eq _ (fits_int_tdiv _ _ hn hq),
        wrap_int_eq _ (fits_int_tdiv _ _ hd (Int.tmod_self))]
    · exact reduction_for_int32_eq ps _ hn hd

/-- Claim C12, as the code has it: `fraction_mul`, `fraction_div` and `fraction_sub` have no test
of the range and signal nothing.  On 32-bit `int`, when the products they compute (and the
difference in `fraction_sub`) lie within `±2147483647`, they return the reduction of the exact
values; otherwise the result is built from the wrapped values. -/
theorem fraction_int32_exact (ps : List Int) (a b : fraction)
    (hnn : fits_int (a.numerator * b.numerator)) (hdd : fits_int (a.denominator * b.denominator))
    (hnd : fits_int (a.numerator * b.denominator)) (hdn : fits_int (a.denominator * b.numerator))
    (hsub : fits_int (a.numerator * b.denominator - b.numerator * a.denominator)) :
    fraction_mul_int32 ps a b = fraction_mul ps a b ∧
      fraction_div_int32 ps a b = fraction_div ps a b ∧
      fraction_sub_int32 ps a b = fraction_sub ps a b := by
  have hdn2 : fits_int (b.numerator * a.denominator) := by rwa [mul_comm]
  refine ⟨?_, ?_, ?_⟩
  · unfold fraction_mul_int32 fraction_mul
    rw [wrap_int_eq _ hnn, wrap_int_eq _ hdd]
    exact reduction_int32_eq ps _ hnn hdd
  · unfold fraction_div_int32 fraction_div
    rw [wrap_int_eq _ hnd, wrap_int_eq _ hdn]
    exact reduction_int32_eq ps _ hnd hdn
  · unfold fraction_sub_int32 fraction_sub
    rw [wrap_int_eq _ hnd, wrap_int_eq _ hdn2, wrap_int_eq _ hsub, wrap_int_eq _ hdd]
    exact reduction_int32_eq ps _ hsub hdd

/-- Claim C12, witness of `fraction_int32_exact`: the fractions `{40000, 3}` and `{50000, 7}`,
with the values the three operations return. -/
theorem fraction_int32_exact_witness :
    fits_int ((40000 : Int) * 50000) ∧
    (fraction_mul_int32 small_primes ⟨40000, 3⟩ ⟨50000, 7⟩ = fraction_mul small_primes ⟨40000, 3⟩ ⟨50000, 7⟩ ∧
      fraction_div_int32 small_primes ⟨40000, 3⟩ ⟨50000, 7⟩ = fraction_div small_primes ⟨40000, 3⟩ ⟨50000, 7⟩ ∧
      fraction_sub_int32 small_primes ⟨40000, 3⟩ ⟨50000, 7⟩ = fraction_sub small_primes ⟨40000, 3⟩ ⟨50000, 7⟩) ∧
    fraction_mul_int32 small_primes ⟨40000, 3⟩ ⟨50000, 7⟩ = ⟨2000000000, 21⟩ ∧
    fraction_div_int32 small_primes ⟨40000, 3⟩ ⟨50000, 7⟩ = ⟨28, 15⟩ ∧
    fraction_sub_int32 small_primes ⟨40000, 3⟩ ⟨50000, 7⟩ = ⟨130000, 21⟩ :=
  ⟨by decide,
    fraction_int32_exact small_primes ⟨40000, 3⟩ ⟨50000, 7⟩ (by decide) (by decide) (by decide)
      (by decide) (by decide),
    by decide, by decide, by decide⟩

/-- Claim C12, counterexample: the product `65536 * 65536` exceeds the range of a 32-bit `int`,
and with every table `fraction_mul({65536,1}, {65536,1})` returns the fraction `{0, 1}`, built from
the wrapped value 0. -/
theorem fraction_mul_wraps :
    ¬ ((65536 : Int) * 65536 ≤ 2147483647) ∧ wrap_int (65536 * 65536) = 0 ∧
    (∀ ps : List Int, fraction_mul_int32 ps ⟨65536, 1⟩ ⟨65536, 1⟩ = ⟨0, 1⟩) ∧
    fraction_mul_int32 small_primes ⟨65536, 1⟩ ⟨65536, 1⟩ ≠ fraction_mul small_primes ⟨65536, 1⟩ ⟨65536, 1⟩ :=
  ⟨by decide, by decide, fun _ => rfl, by decide⟩

/-! ### Index safety -/

theorem access_ok_elem (rows columns y x : Nat) (hy : y < rows) (hx : x < columns) :
    access_ok rows columns (access.elem y x) = true := by
  simp [access_ok, hy, hx]

theorem access_ok_row (rows columns y : Nat) (hy : y < rows) :
    access_ok rows columns (access.row y) = true := by
  simp [access_ok, hy]

theorem search_accesses_ok (rows columns x0 y0 : Nat) (m : List (List fraction))
    (hx : x0 < columns) (hy : y0 < rows) (ys : List Nat) (hys : ∀ y ∈ ys, y < rows) :
    ∀ a ∈ search_accesses x0 y0 m ys, access_ok rows columns a = true := by
  induction ys with
  | nil => intro a ha; simp [search_accesses] at ha
  | cons y ys ih =>
    have hy1 : y < rows := hys y (List.mem_cons_self _ _)
    intro a ha
    unfold search_accesses at ha
    rcases List.mem_cons.mp ha with h | h
    · rw [h]; exact access_ok_elem _ _ _ _ hy1 hx
    · split_ifs at h
      · simp only [List.mem_cons, List.mem_singleton, List.not_mem_nil, or_false] at h
        rcases h with h | h | h | h <;> rw [h]
        · exact access_ok_row _ _ _ hy
        · exact access_ok_row _ _ _ hy1
        · exact access_ok_row _ _ _ hy
        · exact access_ok_row _ _ _ hy1
      · exact ih (fun z hz => hys z (List.mem_cons_of_mem _ hz)) a h

theorem pivot_search_accesses_ok (rows columns x0 y0 : Nat) (m : List (List fraction))
    (hx : x0 < columns) (hy : y0 < rows) :
    ∀ a ∈ pivot_search_accesses rows x0 y0 m, access_ok rows columns a = true := by
  intro a ha
  unfold pivot_search_accesses at ha
  rcases List.mem_cons.mp ha with h | h
  · rw [h]; exact access_ok_elem _ _ _ _ hy hx
  · split_ifs at h
    · refine search_accesses_ok rows columns x0 y0 m hx hy _ (fun y hy1 => ?_) a h
      exact ((mem_range_iff _ _ _).mp hy1).2
    · simp at h

theorem scale_row_accesses_ok (rows columns x0 y0 : Nat) (hy : y0 < rows) :
    ∀ a ∈ scale_row_accesses columns x0 y0, access_ok rows columns a = true := by
  intro a ha
  unfold scale_row_accesses at ha
  obtain ⟨x, hx, h⟩ := List.mem_flatMap.mp ha
  have hx1 := ((mem_range_iff _ _ _).mp hx).2
  simp only [List.mem_cons, List.mem_singleton, List.not_mem_nil, or_false, or_self] at h
  rw [h]; exact access_ok_elem _ _ _ _ hy hx1

theorem eliminate_row_accesses_ok (rows columns x0 y0 y : Nat) (m : List (List fraction))
    (hx : x0 < columns) (hy0 : y0 < rows) (hy : y < rows) :
    ∀ a ∈ eliminate_row_accesses columns x0 y0 y m, access_ok rows columns a = true := by
  intro a ha
  unfold eliminate_row_accesses at ha
  rcases List.mem_cons.mp ha with h | h
  · rw [h]; exact access_ok_elem _ _ _ _ hy hx
  · split_ifs at h
    · rcases List.mem_cons.mp h with h | h
      · rw [h]; exact access_ok_elem _ _ _ _ hy hx
      · rcases List.mem_cons.mp h with h | h
        · rw [h]; exact access_ok_elem _ _ _ _ hy hx
        · obtain ⟨x, hx2, h⟩ := List.mem_flatMap.mp h
          have hx1 := ((mem_range_iff _ _ _).mp hx2).2
          simp only [List.mem_cons, List.mem_singleton, List.not_mem_nil, or_false] at h
          rcases h with h | h | h <;> rw [h]
          · exact access_ok_elem _ _ _ _ hy hx1
          · exact access_ok_elem _ _ _ _ hy0 hx1
          · exact access_ok_elem _ _ _ _ hy hx1
    · simp at h

theorem eliminate_below_accesses_ok (ps : List Int) (rows columns x0 y0 : Nat)
    (hx : x0 < columns) (hy0 : y0 < rows) (ys : List Nat) (hys : ∀ y ∈ ys, y < rows)
    (m : List (List fraction)) :
    ∀ a ∈ eliminate_below_accesses ps columns x0 y0 ys m, access_ok rows columns a = true := by
  induction ys generalizing m with
  | nil => intro a ha; simp [eliminate_below_accesses] at ha
  | cons y ys ih =>
    intro a ha
    unfold eliminate_below_accesses at ha
    rcases List.mem_append.mp ha with h | h
    · exact eliminate_row_accesses_ok rows columns x0 y0 y m hx hy0
        (hys y (List.mem_cons_self _ _)) a h
    · exact ih (fun z hz => hys z (List.mem_cons_of_mem _ hz)) _ a h

theorem eliminate_above_accesses_ok (ps : List Int) (rows columns x0 y0 : Nat)
    (hx : x0 < columns) (hy0 : y0 < rows) (n : Nat) (hn : n ≤ rows)
    (m : List (List fraction)) :
    ∀ a ∈ eliminate_above_accesses ps columns x0 y0 n m, access_ok rows columns a = true := by
  induction n generalizing m with
  | zero => intro a ha; simp [eliminate_above_accesses] at ha
  | succ y ih =>
    intro a ha
    unfold eliminate_above_accesses at ha
    rcases List.mem_append.mp ha with h | h
    · exact eliminate_row_accesses_ok rows columns x0 y0 y m hx hy0 (by omega) a h
    · exact ih (by omega) _ a h

/-- The accesses of one forward iteration with the cursor on the diagonal inside the grid. -/
theorem forward_step_accesses_ok (ps : List Int) (rows columns k : Nat) (m : List (List fraction))
    (d : List fraction) (hx : k < columns) (hy : k < rows) :
    ∀ a ∈ forward_step_accesses ps rows columns ⟨k, k, m, d⟩, access_ok rows columns a = true := by
  intro a ha
  unfold forward_step_accesses at ha
  simp only at ha
  rcases List.mem_append.mp ha with h | h
  · exact pivot_search_accesses_ok rows columns k k m hx hy a h
  · rcases List.mem_cons.mp h with h | h
    · rw [h]; exact access_ok_elem _ _ _ _ hy hx
    · split_ifs at h
      · simp at h
      · rcases List.mem_cons.mp h with h | h
        · rw [h]; exact access_ok_elem _ _ _ _ hy hx
        · rcases List.mem_append.mp h with h | h
          · exact scale_row_accesses_ok rows columns k k hy a h
          · exact eliminate_below_accesses_ok ps rows columns k k hx hy _
              (fun y hy1 => ((mem_range_iff _ _ _).mp hy1).2) _ a h

theorem forward_loop_accesses_ok (ps : List Int) (rows columns fuel k : Nat)
    (m : List (List fraction)) (d : List fraction) :
    ∀ a ∈ forward_loop_accesses ps rows columns fuel ⟨k, k, m, d⟩,
      access_ok rows columns a = true := by
  induction fuel generalizing k m d with
  | zero => intro a ha; simp [forward_loop_accesses] at ha
  | succ fuel ih =>
    intro a ha
    unfold forward_loop_accesses at ha
    split_ifs at ha with hg
    · simp only at hg
      rcases List.mem_append.mp ha with h | h
      · exact forward_step_accesses_ok ps rows columns k m d hg.1 hg.2 a h
      · obtain ⟨h1, h2⟩ := forward_step_cursor ps rows columns ⟨k, k, m, d⟩
        have h3 : forward_step ps rows columns ⟨k, k, m, d⟩ =
            ⟨k + 1, k + 1, (forward_step ps rows columns ⟨k, k, m, d⟩).matrix,
              (forward_step ps rows columns ⟨k, k, m, d⟩).divisors⟩ := by
          simp only at h1 h2
          cases hs : forward_step ps rows columns ⟨k, k, m, d⟩ with
          | mk a1 a2 a3 a4 =>
            rw [hs] at h1 h2
            simp only at h1 h2
            rw [h1, h2]
        rw [h3] at h
        exact ih (k + 1) _ _ a h
    · simp at ha

theorem pivot_scan_accesses_ok (rows columns y0 : Nat) (m : List (List fraction)) (hy : y0 < rows)
    (n x0 : Nat) (hn : x0 + n ≤ columns) :
    ∀ a ∈ pivot_scan_accesses m y0 n x0, access_ok rows columns a = true := by
  induction n generalizing x0 with
  | zero => intro a ha; simp [pivot_scan_accesses] at ha
  | succ n ih =>
    intro a ha
    unfold pivot_scan_accesses at ha
    rcases List.mem_cons.mp ha with h | h
    · rw [h]; exact access_ok_elem _ _ _ _ hy (by omega)
    · split_ifs at h
      · exact ih (x0 + 1) (by omega) a h
      · simp at h

theorem back_step_accesses_ok (ps : List Int) (rows columns y0 : Nat) (m : List (List fraction))
    (hy : y0 < rows) (hc : 1 ≤ columns) :
    ∀ a ∈ back_step_accesses ps columns y0 m, access_ok rows columns a = true := by
  have hx : pivot_scan m y0 (columns - 1) 0 < columns := by
    have := (pivot_scan_spec m y0 (columns - 1) 0).2.1
    omega
  intro a ha
  unfold back_step_accesses at ha
  simp only at ha
  rcases List.mem_append.mp ha with h | h
  · exact pivot_scan_accesses_ok rows columns y0 m hy _ _ (by omega) a h
  · rcases List.mem_cons.mp h with h | h
    · rw [h]; exact access_ok_elem _ _ _ _ hy hx
    · split_ifs at h
      · simp at h
      · exact eliminate_above_accesses_ok ps rows columns _ y0 hx hy y0 (by omega) m a h

theorem back_loop_accesses_ok (ps : List Int) (rows columns : Nat) (hc : 1 ≤ columns) (n : Nat)
    (hn : n < rows) (m : List (List fraction)) :
    ∀ a ∈ back_loop_accesses ps columns n m, access_ok rows columns a = true := by
  induction n generalizing m with
  | zero => intro a ha; simp [back_loop_accesses] at ha
  | succ n ih =>
    intro a ha
    unfold back_loop_accesses at ha
    rcases List.mem_append.mp ha with h | h
    · exact back_step_accesses_ok ps rows columns (n + 1) m hn hc a h
    · exact ih (by omega) _ a h

/-- Every read of the table by the outer loop of `reduction` is at or before the first 0 of the
table. -/
theorem reduction_for_reads_le (l l2 : List Int) (i : Nat) (x : fraction) :
    ∀ j ∈ reduction_for_reads i (l ++ 0 :: l2) x, j ≤ i + l.length := by
  induction l generalizing i x with
  | nil =>
    intro j hj
    simp [reduction_for_reads] at hj
    omega
  | cons p rest ih =>
    intro j hj
    rw [List.cons_append] at hj
    unfold reduction_for_reads at hj
    rcases List.mem_cons.mp hj with h | h
    · omega
    · split_ifs at h
      · have := ih (i + 1) _ j h
        rw [List.length_cons]
        omega
      · simp at h

theorem reduction_reads_le (l l2 : List Int) (x : fraction) :
    ∀ j ∈ reduction_reads (l ++ 0 :: l2) x, j ≤ l.length := by
  intro j hj
  unfold reduction_reads at hj
  simp only at hj
  split_ifs at hj
  · simp at hj
  · simp at hj
  · simpa using reduction_for_reads_le l l2 0 _ j hj
  · simp at hj
  · simp at hj
  · simpa using reduction_for_reads_le l l2 0 _ j hj

/-- Claim C19: for every grid of exactly `rows` rows of exactly `columns` elements (whatever
`rows` and `columns`, `rows > columns` and `rows < columns` included), every access `matrix[y][x]`
(and every access to a row pointer `matrix[y]`) of `simplify_matrix_fraction` has `y < rows` and
`x < columns`, the grid keeping its dimensions; and with a table that has a 0 at index `n`, every
read `prime_numbers[i]` of `reduction` has `i ≤ n`, so that it lies inside the table.  The indices
are natural numbers: the loops count up from 0 or from a cursor, or down to 0. -/
theorem index_safety (ps : List Int) (rows columns : Nat) (m : List (List fraction))
    (hd : dims m rows columns) :
    (∀ a ∈ simplify_matrix_accesses ps rows columns m, access_ok rows columns a = true) ∧
      dims (simplify_matrix_fraction ps rows columns m) rows columns ∧
      ∀ (l l2 : List Int) (x : fraction), ∀ i ∈ reduction_reads (l ++ 0 :: l2) x,
        i ≤ l.length ∧ i < (l ++ 0 :: l2).length := by
  refine ⟨fun a ha => ?_, (simplify_back_inv ps rows columns m hd).1.1.1, fun l l2 x i hi => ?_⟩
  · unfold simplify_matrix_accesses at ha
    simp only at ha
    rcases List.mem_append.mp ha with h | h
    · exact forward_loop_accesses_ok ps rows columns rows 0 m [] a h
    · rw [(forward_loop_cursor ps rows columns m).2] at h
      rcases Nat.lt_or_ge (min rows columns) 2 with h2 | h2
      · rw [show min rows columns - 1 = 0 by omega] at h
        simp [back_loop_accesses] at h
      · exact back_loop_accesses_ok ps rows columns (by omega) _ (by omega) _ a h
  · have := reduction_reads_le l l2 x i hi
    rw [List.length_append, List.length_cons]
    omega

/-- Claim C19, witness of `index_safety`: a `3` by `2` grid (more rows than columns), whose run
makes accesses in the forward elimination and in the back substitution; the read of
`matrix[1][1]` is among them. -/
theorem index_safety_witness :
    dims [ints [0, 4], ints [3, -1], ints [1, 1]] 3 2 ∧
    access.elem 1 1 ∈ simplify_matrix_accesses small_primes 3 2
      [ints [0, 4], ints [3, -1], ints [1, 1]] ∧
    back_loop_accesses small_primes 2 1
      (forward_elimination small_primes 3 2 [ints [0, 4], ints [3, -1], ints [1, 1]]).matrix ≠ [] ∧
    reduction_reads small_primes ⟨667, 713⟩ = [0, 1, 2, 3, 4, 5, 6, 7, 8] ∧
    ((∀ a ∈ simplify_matrix_accesses small_primes 3 2 [ints [0, 4], ints [3, -1], ints [1, 1]],
        access_ok 3 2 a = true) ∧
      dims (simplify_matrix_fraction small_primes 3 2 [ints [0, 4], ints [3, -1], ints [1, 1]])
        3 2 ∧
      ∀ (l l2 : List Int) (x : fraction), ∀ i ∈ reduction_reads (l ++ 0 :: l2) x,
        i ≤ l.length ∧ i < (l ++ 0 :: l2).length) :=
  ⟨by unfold dims; decide, by decide, by decide, by decide,
    index_safety small_primes 3 2 [ints [0, 4], ints [3, -1], ints [1, 1]]
      (by unfold dims; decide)⟩

/-! ### The invariant of the results and lowest terms on 32-bit `int` -/

theorem fraction_mul_int32_eq (ps : List Int) (a b : fraction)
    (hnn : fits_int (a.numerator * b.numerator)) (hdd : fits_int (a.denominator * b.denominator)) :
    fraction_mul_int32 ps a b = fraction_mul ps a b := by
  unfold fraction_mul_int32 fraction_mul
  rw [wrap_int_eq _ hnn, wrap_int_eq _ hdd]
  exact reduction_int32_eq ps _ hnn hdd

theorem fraction_div_int32_eq (ps : List Int) (a b : fraction)
    (hnd : fits_int (a.numerator * b.denominator)) (hdn : fits_int (a.denominator * b.numerator)) :
    fraction_div_int32 ps a b = fraction_div ps a b := by
  unfold fraction_div_int32 fraction_div
  rw [wrap_int_eq _ hnd, wrap_int_eq _ hdn]
  exact reduction_int32_eq ps _ hnd hdn

/-- Wrapping leaves a value of a 32-bit `int` as it is. -/
theorem wrap_int_range (v : Int) (h : int_range v) : wrap_int v = v := by
  unfold int_range at h
  unfold wrap_int
  omega

theorem fraction_sub_int32_eq (ps : List Int) (a b : fraction)
    (hnd : int_range (a.numerator * b.denominator)) (hdn : int_range (b.numerator * a.denominator))
    (hsub : fits_int (a.numerator * b.denominator - b.numerator * a.denominator))
    (hdd : fits_int (a.denominator * b.denominator)) :
    fraction_sub_int32 ps a b = fraction_sub ps a b := by
  unfold fraction_sub_int32 fraction_sub
  rw [wrap_int_range _ hnd, wrap_int_range _ hdn, wrap_int_eq _ hsub, wrap_int_eq _ hdd]
  exact reduction_int32_eq ps _ hsub hdd

/-- With a well-formed table the trial division on 32-bit `int` makes no step when `abs` of the
numerator is negative (the numerator is `INT_MIN`) or the denominator is negative. -/
theorem reduction_for_int32_stuck (ps : List Int) (hps : prime_table ps) (x : fraction)
    (h : c_abs_int32 x.numerator < 0 ∨ x.denominator < 0) : reduction_for_int32 ps x = x := by
  cases ps with
  | nil => rfl
  | cons p rest =>
    have hp := prime_table_nonneg hps p (List.mem_cons_self _ _)
    unfold reduction_for_int32
    rw [if_neg]
    rintro ⟨h1, h2, -⟩
    omega

/-- What `reduction` on 32-bit `int` returns on `{INT_MIN, 2}` and on `{6, INT_MIN}`. -/
theorem reduction_int32_int_min (ps : List Int) (hps : prime_table ps) :
    reduction_int32 ps ⟨-2147483648, 2⟩ = ⟨-2147483648, 2⟩ ∧
      reduction_int32 ps ⟨6, -2147483648⟩ = ⟨-6, -2147483648⟩ := by
  have h1 : c_abs_int32 (-2147483648) = -2147483648 := by decide
  have h2 : c_abs_int32 (-6) = 6 := by decide
  have h3 : wrap_int (6 * -1) = -6 := by decide
  have h4 : wrap_int (-2147483648 * -1) = -2147483648 := by decide
  have e1 : ¬ ((2 : Int) < 0) := by decide
  have e2 : (-2147483648 : Int) < 0 := by decide
  constructor
  · unfold reduction_int32
    simp only [e1, if_false, h1]
    rw [if_neg (by decide), if_neg (by decide)]
    exact reduction_for_int32_stuck ps hps _ (Or.inl (by rw [h1]; decide))
  · unfold reduction_int32
    simp only [e2, if_true, h3, h4, h2]
    rw [if_neg (by decide), if_neg (by decide)]
    exact reduction_for_int32_stuck ps hps _ (Or.inr (by decide))
/-- Claim C8, as the code has it: with a well-formed table, for all fractions `a`, `b` with
nonzero denominators, every result of `fraction_mul`, `fraction_sub` and `fraction_div` (nonzero
divisor) on 32-bit `int` satisfies the Rational Number invariant `reduced`, when no product of the
operation overflows and the numerator and the denominator it hands to `reduction` lie within
`±2147483647`, that is, neither is `INT_MIN`. -/
theorem arithmetic_int32_reduced (ps : List Int) (hps : prime_table ps) (a b : fraction)
    (ha : a.denominator ≠ 0) (hb : b.denominator ≠ 0) :
    (fits_int (a.numerator * b.numerator) → fits_int (a.denominator * b.denominator) →
      reduced ps (fraction_mul_int32 ps a b)) ∧
    (int_range (a.numerator * b.denominator) → int_range (b.numerator * a.denominator) →
      fits_int (a.numerator * b.denominator - b.numerator * a.denominator) →
      fits_int (a.denominator * b.denominator) → reduced ps (fraction_sub_int32 ps a b)) ∧
    (b.numerator ≠ 0 → fits_int (a.numerator * b.denominator) →
      fits_int (a.denominator * b.numerator) → reduced ps (fraction_div_int32 ps a b)) := by
  obtain ⟨h1, h2, h3⟩ := results_reduced ps hps a b ha hb
  refine ⟨fun hnn hdd => ?_, fun hnd hdn hsub hdd => ?_, fun hbn hnd hdn => ?_⟩
  · rw [fraction_mul_int32_eq ps a b hnn hdd]
    exact h1
  · rw [fraction_sub_int32_eq ps a b hnd hdn hsub hdd]
    exact h2
  · rw [fraction_div_int32_eq ps a b hnd hdn]
    exact h3 hbn

/-- Claim C8, witness of `arithmetic_int32_reduced`: the fractions `{40000, 4}` and
`{-50000, 15}`, whose numerators have the product `-2000000000`. -/
theorem arithmetic_int32_reduced_witness :
    fraction_mul_int32 small_primes ⟨40000, 4⟩ ⟨-50000, 15⟩ = ⟨-100000000, 3⟩ ∧
    fraction_sub_int32 small_primes ⟨40000, 4⟩ ⟨-50000, 15⟩ = ⟨40000, 3⟩ ∧
    fraction_div_int32 small_primes ⟨40000, 4⟩ ⟨-50000, 15⟩ = ⟨-3, 1⟩ ∧
    reduced small_primes (fraction_mul_int32 small_primes ⟨40000, 4⟩ ⟨-50000, 15⟩) ∧
    reduced small_primes (fraction_sub_int32 small_primes ⟨40000, 4⟩ ⟨-50000, 15⟩) ∧
    reduced small_primes (fraction_div_int32 small_primes ⟨40000, 4⟩ ⟨-50000, 15⟩) :=
  ⟨by decide, by decide, by decide,
    (arithmetic_int32_reduced small_primes small_primes_table ⟨40000, 4⟩ ⟨-50000, 15⟩
      (by decide) (by decide)).1 (by decide) (by decide),
    (arithmetic_int32_reduced small_primes small_primes_table ⟨40000, 4⟩ ⟨-50000, 15⟩
      (by decide) (by decide)).2.1 (by decide) (by decide) (by decide) (by decide),
    (arithmetic_int32_reduced small_primes small_primes_table ⟨40000, 4⟩ ⟨-50000, 15⟩
      (by decide) (by decide)).2.2 (by decide) (by decide) (by decide)⟩

/-- Claim C8, counterexample: in `fraction_mul({INT_MIN, 2}, {1, 1})` no product overflows (the
products are `INT_MIN` and 2, both values of a 32-bit `int`), and with every well-formed table the
call returns `{INT_MIN, 2}`, because `abs(INT_MIN)` is `INT_MIN` and the trial division makes no
step; with a table that holds 2, as the table of `initialize_prime_numbers` does, the result
breaks the invariant: 2 divides both members. -/
theorem int_min_not_reduced :
    int_range ((-2147483648 : Int) * 1) ∧ int_range ((2 : Int) * 1) ∧
    (∀ ps : List Int, prime_table ps →
      fraction_mul_int32 ps ⟨-2147483648, 2⟩ ⟨1, 1⟩ = ⟨-2147483648, 2⟩ ∧
      ((2 : Int) ∈ ps → ¬ reduced ps (fraction_mul_int32 ps ⟨-2147483648, 2⟩ ⟨1, 1⟩))) ∧
    prime_table (initialize_prime_numbers 65535) ∧
    ¬ reduced (initialize_prime_numbers 65535)
      (fraction_mul_int32 (initialize_prime_numbers 65535) ⟨-2147483648, 2⟩ ⟨1, 1⟩) := by
  have key : ∀ ps : List Int, prime_table ps →
      fraction_mul_int32 ps ⟨-2147483648, 2⟩ ⟨1, 1⟩ = ⟨-2147483648, 2⟩ ∧
      ((2 : Int) ∈ ps → ¬ reduced ps (fraction_mul_int32 ps ⟨-2147483648, 2⟩ ⟨1, 1⟩)) := by
    intro ps hps
    have h : fraction_mul_int32 ps ⟨-2147483648, 2⟩ ⟨1, 1⟩ = ⟨-2147483648, 2⟩ :=
      (reduction_int32_int_min ps hps).1
    refine ⟨h, fun h2 hr => ?_⟩
    rw [h] at hr
    exact hr.2.2.2 2 h2 (by decide) (by decide) ⟨by decide, by decide⟩
  exact ⟨by decide, by decide, key, initialize_prime_numbers_table 65535,
    (key _ (initialize_prime_numbers_table 65535)).2
      (initialize_prime_numbers_complete 65535 2 Nat.prime_two (by decide))⟩

/-- Claim C18, as the code has it: given a well-formed table that holds every prime up to 65535,
for every fraction `x` with nonzero denominator whose members lie within `±2147483647` (neither
is `INT_MIN`) and have no common prime factor above 65535 (in particular when
`min(|x.numerator|, |x.denominator|) ≤ 65535`), `reduction(x)` on 32-bit `int` has a positive
denominator and `gcd(|numerator|, denominator) = 1`. -/
theorem reduction_int32_lowest_terms (ps : List Int) (hps : prime_table ps)
    (hall : ∀ q : Nat, q.Prime → q ≤ 65535 → (q : Int) ∈ ps) (x : fraction)
    (hx : x.denominator ≠ 0) (hn : fits_int x.numerator) (hd : fits_int x.denominator)
    (hreach : (∀ q : Nat, q.Prime → (q : Int) ∣ x.numerator → (q : Int) ∣ x.denominator →
        q ≤ 65535) ∨ min (c_abs x.numerator) (c_abs x.denominator) ≤ 65535) :
    0 < (reduction_int32 ps x).denominator ∧
      Int.gcd (reduction_int32 ps x).numerator (reduction_int32 ps x).denominator = 1 ∧
      Nat.gcd (c_abs (reduction_int32 ps x).numerator).toNat
        (reduction_int32 ps x).denominator.toNat = 1 := by
  rw [reduction_int32_eq ps x hn hd]
  exact reduction_lowest_exact ps hps hall x hx hreach

/-- Claim C18, witness of `reduction_int32_lowest_terms`: the table of
`initialize_prime_numbers` and the fraction `131070 / 196605`, whose members exceed 65535 and
have the common prime factors 3, 5, 17 and 257. -/
theorem reduction_int32_lowest_terms_witness :
    prime_table (initialize_prime_numbers 65535) ∧
    (⟨131070, 196605⟩ : fraction).denominator ≠ 0 ∧
    fits_int (131070 : Int) ∧ fits_int (196605 : Int) ∧
    0 < (reduction_int32 (initialize_prime_numbers 65535) ⟨131070, 196605⟩).denominator ∧
    Int.gcd (reduction_int32 (initialize_prime_numbers 65535) ⟨131070, 196605⟩).numerator
      (reduction_int32 (initialize_prime_numbers 65535) ⟨131070, 196605⟩).denominator = 1 ∧
    Nat.gcd
      (c_abs (reduction_int32 (initialize_prime_numbers 65535) ⟨131070, 196605⟩).numerator).toNat
      (reduction_int32 (initialize_prime_numbers 65535) ⟨131070, 196605⟩).denominator.toNat = 1 :=
  ⟨initialize_prime_numbers_table 65535, by decide, by decide, by decide,
    reduction_int32_lowest_terms (initialize_prime_numbers 65535)
      (initialize_prime_numbers_table 65535)
      (initialize_prime_numbers_complete 65535) ⟨131070, 196605⟩ (by decide) (by decide)
      (by decide)
      (Or.inl (by
        intro q hq h1 h2
        have h3 : (q : Int) ∣ 196605 - 131070 := Int.dvd_sub h2 h1
        have h4 : (q : Int) ≤ 65535 := Int.le_of_dvd (by norm_num) (by simpa using h3)
        exact_mod_cast h4))⟩

/-- Claim C18, counterexample: the table of `initialize_prime_numbers` is well formed and holds
every prime up to 65535, the fractions `{INT_MIN, 2}` and `{6, INT_MIN}` have nonzero
denominators and `min(|numerator|, |denominator|) ≤ 65535`, and `reduction` on 32-bit `int`
returns `{INT_MIN, 2}`, whose members have the gcd 2, and `{-6, INT_MIN}`, whose denominator is
negative. -/
theorem int_min_not_lowest :
    prime_table (initialize_prime_numbers 65535) ∧
    (∀ q : Nat, q.Prime → q ≤ 65535 → (q : Int) ∈ initialize_prime_numbers 65535) ∧
    min (c_abs (-2147483648)) (c_abs 2) ≤ 65535 ∧ min (c_abs 6) (c_abs (-2147483648)) ≤ 65535 ∧
    reduction_int32 (initialize_prime_numbers 65535) ⟨-2147483648, 2⟩ = ⟨-2147483648, 2⟩ ∧
    Int.gcd (reduction_int32 (initialize_prime_numbers 65535) ⟨-2147483648, 2⟩).numerator
      (reduction_int32 (initialize_prime_numbers 65535) ⟨-2147483648, 2⟩).denominator = 2 ∧
    reduction_int32 (initialize_prime_numbers 65535) ⟨6, -2147483648⟩ = ⟨-6, -2147483648⟩ ∧
    (reduction_int32 (initialize_prime_numbers 65535) ⟨6, -2147483648⟩).denominator < 0 := by
  obtain ⟨h1, h2⟩ := reduction_int32_int_min _ (initialize_prime_numbers_table 65535)
  refine ⟨initialize_prime_numbers_table 65535, initialize_prime_numbers_complete 65535,
    by decide, by decide, h1, ?_, h2, ?_⟩
  · rw [h1]
    decide
  · rw [h2]
    decide

/-! ### Addition -/

/-- Claim C11, on the operation `add` as the spec gives it: for all fractions `a`, `b` with
nonzero denominators, every result `r` of `add(a, b)` has the cross-products of the pair
`{a.n * b.d + b.n * a.d, a.d * b.d}`, a nonzero denominator, gives back `a.n * b.d + b.n * a.d`
as `r.n * (a.d * b.d) / r.d`, and stands for the rational `a + b`; and `add(a, b)` has a result
whenever the cross-multiplication does not overflow. -/
theorem fraction_add_cross (ps : List Int) (a b : fraction) (ha : a.denominator ≠ 0)
    (hb : b.denominator ≠ 0) :
    (∀ r, fraction_add ps a b = some r →
      (a.numerator * b.denominator + b.numerator * a.denominator) * r.denominator =
        r.numerator * (a.denominator * b.denominator) ∧
      r.denominator ≠ 0 ∧
      (r.numerator * (a.denominator * b.denominator)).tdiv r.denominator =
        a.numerator * b.denominator + b.numerator * a.denominator ∧
      val r = val a + val b) ∧
    (int_range (a.numerator * b.denominator) → int_range (b.numerator * a.denominator) →
      fits_int (a.numerator * b.denominator + b.numerator * a.denominator) →
      fits_int (a.denominator * b.denominator) →
      fraction_add ps a b = some (reduction ps
        ⟨a.numerator * b.denominator + b.numerator * a.denominator,
          a.denominator * b.denominator⟩)) := by
  have hdd : a.denominator * b.denominator ≠ 0 := mul_ne_zero ha hb
  constructor
  · intro r hr
    unfold fraction_add at hr
    split_ifs at hr
    have hr2 := Option.some.inj hr
    have hcross := reduction_cross ps
      ⟨a.numerator * b.denominator + b.numerator * a.denominator,
        a.denominator * b.denominator⟩
    have hden := reduction_den_ne_zero ps
      ⟨a.numerator * b.denominator + b.numerator * a.denominator,
        a.denominator * b.denominator⟩ hdd
    have hval := val_reduction ps
      ⟨a.numerator * b.denominator + b.numerator * a.denominator,
        a.denominator * b.denominator⟩ hdd
    rw [hr2] at hcross hden hval
    simp only at hcross
    refine ⟨hcross, hden, ?_, ?_⟩
    · rw [← hcross]
      exact Int.mul_tdiv_cancel _ hden
    · rw [hval]
      unfold val
      have ha1 : (a.denominator : ℚ) ≠ 0 := by exact_mod_cast ha
      have hb1 : (b.denominator : ℚ) ≠ 0 := by exact_mod_cast hb
      push_cast
      field_simp
  · intro h1 h2 h3 h4
    unfold fraction_add
    rw [if_pos ⟨h1, h2, h3, h4⟩]

/-- Claim C11, witness of `fraction_add_cross`: `{1, 2} + {1, 3}`, which is `{5, 6}`. -/
theorem fraction_add_cross_witness :
    fraction_add small_primes ⟨1, 2⟩ ⟨1, 3⟩ = some ⟨5, 6⟩ ∧
    ((∀ r, fraction_add small_primes ⟨1, 2⟩ ⟨1, 3⟩ = some r →
      ((1 : Int) * 3 + 1 * 2) * r.denominator = r.numerator * ((2 : Int) * 3) ∧
      r.denominator ≠ 0 ∧
      (r.numerator * ((2 : Int) * 3)).tdiv r.denominator = (1 : Int) * 3 + 1 * 2 ∧
      val r = val ⟨1, 2⟩ + val ⟨1, 3⟩) ∧
    (int_range ((1 : Int) * 3) → int_range ((1 : Int) * 2) →
      fits_int ((1 : Int) * 3 + 1 * 2) → fits_int ((2 : Int) * 3) →
      fraction_add small_primes ⟨1, 2⟩ ⟨1, 3⟩ =
        some (reduction small_primes ⟨(1 : Int) * 3 + 1 * 2, (2 : Int) * 3⟩))) :=
  ⟨by decide, fraction_add_cross small_primes ⟨1, 2⟩ ⟨1, 3⟩ (by decide) (by decide)⟩


end Matrixes
